import Mathlib

/-!
# fcompare: the shred counter and the canonical form

A shallow embedding of `main.go` (package `main`).  Go's `map[string]int` is a
`Finmap` from `String` to `GoInt` (finite, extensional equality, `lookup` /
`insert` / `erase`), Go's `int` is the 64-bit two's complement integer, with
wrap-around on `+` and `-`.  The mutex of `ShredMap` serialises the calls; a run
of the program is therefore a finite sequence of calls, each applied atomically.

The canonical form of an element is built on `encoding/json` and `crypto/sha256`
of the Go standard library.  `HashAnything` is SHA-256 written out; the decoder
and `json.Marshal` are modelled on parse trees, with the parsing and formatting
of `float64` numbers and the quoting of strings as parameters (`Codec`).
-/

namespace FCompare

/-! ## Go's `int` (64 bit) -/

/-- Reduction of an integer into the range of Go's 64-bit `int`
(two's complement wrap-around). -/
def wrapInt (x : Int) : Int :=
  (x + 9223372036854775808) % 18446744073709551616 - 9223372036854775808

/-- Go's `int` on a 64-bit platform: the integers from `-2^63` to `2^63 - 1`. -/
structure GoInt where
  val : Int
  lo : -9223372036854775808 ≤ val
  hi : val < 9223372036854775808
  deriving DecidableEq

/-- Conversion into `int`, wrapping around. -/
def GoInt.ofInt (x : Int) : GoInt :=
  ⟨wrapInt x, by unfold wrapInt; omega, by unfold wrapInt; omega⟩

instance : Add GoInt := ⟨fun a b => GoInt.ofInt (a.val + b.val)⟩
instance : Sub GoInt := ⟨fun a b => GoInt.ofInt (a.val - b.val)⟩
instance : Neg GoInt := ⟨fun a => GoInt.ofInt (-a.val)⟩
instance (n : Nat) : OfNat GoInt n := ⟨GoInt.ofInt n⟩

/-! ## `ShredMap` (main.go) -/

/-- The struct `ShredMap`: the field `shred map[string]int`.  The field `mux`
carries no data; it makes every method body one atomic step. -/
structure ShredMap where
  shred : Finmap (fun _ : String => GoInt)
  deriving DecidableEq

/-- `NewShredMap`: `shred: make(map[string]int)`. -/
def NewShredMap : ShredMap := ⟨∅⟩

/-- `(*ShredMap).IncreaseCounter`. -/
def ShredMap.IncreaseCounter (s : ShredMap) (hash : String) : ShredMap :=
  match s.shred.lookup hash with
  | some val =>
    if val = -1 then
      ⟨s.shred.erase hash⟩
    else
      ⟨s.shred.insert hash (val + 1)⟩
  | none => ⟨s.shred.insert hash 1⟩

/-- `(*ShredMap).DecreaseCounter`. -/
def ShredMap.DecreaseCounter (s : ShredMap) (hash : String) : ShredMap :=
  match s.shred.lookup hash with
  | some val =>
    if val = 1 then
      ⟨s.shred.erase hash⟩
    else
      ⟨s.shred.insert hash (val - 1)⟩
  | none => ⟨s.shred.insert hash (-1)⟩

/-- `(*ShredMap).Size`: `len(s.shred)`. -/
def ShredMap.Size (s : ShredMap) : Nat := s.shred.keys.card

/-- `(*ShredMap).IsEmpty`: `len(s.shred) == 0`. -/
def ShredMap.IsEmpty (s : ShredMap) : Bool := decide (s.shred.keys.card = 0)

/-! ## Runs of the two streams -/

/-- One call on the shared counter: stream A calls `IncreaseCounter`, stream B
calls `DecreaseCounter` (`main`, the two goroutines). -/
inductive Call where
  | increase (hash : String)
  | decrease (hash : String)
  deriving DecidableEq, Repr

/-- The effect of one call. -/
def ShredMap.call (s : ShredMap) : Call → ShredMap
  | .increase hash => s.IncreaseCounter hash
  | .decrease hash => s.DecreaseCounter hash

/-- The effect of a finite sequence of calls, in the order in which the mutex
admits them. -/
def ShredMap.run (s : ShredMap) (calls : List Call) : ShredMap :=
  calls.foldl ShredMap.call s

/-- The fingerprints passed to `IncreaseCounter`, in call order. -/
def increases : List Call → List String
  | [] => []
  | .increase hash :: cs => hash :: increases cs
  | .decrease _ :: cs => increases cs

/-- The fingerprints passed to `DecreaseCounter`, in call order. -/
def decreases : List Call → List String
  | [] => []
  | .increase _ :: cs => decreases cs
  | .decrease hash :: cs => hash :: decreases cs

/-- The sequence `calls` is an interleaving of stream A (one `IncreaseCounter`
per item of `A`, in order) with stream B (one `DecreaseCounter` per item of `B`,
in order). -/
def Interleaving (A B : List String) (calls : List Call) : Prop :=
  increases calls = A ∧ decreases calls = B

instance (A B : List String) (calls : List Call) : Decidable (Interleaving A B calls) :=
  inferInstanceAs (Decidable (_ ∧ _))

/-- The stored value of `hash`, an absent key read as `0` (Go's `s.shred[hash]`). -/
def ShredMap.value (s : ShredMap) (hash : String) : Int :=
  match s.shred.lookup hash with
  | some val => val.val
  | none => 0

/-- No key of the map is stored with value `0`. -/
def ShredMap.NoZero (s : ShredMap) : Prop :=
  ∀ hash ∈ s.shred.keys, s.shred.lookup hash ≠ some 0

instance (s : ShredMap) : Decidable s.NoZero :=
  inferInstanceAs (Decidable (∀ hash ∈ s.shred.keys, _))

/-- The value `IncreaseCounter` leaves at its key, from the one found there. -/
def incEntry : Option GoInt → Option GoInt
  | some val => if val = -1 then none else some (val + 1)
  | none => some 1

/-- The value `DecreaseCounter` leaves at its key, from the one found there. -/
def decEntry : Option GoInt → Option GoInt
  | some val => if val = 1 then none else some (val - 1)
  | none => some (-1)

/-- Occurrences of `IncreaseCounter(hash)` minus occurrences of
`DecreaseCounter(hash)` in a sequence of calls. -/
def net (calls : List Call) (hash : String) : Int :=
  ((increases calls).count hash : Int) - ((decreases calls).count hash : Int)

/-- The map entry that represents the integer `n`: none for a multiple of
`2^64`, otherwise `n` wrapped into `int`. -/
def entryOf (n : Int) : Option GoInt :=
  if GoInt.ofInt n = 0 then none else some (GoInt.ofInt n)

/-- The distinct fingerprints whose number of occurrences in `A` differs from
their number of occurrences in `B`. -/
def mismatches (A B : List String) : Finset String :=
  (A ++ B).toFinset.filter (fun f => A.count f ≠ B.count f)

/-- The distinct fingerprints whose occurrences in `A` and in `B` differ by
something that is not a multiple of `2^64`. -/
def mismatchesMod (A B : List String) : Finset String :=
  (A ++ B).toFinset.filter (fun f => wrapInt ((A.count f : Int) - (B.count f : Int)) ≠ 0)

/-! ## `HashAnything` (main.go)

`sha256.Sum256` of the Go standard library is SHA-256 (FIPS 180-4), written out
here on 32-bit words held in `Nat`; `hex.EncodeToString` is lower-case hex. -/

/-- The round constants of SHA-256. -/
def roundConstants : List Nat :=
  [1116352408, 1899447441, 3049323471, 3921009573, 961987163, 1508970993,
    2453635748, 2870763221, 3624381080, 310598401, 607225278, 1426881987,
    1925078388, 2162078206, 2614888103, 3248222580, 3835390401, 4022224774,
    264347078, 604807628, 770255983, 1249150122, 1555081692, 1996064986,
    2554220882, 2821834349, 2952996808, 3210313671, 3336571891, 3584528711,
    113926993, 338241895, 666307205, 773529912, 1294757372, 1396182291,
    1695183700, 1986661051, 2177026350, 2456956037, 2730485921, 2820302411,
    3259730800, 3345764771, 3516065817, 3600352804, 4094571909, 275423344,
    430227734, 506948616, 659060556, 883997877, 958139571, 1322822218,
    1537002063, 1747873779, 1955562222, 2024104815, 2227730452, 2361852424,
    2428436474, 2756734187, 3204031479, 3329325298]

/-- The initial hash value of SHA-256. -/
def initialHash : List Nat :=
  [1779033703, 3144134277, 1013904242, 2773480762, 1359893119, 2600822924, 528734635,
    1541459225]

/-- Addition of 32-bit words. -/
def add32 (x y : Nat) : Nat := (x + y) % 4294967296

/-- Rotation of a 32-bit word to the right. -/
def rotr (x n : Nat) : Nat := (x >>> n) ||| ((x <<< (32 - n)) % 4294967296)

def smallSigma0 (x : Nat) : Nat := rotr x 7 ^^^ rotr x 18 ^^^ (x >>> 3)

def smallSigma1 (x : Nat) : Nat := rotr x 17 ^^^ rotr x 19 ^^^ (x >>> 10)

def bigSigma0 (x : Nat) : Nat := rotr x 2 ^^^ rotr x 13 ^^^ rotr x 22

def bigSigma1 (x : Nat) : Nat := rotr x 6 ^^^ rotr x 11 ^^^ rotr x 25

def choose32 (e f g : Nat) : Nat := (e &&& f) ^^^ ((4294967295 - e) &&& g)

def majority32 (a b c : Nat) : Nat := (a &&& b) ^^^ (a &&& c) ^^^ (b &&& c)

/-- The message followed by the bit `1`, zeros, and its length in bits as a
64-bit big-endian number, a multiple of 64 bytes in all. -/
def padMessage (msg : List Nat) : List Nat :=
  msg ++ 128 :: List.replicate ((64 - (msg.length + 9) % 64) % 64) 0
    ++ [msg.length * 8 / 72057594037927936 % 256, msg.length * 8 / 281474976710656 % 256,
        msg.length * 8 / 1099511627776 % 256, msg.length * 8 / 4294967296 % 256,
        msg.length * 8 / 16777216 % 256, msg.length * 8 / 65536 % 256,
        msg.length * 8 / 256 % 256, msg.length * 8 % 256]

/-- Bytes to big-endian 32-bit words. -/
def toWords : List Nat → List Nat
  | a :: b :: c :: d :: rest => (a * 16777216 + b * 65536 + c * 256 + d) :: toWords rest
  | _ => []

/-- The 64 rounds on one block; the second argument is the window of the 16
latest words of the message schedule, the third the working variables. -/
def compress : List Nat → List Nat → List Nat → List Nat
  | k :: ks,
    [w0, w1, w2, w3, w4, w5, w6, w7, w8, w9, w10, w11, w12, w13, w14, w15],
    [a, b, c, d, e, f, g, h] =>
    compress ks
      [w1, w2, w3, w4, w5, w6, w7, w8, w9, w10, w11, w12, w13, w14, w15,
        add32 (add32 (add32 (smallSigma1 w14) w9) (smallSigma0 w1)) w0]
      [add32 (add32 (add32 (add32 (add32 h (bigSigma1 e)) (choose32 e f g)) k) w0)
          (add32 (bigSigma0 a) (majority32 a b c)),
        a, b, c,
        add32 d (add32 (add32 (add32 (add32 h (bigSigma1 e)) (choose32 e f g)) k) w0),
        e, f, g]
  | _, _, vars => vars

/-- The hash after `n` further blocks of 16 words. -/
def hashBlocks : Nat → List Nat → List Nat → List Nat
  | 0, _, hash => hash
  | n + 1, ws, hash =>
    hashBlocks n (ws.drop 16)
      (List.zipWith add32 hash (compress roundConstants (ws.take 16) hash))

/-- `sha256.Sum256`: the digest as eight 32-bit words. -/
def sum256 (msg : List Nat) : List Nat :=
  hashBlocks ((toWords (padMessage msg)).length / 16) (toWords (padMessage msg)) initialHash

def hexDigit (n : Nat) : Char := Char.ofNat (if n < 10 then 48 + n else 87 + n)

/-- Eight lower-case hex digits of a 32-bit word. -/
def hexWord (x : Nat) : List Char :=
  [hexDigit (x / 268435456 % 16), hexDigit (x / 16777216 % 16), hexDigit (x / 1048576 % 16),
    hexDigit (x / 65536 % 16), hexDigit (x / 4096 % 16), hexDigit (x / 256 % 16),
    hexDigit (x / 16 % 16), hexDigit (x % 16)]

/-- `HashAnything`: `hex.EncodeToString(sha256.Sum256(anything))`, the bytes given
as numbers below 256. -/
def HashAnything (anything : List Nat) : String :=
  String.mk ((sum256 anything).flatMap hexWord)

/-! ## The canonical form of one element (`StreamedJParse`, body of the loop)

`dec.Decode(&m)` reads one JSON text into an `interface{}`, `json.Marshal(m)`
writes it back with the keys of every object sorted.  `encoding/json` is
modelled on the parse tree of the text. -/

/-- A JSON text that the decoder accepts, as its parse tree: white space
dropped, strings and keys as the characters they denote, a number as its literal,
the members of an object in the order in which they are written (a key may be
written more than once). -/
inductive JText where
  | null
  | bool (b : Bool)
  | number (literal : String)
  | string (s : String)
  | array (items : List JText)
  | object (members : List (String × JText))
  deriving Repr

/-- The scalar codecs of the Go library that hold `float64` values and JSON
string escaping: `strconv.ParseFloat(literal, 64)` (none for a literal out of
range), the number format of `json.Marshal`, and its quoted, escaped string. -/
structure Codec where
  Float : Type
  parseFloat : String → Option Float
  formatFloat : Float → List Char
  quote : String → List Char

/-- The value `dec.Decode` stores in an `interface{}`: `nil`, `bool`, `float64`,
`string`, `[]interface{}` or `map[string]interface{}`; the map is held as the list
of its entries, each key once. -/
inductive JValue (F : Type) where
  | null
  | bool (b : Bool)
  | number (x : F)
  | string (s : String)
  | array (items : List (JValue F))
  | object (entries : List (String × JValue F))

/-- The map assignment `m[key] = v`. -/
def setEntry {α : Type} (key : String) (v : α) (m : List (String × α)) : List (String × α) :=
  (key, v) :: m.filter (fun e => e.1 ≠ key)

mutual
/-- `dec.Decode(&m)` for `var m interface{}`: none when a number is out of range. -/
def decodeValue (C : Codec) : JText → Option (JValue C.Float)
  | .null => some .null
  | .bool b => some (.bool b)
  | .number literal =>
    match C.parseFloat literal with
    | some x => some (.number x)
    | none => none
  | .string s => some (.string s)
  | .array items =>
    match decodeArray C items with
    | some vs => some (.array vs)
    | none => none
  | .object members =>
    match decodeObject C members [] with
    | some m => some (.object m)
    | none => none
/-- The items of an array, in order. -/
def decodeArray (C : Codec) : List JText → Option (List (JValue C.Float))
  | [] => some []
  | t :: ts =>
    match decodeValue C t, decodeArray C ts with
    | some v, some vs => some (v :: vs)
    | _, _ => none
/-- The members of an object, assigned one after the other to the map `m`. -/
def decodeObject (C : Codec) :
    List (String × JText) → List (String × JValue C.Float) →
      Option (List (String × JValue C.Float))
  | [], m => some m
  | (key, t) :: ms, m =>
    match decodeValue C t with
    | some v => decodeObject C ms (setEntry key v m)
    | none => none
end

/-- The encoded items or members, separated by commas. -/
def joinComma : List (List Char) → List Char
  | [] => []
  | [a] => a
  | a :: b :: l => a ++ ',' :: joinComma (b :: l)

/-- The entries of a map in ascending order of their keys (`json.Marshal` sorts
the keys of a map as strings). -/
def sortByKey {α : Type} (entries : List (String × α)) : List (String × α) :=
  entries.insertionSort (fun a b => a.1.data ≤ b.1.data)

/-- One member of an encoded object: the quoted key, a colon, the value. -/
def encodeMember (C : Codec) (e : String × List Char) : List Char :=
  C.quote e.1 ++ ':' :: e.2

mutual
/-- `json.Marshal(m)` for a decoded value, as the text it writes. -/
def marshal (C : Codec) : JValue C.Float → List Char
  | .null => "null".data
  | .bool true => "true".data
  | .bool false => "false".data
  | .number x => C.formatFloat x
  | .string s => C.quote s
  | .array items => '[' :: joinComma (marshalArray C items) ++ [']']
  | .object entries =>
    Char.ofNat 123 :: joinComma ((sortByKey (marshalMap C entries)).map (encodeMember C))
      ++ [Char.ofNat 125]
/-- The encoded items of a slice. -/
def marshalArray (C : Codec) : List (JValue C.Float) → List (List Char)
  | [] => []
  | v :: vs => marshal C v :: marshalArray C vs
/-- The keys of a map with their encoded values. -/
def marshalMap (C : Codec) : List (String × JValue C.Float) → List (String × List Char)
  | [] => []
  | (key, v) :: es => (key, marshal C v) :: marshalMap C es
end

/-- The canonical bytes of one element, `entry` in `StreamedJParse`: the element
decoded and marshalled again; none when `dec.Decode` fails.  The bytes are a
UTF-8 text and are held as its characters. -/
def canonical (C : Codec) (t : JText) : Option (List Char) :=
  match decodeValue C t with
  | some m => some (marshal C m)
  | none => none

/-- The UTF-8 bytes of a character. -/
def utf8Char (c : Char) : List Nat :=
  if c.toNat < 128 then [c.toNat]
  else if c.toNat < 2048 then [192 + c.toNat / 64, 128 + c.toNat % 64]
  else if c.toNat < 65536 then
    [224 + c.toNat / 4096, 128 + c.toNat / 64 % 64, 128 + c.toNat % 64]
  else
    [240 + c.toNat / 262144, 128 + c.toNat / 4096 % 64, 128 + c.toNat / 64 % 64,
      128 + c.toNat % 64]

/-- The UTF-8 bytes of a text. -/
def utf8 (text : List Char) : List Nat := text.flatMap utf8Char

/-- The fingerprint the updater receives for one element:
`HashAnything(entry)`. -/
def fingerprint (C : Codec) (t : JText) : Option String :=
  match canonical C t with
  | some entry => some (HashAnything (utf8 entry))
  | none => none

mutual
/-- The text `u` is the text `t` with the members of objects written in another
order, at the top level or nested. -/
inductive Reordered : JText → JText → Prop
  | refl (t : JText) : Reordered t t
  | array {xs ys : List JText} : ReorderedList xs ys → Reordered (.array xs) (.array ys)
  | object {ms ms' ms'' : List (String × JText)} :
      List.Perm ms ms' → ReorderedMembers ms' ms'' → Reordered (.object ms) (.object ms'')
/-- Item by item. -/
inductive ReorderedList : List JText → List JText → Prop
  | nil : ReorderedList [] []
  | cons {x y : JText} {xs ys : List JText} :
      Reordered x y → ReorderedList xs ys → ReorderedList (x :: xs) (y :: ys)
/-- Member by member, under the same keys. -/
inductive ReorderedMembers : List (String × JText) → List (String × JText) → Prop
  | nil : ReorderedMembers [] []
  | cons {key : String} {x y : JText} {ms ms' : List (String × JText)} :
      Reordered x y → ReorderedMembers ms ms' →
        ReorderedMembers ((key, x) :: ms) ((key, y) :: ms')
end

mutual
/-- No object of the text, at any depth, writes a key twice. -/
def noDupKeys : JText → Bool
  | .array items => noDupKeysItems items
  | .object members => decide ((members.map Prod.fst).Nodup) && noDupKeysMembers members
  | _ => true
def noDupKeysItems : List JText → Bool
  | [] => true
  | t :: ts => noDupKeys t && noDupKeysItems ts
def noDupKeysMembers : List (String × JText) → Bool
  | [] => true
  | (_, t) :: ms => noDupKeys t && noDupKeysMembers ms
end

/-- The canonical texts of the items of an array, none if one fails to decode. -/
def encodeItems (C : Codec) : List JText → Option (List (List Char))
  | [] => some []
  | t :: ts =>
    (canonical C t).bind (fun a => (encodeItems C ts).map (fun as => a :: as))

/-- The keys of the members of an object with the canonical texts of their
values, none if one fails to decode. -/
def encodeMembers (C : Codec) : List (String × JText) → Option (List (String × List Char))
  | [] => some []
  | (key, t) :: ms =>
    (canonical C t).bind (fun a => (encodeMembers C ms).map (fun es => (key, a) :: es))

/-- The text of an array from the texts of its items. -/
def arrayText (items : List (List Char)) : List Char :=
  '[' :: joinComma items ++ [']']

/-- The text of an object from its keys and the texts of their values. -/
def objectText (C : Codec) (entries : List (String × List Char)) : List Char :=
  Char.ofNat 123 :: joinComma ((sortByKey entries).map (encodeMember C)) ++ [Char.ofNat 125]

/-! ### What the canonical text needs from the scalar codecs -/

/-- The characters of a JSON number. -/
def numberChars : List Char := "0123456789+-.eE".data

/-- The facts about the scalar codecs that make an encoded value end where the
next comma or closing bracket stands: a number is written with the characters of
a JSON number, at least one; a quoted string starts with the quotation mark and
no quoted string is a proper prefix of another text that starts with a quoted
string. -/
structure Codec.Lawful (C : Codec) : Prop where
  formatFloat_ne_nil : ∀ x, C.formatFloat x ≠ []
  formatFloat_chars : ∀ x, ∀ c ∈ C.formatFloat x, c ∈ numberChars
  quote_head : ∀ s, ∃ rest, C.quote s = Char.ofNat 34 :: rest
  quote_prefix_free : ∀ s t r r', C.quote s ++ r = C.quote t ++ r' → C.quote s = C.quote t

/-- The characters that can follow a value inside an array or object. -/
def isDelimiter (c : Char) : Prop := c = ',' ∨ c = ']' ∨ c = Char.ofNat 125

instance (c : Char) : Decidable (isDelimiter c) :=
  inferInstanceAs (Decidable (_ ∨ _ ∨ _))

/-- The text is empty or starts with a delimiter. -/
def closes : List Char → Prop
  | [] => True
  | c :: _ => isDelimiter c

/-- The text is not empty and does not start with a delimiter. -/
def startsValue : List Char → Prop
  | [] => False
  | c :: _ => ¬ isDelimiter c

/-- The kind of a decoded value. -/
def valueTag {F : Type} : JValue F → Nat
  | .null => 0
  | .bool true => 1
  | .bool false => 2
  | .number _ => 3
  | .string _ => 4
  | .array _ => 5
  | .object _ => 6

/-- The kind of value that a first character announces. -/
def charTag (c : Char) : Nat :=
  if c = 'n' then 0 else if c = 't' then 1 else if c = 'f' then 2
  else if c = Char.ofNat 34 then 4 else if c = '[' then 5
  else if c = Char.ofNat 123 then 6 else 3

/-- The text `a` ends where it ends: whenever it and an encoded value are
followed by delimiters and the two texts agree, `a` is that encoded value. -/
def Delimited (C : Codec) (a : List Char) : Prop :=
  ∀ (w : JValue C.Float) (r s : List Char),
    a ++ r = marshal C w ++ s → closes r → closes s → a = marshal C w

/-- What follows the first of a list of joined texts. -/
def sepTail (l : List (List Char)) (t : List Char) : List Char :=
  match l with
  | [] => t
  | _ :: _ => ',' :: (joinComma l ++ t)

/-! ### An instance of the codecs, for evaluation -/

/-- The decimal digits of `n` in front of `acc`. -/
def decimalDigits : Nat → Nat → List Char → List Char
  | 0, _, acc => acc
  | fuel + 1, n, acc =>
    if n < 10 then Char.ofNat (48 + n) :: acc
    else decimalDigits fuel (n / 10) (Char.ofNat (48 + n % 10) :: acc)

/-- A natural number in decimal. -/
def decimal (n : Nat) : List Char := decimalDigits (n + 1) n []

/-- The number written by a list of decimal digits, none if a character is not
a digit. -/
def parseDigits : List Char → Nat → Option Nat
  | [], acc => some acc
  | c :: cs, acc =>
    if 48 ≤ c.toNat ∧ c.toNat ≤ 57 then parseDigits cs (acc * 10 + (c.toNat - 48)) else none

/-- `strconv.ParseFloat` on the integer literals of magnitude up to `2^53`, which
`float64` holds exactly; every other literal is outside this instance: for a
literal with a fraction or an exponent, for `-0` and for a larger integer the
answer none is not one of the library, which parses them. -/
def plainParse (literal : String) : Option Int :=
  match literal.data with
  | [] => none
  | '-' :: ds =>
    match parseDigits ds 0 with
    | some n => if ds ≠ [] ∧ 0 < n ∧ n ≤ 9007199254740992 then some (-(n : Int)) else none
    | none => none
  | ds =>
    match parseDigits ds 0 with
    | some n => if n ≤ 9007199254740992 then some (n : Int) else none
    | none => none

/-- The number format of `json.Marshal` on these integers: plain decimal. -/
def plainFormat (x : Int) : List Char :=
  if x < 0 then '-' :: decimal x.natAbs else decimal x.natAbs

/-- The escape sequence `json.Marshal` writes for one character of a string
(HTML escaping on). -/
def escapeChar (c : Char) : List Char :=
  if c.toNat = 34 ∨ c.toNat = 92 then [Char.ofNat 92, c]
  else if c.toNat = 8 then [Char.ofNat 92, 'b']
  else if c.toNat = 12 then [Char.ofNat 92, 'f']
  else if c.toNat = 10 then [Char.ofNat 92, 'n']
  else if c.toNat = 13 then [Char.ofNat 92, 'r']
  else if c.toNat = 9 then [Char.ofNat 92, 't']
  else if c.toNat < 32 ∨ c.toNat = 60 ∨ c.toNat = 62 ∨ c.toNat = 38 then
    [Char.ofNat 92, 'u', '0', '0', hexDigit (c.toNat / 16), hexDigit (c.toNat % 16)]
  else if c.toNat = 8232 then [Char.ofNat 92, 'u', '2', '0', '2', '8']
  else if c.toNat = 8233 then [Char.ofNat 92, 'u', '2', '0', '2', '9']
  else [c]

/-- The quoted string `json.Marshal` writes. -/
def plainQuote (s : String) : List Char :=
  Char.ofNat 34 :: s.data.flatMap escapeChar ++ [Char.ofNat 34]

/-- The codecs on integer numbers. -/
def plainCodec : Codec :=
  ⟨Int, plainParse, plainFormat, plainQuote⟩

/-- The length of the escape sequence that a text starts with. -/
def escapeLength : List Char → Nat
  | c :: d :: _ => if c.toNat = 92 then (if d.toNat = 117 then 6 else 2) else 1
  | _ => 1

/-! ## Reading the stream

`StreamedJParse` (main.go) on a `json.Decoder`. -/

/-! ### `json.Decoder`, as `StreamedJParse` drives it

The token API of `encoding/json` (`stream.go`), on an input that is read to its
end; `readValue` with the parser behind it is a parameter. -/

/-- The token states of a `json.Decoder`. -/
inductive TokenState where
  | topValue
  | arrayStart
  | arrayValue
  | arrayComma
  | objectStart
  | objectKey
  | objectColon
  | objectValue
  | objectComma
  deriving DecidableEq, Repr

/-- A `json.Decoder`: the unread input, the token state and the stack of the
token states of the enclosing arrays and objects. -/
structure Decoder where
  buf : List Char
  tokenState : TokenState
  tokenStack : List TokenState
  deriving DecidableEq, Repr

/-- `json.NewDecoder(input)`. -/
def NewDecoder (input : List Char) : Decoder := ⟨input, .topValue, []⟩

/-- What `dec.Token()` returns: a delimiter or a decoded scalar. -/
inductive Token (F : Type) where
  | delim (c : Char)
  | value (v : JValue F)

/-- The work of `dec.readValue` and of the parser on the value it delimits:
the JSON text at the front of the unread input as its parse tree together with the
input behind it, or the message of the syntax error. -/
abbrev ReadValue := List Char → Except String (JText × List Char)

/-- A successful `readValue` consumes input. -/
def ReadValue.Consumes (readValue : ReadValue) : Prop :=
  ∀ buf t rest, readValue buf = .ok (t, rest) → rest.length < buf.length

/-- White space of JSON: space, tab, carriage return, line feed. -/
def isSpace (c : Char) : Bool :=
  decide (c.toNat = 32 ∨ c.toNat = 9 ∨ c.toNat = 13 ∨ c.toNat = 10)

/-- The input from its first character that is not white space. -/
def skipSpace : List Char → List Char
  | [] => []
  | c :: cs => if isSpace c then skipSpace cs else c :: cs

/-- `dec.peek()`: the next character that is not white space, or `io.EOF`. -/
def Decoder.peek (dec : Decoder) : Except String Char × Decoder :=
  match skipSpace dec.buf with
  | [] => (.error "EOF", dec)
  | c :: cs => (.ok c, ⟨c :: cs, dec.tokenState, dec.tokenStack⟩)

/-- `dec.More()`. -/
def Decoder.More (dec : Decoder) : Bool × Decoder :=
  match dec.peek with
  | (.ok c, dec) => (decide (c ≠ ']' ∧ c ≠ Char.ofNat 125), dec)
  | (.error _, dec) => (false, dec)

/-- `dec.tokenValueAllowed()`. -/
def Decoder.tokenValueAllowed (dec : Decoder) : Bool :=
  match dec.tokenState with
  | .topValue | .arrayStart | .arrayValue | .objectValue => true
  | _ => false

/-- `dec.tokenValueEnd()`, on the token state. -/
def tokenValueEnd : TokenState → TokenState
  | .arrayStart | .arrayValue => .arrayComma
  | .objectValue => .objectComma
  | state => state

/-- `dec.tokenPrepareForDecode()`: the error, if any. -/
def Decoder.tokenPrepareForDecode (dec : Decoder) : Option String × Decoder :=
  match dec.tokenState with
  | .arrayComma =>
    match dec.peek with
    | (.error err, dec) => (some err, dec)
    | (.ok c, dec) =>
      if c ≠ ',' then (some "expected comma after array element", dec)
      else (none, ⟨dec.buf.tail, .arrayValue, dec.tokenStack⟩)
  | .objectColon =>
    match dec.peek with
    | (.error err, dec) => (some err, dec)
    | (.ok c, dec) =>
      if c ≠ ':' then (some "expected colon after object key", dec)
      else (none, ⟨dec.buf.tail, .objectValue, dec.tokenStack⟩)
  | _ => (none, dec)

mutual
/-- The literal of the first number of the text that `strconv.ParseFloat`
rejects. -/
def firstRangeError (C : Codec) : JText → Option String
  | .number literal =>
    match C.parseFloat literal with
    | some _ => none
    | none => some literal
  | .array items => firstRangeErrorItems C items
  | .object members => firstRangeErrorMembers C members
  | _ => none
def firstRangeErrorItems (C : Codec) : List JText → Option String
  | [] => none
  | t :: ts =>
    match firstRangeError C t with
    | some literal => some literal
    | none => firstRangeErrorItems C ts
def firstRangeErrorMembers (C : Codec) : List (String × JText) → Option String
  | [] => none
  | (_, t) :: ms =>
    match firstRangeError C t with
    | some literal => some literal
    | none => firstRangeErrorMembers C ms
end

/-- The message of the `UnmarshalTypeError` for a number out of range. -/
def unmarshalTypeError (C : Codec) (t : JText) : String :=
  "json: cannot unmarshal number " ++ (firstRangeError C t).getD ""
    ++ " into Go value of type float64"

/-- `dec.Decode(&m)` for `var m interface{}`. -/
def Decoder.Decode (C : Codec) (readValue : ReadValue) (dec : Decoder) :
    Except String (JValue C.Float) × Decoder :=
  match dec.tokenPrepareForDecode with
  | (some err, dec) => (.error err, dec)
  | (none, dec) =>
    if dec.tokenValueAllowed = false then (.error "not at beginning of value", dec)
    else
      match readValue dec.buf with
      | .error err => (.error err, dec)
      | .ok (t, rest) =>
        match decodeValue C t with
        | some m => (.ok m, ⟨rest, tokenValueEnd dec.tokenState, dec.tokenStack⟩)
        | none =>
          (.error (unmarshalTypeError C t),
            ⟨rest, tokenValueEnd dec.tokenState, dec.tokenStack⟩)

/-- `dec.Decode(&x)` for `var x string`, as `Token` calls it on an object key. -/
def Decoder.DecodeString (readValue : ReadValue) (dec : Decoder) :
    Except String String × Decoder :=
  match dec.tokenPrepareForDecode with
  | (some err, dec) => (.error err, dec)
  | (none, dec) =>
    if dec.tokenValueAllowed = false then (.error "not at beginning of value", dec)
    else
      match readValue dec.buf with
      | .error err => (.error err, dec)
      | .ok (.string s, rest) => (.ok s, ⟨rest, tokenValueEnd dec.tokenState, dec.tokenStack⟩)
      | .ok (.null, rest) => (.ok "", ⟨rest, tokenValueEnd dec.tokenState, dec.tokenStack⟩)
      | .ok (_, rest) =>
        (.error "json: cannot unmarshal value into Go value of type string",
          ⟨rest, tokenValueEnd dec.tokenState, dec.tokenStack⟩)

/-- The two hex digits of a byte. -/
def hexByte (b : Nat) : String := String.mk [hexDigit (b / 16 % 16), hexDigit (b % 16)]

/-- `quoteChar(c)` of `encoding/json`, `c` being the first byte of the
character: the byte between apostrophes, as `strconv.Quote` writes it. -/
def quoteChar (c : Char) : String :=
  let b := (utf8Char c).headD 0
  let q := String.singleton (Char.ofNat 39)
  let bs := String.singleton (Char.ofNat 92)
  if b = 39 then q ++ bs ++ q ++ q
  else if b = 34 then q ++ String.singleton (Char.ofNat 34) ++ q
  else if b = 92 then q ++ bs ++ bs ++ q
  else if b = 7 then q ++ bs ++ "a" ++ q
  else if b = 8 then q ++ bs ++ "b" ++ q
  else if b = 12 then q ++ bs ++ "f" ++ q
  else if b = 10 then q ++ bs ++ "n" ++ q
  else if b = 13 then q ++ bs ++ "r" ++ q
  else if b = 9 then q ++ bs ++ "t" ++ q
  else if b = 11 then q ++ bs ++ "v" ++ q
  else if b < 32 ∨ b = 127 then q ++ bs ++ "x" ++ hexByte b ++ q
  else if 128 ≤ b ∧ (b ≤ 160 ∨ b = 173) then q ++ bs ++ "u00" ++ hexByte b ++ q
  else q ++ String.singleton (Char.ofNat b) ++ q

/-- The context that `dec.tokenError` names. -/
def tokenContext : TokenState → String
  | .topValue | .arrayStart | .arrayValue | .objectValue => " looking for beginning of value"
  | .arrayComma => " after array element"
  | .objectKey => " looking for beginning of object key string"
  | .objectColon => " after object key"
  | .objectComma => " after object key:value pair"
  | .objectStart => ""

/-- The message of `dec.tokenError(c)`. -/
def Decoder.tokenError (dec : Decoder) (c : Char) : String :=
  "invalid character " ++ quoteChar c ++ tokenContext dec.tokenState

/-- `dec.Token()`; the first argument bounds the turns of its loop, which takes
another turn only after consuming a colon or a comma. -/
def Decoder.tokenLoop (C : Codec) (readValue : ReadValue) :
    Nat → Decoder → Except String (Token C.Float) × Decoder
  | 0, dec => (.error "EOF", dec)
  | fuel + 1, dec =>
    match dec.peek with
    | (.error err, dec) => (.error err, dec)
    | (.ok c, dec) =>
      if c = '[' then
        if dec.tokenValueAllowed = false then (.error (dec.tokenError c), dec)
        else (.ok (.delim '['), ⟨dec.buf.tail, .arrayStart, dec.tokenState :: dec.tokenStack⟩)
      else if c = ']' then
        if dec.tokenState ≠ .arrayStart ∧ dec.tokenState ≠ .arrayComma then
          (.error (dec.tokenError c), dec)
        else
          match dec.tokenStack with
          | top :: stack => (.ok (.delim ']'), ⟨dec.buf.tail, tokenValueEnd top, stack⟩)
          | [] => (.error "index out of range", dec)
      else if c = Char.ofNat 123 then
        if dec.tokenValueAllowed = false then (.error (dec.tokenError c), dec)
        else
          (.ok (.delim (Char.ofNat 123)),
            ⟨dec.buf.tail, .objectStart, dec.tokenState :: dec.tokenStack⟩)
      else if c = Char.ofNat 125 then
        if dec.tokenState ≠ .objectStart ∧ dec.tokenState ≠ .objectComma then
          (.error (dec.tokenError c), dec)
        else
          match dec.tokenStack with
          | top :: stack =>
            (.ok (.delim (Char.ofNat 125)), ⟨dec.buf.tail, tokenValueEnd top, stack⟩)
          | [] => (.error "index out of range", dec)
      else if c = ':' then
        if dec.tokenState ≠ .objectColon then (.error (dec.tokenError c), dec)
        else Decoder.tokenLoop C readValue fuel ⟨dec.buf.tail, .objectValue, dec.tokenStack⟩
      else if c = ',' then
        if dec.tokenState = .arrayComma then
          Decoder.tokenLoop C readValue fuel ⟨dec.buf.tail, .arrayValue, dec.tokenStack⟩
        else if dec.tokenState = .objectComma then
          Decoder.tokenLoop C readValue fuel ⟨dec.buf.tail, .objectKey, dec.tokenStack⟩
        else (.error (dec.tokenError c), dec)
      else if c = Char.ofNat 34
          ∧ (dec.tokenState = .objectStart ∨ dec.tokenState = .objectKey) then
        match Decoder.DecodeString readValue ⟨dec.buf, .topValue, dec.tokenStack⟩ with
        | (.error err, dec') => (.error err, ⟨dec'.buf, dec.tokenState, dec'.tokenStack⟩)
        | (.ok x, dec') => (.ok (.value (.string x)), ⟨dec'.buf, .objectColon, dec'.tokenStack⟩)
      else
        if dec.tokenValueAllowed = false then (.error (dec.tokenError c), dec)
        else
          match dec.Decode C readValue with
          | (.error err, dec) => (.error err, dec)
          | (.ok x, dec) => (.ok (.value x), dec)

/-- `dec.Token()`. -/
def Decoder.Token (C : Codec) (readValue : ReadValue) (dec : Decoder) :
    Except String (Token C.Float) × Decoder :=
  Decoder.tokenLoop C readValue (dec.buf.length + 1) dec

/-- The verb `%T` on a decoded value. -/
def typeName {F : Type} : JValue F → String
  | .null => "<nil>"
  | .bool _ => "bool"
  | .number _ => "float64"
  | .string _ => "string"
  | .array _ => "[]interface \x7b\x7d"
  | .object _ => "map[string]interface \x7b\x7d"

/-- The loop `for dec.More()` of `StreamedJParse`: the decoder behind the last
element, or the error of the element that fails to decode, and the state the
updater leaves; none when the turns run out. -/
def parseElements {σ : Type} (C : Codec) (readValue : ReadValue) (updater : String → σ → σ) :
    Nat → Decoder → σ → Option (Except String Decoder × σ)
  | 0, _, _ => none
  | fuel + 1, dec, s =>
    match dec.More with
    | (true, dec) =>
      match dec.Decode C readValue with
      | (.error err, _) => some (.error ("failed to decode: " ++ err), s)
      | (.ok m, dec) =>
        parseElements C readValue updater fuel dec (updater (HashAnything (utf8 (marshal C m))) s)
    | (false, dec) => some (.ok dec, s)

/-- `StreamedJParse(updater, input)`: the error it returns (none for `nil`) and
the state the calls of the updater leave. -/
def StreamedJParse {σ : Type} (C : Codec) (readValue : ReadValue) (updater : String → σ → σ)
    (input : List Char) (s : σ) : Option (Option String × σ) :=
  match (NewDecoder input).Token C readValue with
  | (.error err, _) => some (some ("failed to read open bracket: " ++ err), s)
  | (.ok (.delim t), dec) =>
    if t ≠ '[' then
      some (some ("expected opening bracket " ++ String.mk [Char.ofNat 39, '[', Char.ofNat 39]
        ++ " but got " ++ String.singleton t), s)
    else
      match parseElements C readValue updater (input.length + 1) dec s with
      | none => none
      | some (.error err, s) => some (some err, s)
      | some (.ok dec, s) =>
        match dec.Token C readValue with
        | (.error err, _) => some (some ("failed to read closing bracket: " ++ err), s)
        | (.ok _, _) => some (none, s)
  | (.ok (.value v), _) => some (some ("expected JSON array but got " ++ typeName v), s)


/-! ### A scanner and parser of JSON texts, for evaluation

`scanner.go` and the unquoting of `decode.go`, as one recursive descent. -/

/-- The message of a syntax error at the character `c`. -/
def syntaxError (c : Char) (context : String) : String :=
  "invalid character " ++ quoteChar c ++ " " ++ context

def isDigitChar (c : Char) : Bool := decide (48 ≤ c.toNat ∧ c.toNat ≤ 57)

/-- The value of a hex digit. -/
def hexValue (c : Char) : Option Nat :=
  if 48 ≤ c.toNat ∧ c.toNat ≤ 57 then some (c.toNat - 48)
  else if 97 ≤ c.toNat ∧ c.toNat ≤ 102 then some (c.toNat - 87)
  else if 65 ≤ c.toNat ∧ c.toNat ≤ 70 then some (c.toNat - 55)
  else none

/-- The character of a one-letter escape. -/
def simpleEscape (e : Char) : Option Char :=
  if e.toNat = 34 ∨ e.toNat = 92 ∨ e = '/' then some e
  else if e = 'b' then some (Char.ofNat 8)
  else if e = 'f' then some (Char.ofNat 12)
  else if e = 'n' then some (Char.ofNat 10)
  else if e = 'r' then some (Char.ofNat 13)
  else if e = 't' then some (Char.ofNat 9)
  else none

/-- The characters a pending surrogate and the next UTF-16 unit stand for, and
the surrogate then pending: a high and a low surrogate form one character, a
surrogate without partner is the replacement character. -/
def utf16Step (pending : Option Nat) (unit : Nat) : List Char × Option Nat :=
  match pending with
  | some hi =>
    if 55296 ≤ hi ∧ hi < 56320 ∧ 56320 ≤ unit ∧ unit < 57344 then
      ([Char.ofNat (65536 + (hi - 55296) * 1024 + (unit - 56320))], none)
    else if 55296 ≤ unit ∧ unit < 57344 then ([Char.ofNat 65533], some unit)
    else ([Char.ofNat 65533, Char.ofNat unit], none)
  | none =>
    if 55296 ≤ unit ∧ unit < 57344 then ([], some unit)
    else ([Char.ofNat unit], none)

/-- The characters flushed when something else than a `\u` escape follows. -/
def flushPending : Option Nat → List Char
  | some _ => [Char.ofNat 65533]
  | none => []

/-- A string behind its opening quotation mark: the string it denotes and the
input behind the closing quotation mark.  `acc` holds the characters so far, last
first. -/
def scanString : List Char → Option Nat → List Char → Except String (String × List Char)
  | [], _, _ => .error "unexpected EOF"
  | c :: cs, pending, acc =>
    if c.toNat = 34 then .ok (String.mk (flushPending pending ++ acc).reverse, cs)
    else if c.toNat = 92 then
      match cs with
      | [] => .error "unexpected EOF"
      | e :: cs₁ =>
        if e = 'u' then
          match cs₁ with
          | h₁ :: h₂ :: h₃ :: h₄ :: cs₂ =>
            match hexValue h₁, hexValue h₂, hexValue h₃, hexValue h₄ with
            | some a, some b, some c', some d =>
              scanString cs₂ (utf16Step pending (a * 4096 + b * 256 + c' * 16 + d)).2
                ((utf16Step pending (a * 4096 + b * 256 + c' * 16 + d)).1.reverse ++ acc)
            | none, _, _, _ => .error (syntaxError h₁ "in \\u hexadecimal character escape")
            | _, none, _, _ => .error (syntaxError h₂ "in \\u hexadecimal character escape")
            | _, _, none, _ => .error (syntaxError h₃ "in \\u hexadecimal character escape")
            | _, _, _, none => .error (syntaxError h₄ "in \\u hexadecimal character escape")
          | short =>
            match short.find? (fun h => (hexValue h).isNone) with
            | some h => .error (syntaxError h "in \\u hexadecimal character escape")
            | none => .error "unexpected EOF"
        else
          match simpleEscape e with
          | some ch => scanString cs₁ none (ch :: (flushPending pending ++ acc))
          | none => .error (syntaxError e "in string escape code")
    else if c.toNat < 32 then .error (syntaxError c "in string literal")
    else scanString cs none (c :: (flushPending pending ++ acc))

/-- A run of digits and the input behind it. -/
def scanDigits : List Char → List Char × List Char
  | [] => ([], [])
  | c :: cs =>
    if isDigitChar c then ((c :: (scanDigits cs).1), (scanDigits cs).2)
    else ([], c :: cs)

/-- The exponent of a number, if one follows. -/
def scanExponent (buf : List Char) : Except String (List Char × List Char) :=
  match buf with
  | e :: cs =>
    if e = 'e' ∨ e = 'E' then
      match cs with
      | [] => .error "unexpected EOF"
      | sign :: cs₁ =>
        if sign = '+' ∨ sign = '-' then
          match cs₁ with
          | [] => .error "unexpected EOF"
          | d :: _ =>
            if isDigitChar d then .ok (e :: sign :: (scanDigits cs₁).1, (scanDigits cs₁).2)
            else .error (syntaxError d "in exponent of numeric literal")
        else if isDigitChar sign then .ok (e :: (scanDigits cs).1, (scanDigits cs).2)
        else .error (syntaxError sign "in exponent of numeric literal")
    else .ok ([], buf)
  | [] => .ok ([], [])

/-- The fraction and exponent of a number, if they follow. -/
def scanFraction (buf : List Char) : Except String (List Char × List Char) :=
  match buf with
  | '.' :: cs =>
    match cs with
    | [] => .error "unexpected EOF"
    | d :: _ =>
      if isDigitChar d then
        match scanExponent (scanDigits cs).2 with
        | .ok (ex, rest) => .ok ('.' :: (scanDigits cs).1 ++ ex, rest)
        | .error err => .error err
      else .error (syntaxError d "after decimal point in numeric literal")
  | _ => scanExponent buf

/-- A number without its sign: the integer part, then fraction and exponent. -/
def scanUnsigned (buf : List Char) : Except String (List Char × List Char) :=
  match buf with
  | [] => .error "unexpected EOF"
  | d :: cs =>
    if d = '0' then
      match scanFraction cs with
      | .ok (fr, rest) => .ok (d :: fr, rest)
      | .error err => .error err
    else if isDigitChar d then
      match scanFraction (scanDigits cs).2 with
      | .ok (fr, rest) => .ok (d :: (scanDigits cs).1 ++ fr, rest)
      | .error err => .error err
    else .error (syntaxError d "in numeric literal")

/-- The rest of a literal `true`, `false` or `null` behind its first letter. -/
def scanLiteral (name : String) : List Char → List Char → Except String (List Char)
  | [], buf => .ok buf
  | _ :: _, [] => .error "unexpected EOF"
  | l :: ls, c :: cs =>
    if c = l then scanLiteral name ls cs
    else
      .error (syntaxError c ("in literal " ++ name ++ " (expecting "
        ++ String.mk [Char.ofNat 39, l, Char.ofNat 39] ++ ")"))

/-- The nesting the scanner accepts. -/
def maxNestingDepth : Nat := 10000

mutual
/-- A value at the front of the input. -/
def scanValue : Nat → Nat → List Char → Except String (JText × List Char)
  | 0, _, _ => .error "unexpected EOF"
  | fuel + 1, depth, buf =>
    match skipSpace buf with
    | [] => .error "unexpected EOF"
    | c :: cs =>
      if c = '[' then
        if maxNestingDepth ≤ depth then .error "exceeded max depth"
        else
          match skipSpace cs with
          | [] => .error "unexpected EOF"
          | c₁ :: cs₁ =>
            if c₁ = ']' then .ok (.array [], cs₁)
            else
              match scanItems fuel (depth + 1) (c₁ :: cs₁) with
              | .ok (items, rest) => .ok (.array items, rest)
              | .error err => .error err
      else if c = Char.ofNat 123 then
        if maxNestingDepth ≤ depth then .error "exceeded max depth"
        else
          match skipSpace cs with
          | [] => .error "unexpected EOF"
          | c₁ :: cs₁ =>
            if c₁ = Char.ofNat 125 then .ok (.object [], cs₁)
            else
              match scanMembers fuel (depth + 1) (c₁ :: cs₁) with
              | .ok (members, rest) => .ok (.object members, rest)
              | .error err => .error err
      else if c = Char.ofNat 34 then
        match scanString cs none [] with
        | .ok (str, rest) => .ok (.string str, rest)
        | .error err => .error err
      else if c = '-' then
        match scanUnsigned cs with
        | .ok (lit, rest) => .ok (.number (String.mk (c :: lit)), rest)
        | .error err => .error err
      else if isDigitChar c then
        match scanUnsigned (c :: cs) with
        | .ok (lit, rest) => .ok (.number (String.mk lit), rest)
        | .error err => .error err
      else if c = 't' then
        match scanLiteral "true" "rue".data cs with
        | .ok rest => .ok (.bool true, rest)
        | .error err => .error err
      else if c = 'f' then
        match scanLiteral "false" "alse".data cs with
        | .ok rest => .ok (.bool false, rest)
        | .error err => .error err
      else if c = 'n' then
        match scanLiteral "null" "ull".data cs with
        | .ok rest => .ok (.null, rest)
        | .error err => .error err
      else .error (syntaxError c "looking for beginning of value")
/-- The items of an array from an item on, up to the closing bracket. -/
def scanItems : Nat → Nat → List Char → Except String (List JText × List Char)
  | 0, _, _ => .error "unexpected EOF"
  | fuel + 1, depth, buf =>
    match scanValue fuel depth buf with
    | .error err => .error err
    | .ok (t, rest) =>
      match skipSpace rest with
      | [] => .error "unexpected EOF"
      | c :: cs =>
        if c = ']' then .ok ([t], cs)
        else if c = ',' then
          match scanItems fuel depth cs with
          | .ok (ts, rest') => .ok (t :: ts, rest')
          | .error err => .error err
        else .error (syntaxError c "after array element")
/-- The members of an object from a key on, up to the closing brace. -/
def scanMembers : Nat → Nat → List Char → Except String (List (String × JText) × List Char)
  | 0, _, _ => .error "unexpected EOF"
  | fuel + 1, depth, buf =>
    match skipSpace buf with
    | [] => .error "unexpected EOF"
    | q :: cs₀ =>
      if q ≠ Char.ofNat 34 then
        .error (syntaxError q "looking for beginning of object key string")
      else
        match scanString cs₀ none [] with
        | .error err => .error err
        | .ok (key, rest₀) =>
          match skipSpace rest₀ with
          | [] => .error "unexpected EOF"
          | colon :: cs₁ =>
            if colon ≠ ':' then .error (syntaxError colon "after object key")
            else
              match scanValue fuel depth cs₁ with
              | .error err => .error err
              | .ok (t, rest) =>
                match skipSpace rest with
                | [] => .error "unexpected EOF"
                | c :: cs =>
                  if c = Char.ofNat 125 then .ok ([(key, t)], cs)
                  else if c = ',' then
                    match scanMembers fuel depth cs with
                    | .ok (ms, rest') => .ok ((key, t) :: ms, rest')
                    | .error err => .error err
                  else .error (syntaxError c "after object key:value pair")
end

/-- An instance of `readValue`: the JSON text at the front of the input. -/
def jsonRead : ReadValue := fun buf =>
  match skipSpace buf with
  | [] => .error "EOF"
  | _ :: _ => scanValue (2 * buf.length + 2) 0 buf

/-! ### Array texts -/

/-- The updater called on the fingerprints, one after the other. -/
def applyAll {σ : Type} (updater : String → σ → σ) (fps : List String) (s : σ) : σ :=
  fps.foldl (fun s h => updater h s) s

/-- The fingerprints of the elements that decode. -/
def fingerprints (C : Codec) (ts : List JText) : List String :=
  ts.filterMap (fingerprint C)

/-- The input `buf`, read in token state `state` (`arrayStart` behind the opening
bracket, `arrayComma` behind an element), holds the elements `ts`, each well-formed
for `readValue` and each but the first behind a comma; `buf'` is the input behind
the last of them and `state'` the token state there. -/
inductive ScansItems (readValue : ReadValue) :
    TokenState → List Char → List JText → TokenState → List Char → Prop
  | done (state : TokenState) (buf : List Char) : ScansItems readValue state buf [] state buf
  | first {buf cs rest buf' : List Char} {c : Char} {t : JText} {ts : List JText}
      {state' : TokenState} :
      skipSpace buf = c :: cs → c ≠ ']' → c ≠ Char.ofNat 125 →
      readValue (c :: cs) = .ok (t, rest) →
      ScansItems readValue .arrayComma rest ts state' buf' →
      ScansItems readValue .arrayStart buf (t :: ts) state' buf'
  | next {buf cs rest buf' : List Char} {t : JText} {ts : List JText}
      {state' : TokenState} :
      skipSpace buf = ',' :: cs →
      readValue cs = .ok (t, rest) →
      ScansItems readValue .arrayComma rest ts state' buf' →
      ScansItems readValue .arrayComma buf (t :: ts) state' buf'

/-- The input is a well-formed top-level array: white space, the opening
bracket, the elements `ts`, white space, the closing bracket, then `rest`. -/
def ArrayText (readValue : ReadValue) (input : List Char) (ts : List JText)
    (rest : List Char) : Prop :=
  ∃ body state buf, skipSpace input = '[' :: body
    ∧ ScansItems readValue .arrayStart body ts state buf ∧ skipSpace buf = ']' :: rest

/-- In token state `state` and before the input `buf`, `dec.More()` is true and
`dec.Decode(&m)` fails with the message `err`. -/
def ElementFails (C : Codec) (readValue : ReadValue) (state : TokenState) (buf : List Char)
    (err : String) : Prop :=
  (Decoder.mk buf state [.topValue]).More.1 = true
    ∧ ((Decoder.mk buf state [.topValue]).More.2.Decode C readValue).1 = .error err

/-- An updater that records the fingerprints it is called with, in order. -/
def record (hash : String) (calls : List String) : List String := calls ++ [hash]

/-! ## Reading the counter, the older variant, and `main` -/

/-- `(*ShredMap).IsEmpty` as a step on the state: its result and the map it
leaves.  The body reads `len(s.shred)` and assigns nothing. -/
def ShredMap.IsEmptyStep (s : ShredMap) : Bool × ShredMap := (s.IsEmpty, s)

/-- `(*ShredMap).Size` as a step on the state: its result and the map it
leaves.  The body reads `len(s.shred)` and assigns nothing. -/
def ShredMap.SizeStep (s : ShredMap) : Nat × ShredMap := (s.Size, s)

/-! ### The older variant of the counter (fcompare.go) -/

/-- `UpdateShredMaster` of fcompare.go, on the package-level map `shred`. -/
def UpdateShredMaster (shred : Finmap (fun _ : String => GoInt)) (hash : String) :
    Finmap (fun _ : String => GoInt) :=
  match shred.lookup hash with
  | some val =>
    if val = -1 then
      shred.erase hash
    else
      shred.insert hash (val + 1)
  | none => shred.insert hash 1

/-- `UpdateShredSlave` of fcompare.go, on the package-level map `shred`. -/
def UpdateShredSlave (shred : Finmap (fun _ : String => GoInt)) (hash : String) :
    Finmap (fun _ : String => GoInt) :=
  match shred.lookup hash with
  | some val =>
    if val = 1 then
      shred.erase hash
    else
      shred.insert hash (val - 1)
  | none => shred.insert hash (-1)

/-- One update of the older variant: the master stream calls
`UpdateShredMaster`, the slave stream `UpdateShredSlave`. -/
def updateShred (shred : Finmap (fun _ : String => GoInt)) :
    Call → Finmap (fun _ : String => GoInt)
  | .increase hash => UpdateShredMaster shred hash
  | .decrease hash => UpdateShredSlave shred hash

/-! ### `main` (main.go), after the two goroutines -/

/-- What `main` reports. -/
inductive Report where
  | fatalError (err : String)
  | notIdentical (differences : Nat)
  | identical
  deriving DecidableEq, Repr

/-- The loop `for err := range errChan`: the first error read from the channel,
if there is one, is fatal. -/
def firstError : List (Option String) → Option String
  | [] => none
  | some err :: _ => some err
  | none :: rest => firstError rest

/-- The end of `main`: `errChan` holds the results of the two `StreamedJParse`
calls in the order in which the goroutines sent them; then the counter is
checked. -/
def mainReport (errChan : List (Option String)) (shred : ShredMap) : Report :=
  match firstError errChan with
  | some err => .fatalError err
  | none =>
    if !shred.IsEmpty then .notIdentical shred.Size
    else .identical

/-- The hex digits of `hex.EncodeToString`. -/
def hexChars : List Char := "0123456789abcdef".data

/-! ## SHA-256 as FIPS 180-4 states it

The digest written after the standard, section by section, to compare `sum256`
with: the word functions of §4.1.2 are those above (`rotr`, `smallSigma0`, ...),
everything else is stated anew. -/

/-- The working variables `a` to `h`. -/
structure WorkingVars where
  a : Nat
  b : Nat
  c : Nat
  d : Nat
  e : Nat
  f : Nat
  g : Nat
  h : Nat
  deriving DecidableEq, Repr

/-- The eight words in the order `a` to `h`. -/
def WorkingVars.toList (v : WorkingVars) : List Nat := [v.a, v.b, v.c, v.d, v.e, v.f, v.g, v.h]

/-- The zero bytes of the padding (§5.1.1): behind the byte `0x80`, which holds
the bit `1`, the least number of zero bytes that brings the length to 56 modulo
64 bytes (448 modulo 512 bits). -/
def fipsZeroBytes (len : Nat) : Nat :=
  ((List.range 64).find? (fun z => decide ((len + 1 + z) % 64 = 56))).getD 0

/-- The length in bits as a 64-bit big-endian number, in eight bytes. -/
def fipsLength64 (bits : Nat) : List Nat :=
  (List.range 8).map (fun i => bits / 256 ^ (7 - i) % 256)

/-- The padded message (§5.1.1). -/
def fipsPad (M : List Nat) : List Nat :=
  M ++ [128] ++ List.replicate (fipsZeroBytes M.length) 0 ++ fipsLength64 (8 * M.length)

/-- The big-endian 32-bit word at byte `n` of the padded message. -/
def fipsWord (P : List Nat) (n : Nat) : Nat :=
  P.getD n 0 * 2 ^ 24 + P.getD (n + 1) 0 * 2 ^ 16 + P.getD (n + 2) 0 * 2 ^ 8 + P.getD (n + 3) 0

/-- The word `j` of block `i` of the padded message (§5.2.1), blocks counted
from 0. -/
def fipsM (P : List Nat) (i j : Nat) : Nat := fipsWord P (64 * i + 4 * j)

/-- The message schedule `W_t` of a block with the words `M` (§6.2.2, step 1). -/
def fipsW (M : Nat → Nat) : Nat → Nat
  | t + 16 =>
    (smallSigma1 (fipsW M (t + 14)) + fipsW M (t + 9) + smallSigma0 (fipsW M (t + 1))
      + fipsW M t) % 2 ^ 32
  | t => M t

/-- The round constant `K_t` (§4.2.2). -/
def fipsK (t : Nat) : Nat := roundConstants.getD t 0

/-- Round `t` on the working variables (§6.2.2, step 3). -/
def fipsRound (M : Nat → Nat) (v : WorkingVars) (t : Nat) : WorkingVars :=
  let T₁ := (v.h + bigSigma1 v.e + choose32 v.e v.f v.g + fipsK t + fipsW M t) % 2 ^ 32
  let T₂ := (bigSigma0 v.a + majority32 v.a v.b v.c) % 2 ^ 32
  ⟨(T₁ + T₂) % 2 ^ 32, v.a, v.b, v.c, (v.d + T₁) % 2 ^ 32, v.e, v.f, v.g⟩

/-- The initial hash value (§5.3.3). -/
def fipsH0 : WorkingVars :=
  ⟨initialHash.getD 0 0, initialHash.getD 1 0, initialHash.getD 2 0, initialHash.getD 3 0,
    initialHash.getD 4 0, initialHash.getD 5 0, initialHash.getD 6 0, initialHash.getD 7 0⟩

/-- The hash value after `i` blocks (§6.2.2, steps 2 to 4). -/
def fipsH (P : List Nat) : Nat → WorkingVars
  | 0 => fipsH0
  | i + 1 =>
    let H := fipsH P i
    let v := (List.range 64).foldl (fipsRound (fipsM P i)) H
    ⟨(v.a + H.a) % 2 ^ 32, (v.b + H.b) % 2 ^ 32, (v.c + H.c) % 2 ^ 32, (v.d + H.d) % 2 ^ 32,
      (v.e + H.e) % 2 ^ 32, (v.f + H.f) % 2 ^ 32, (v.g + H.g) % 2 ^ 32, (v.h + H.h) % 2 ^ 32⟩

/-- The SHA-256 digest of the message, as 32 bytes: the words of the last hash
value, big-endian. -/
def fipsSum256 (M : List Nat) : List Nat :=
  ((fipsH (fipsPad M) ((fipsPad M).length / 64)).toList).flatMap
    (fun x => [x / 2 ^ 24 % 256, x / 2 ^ 16 % 256, x / 2 ^ 8 % 256, x % 256])

/-- The rendering of `hex.EncodeToString`: two digits of `0123456789abcdef` per
byte, the high one first. -/
def hexEncode (src : List Nat) : List Char :=
  src.flatMap (fun v => [hexChars.getD (v / 16) '0', hexChars.getD (v % 16) '0'])

/-- The first sixty-four prime numbers. -/
def fipsPrimes : List Nat :=
  [2, 3, 5, 7, 11, 13, 17, 19, 23, 29, 31, 37, 41, 43, 47, 53, 59, 61, 67, 71, 73, 79, 83, 89,
    97, 101, 103, 107, 109, 113, 127, 131, 137, 139, 149, 151, 157, 163, 167, 173, 179, 181,
    191, 193, 197, 199, 211, 223, 227, 229, 233, 239, 241, 251, 257, 263, 269, 271, 277, 281,
    283, 293, 307, 311]

/-- The word `k` holds the first thirty-two bits of the fractional part of the
`n`-th root of `p`: with `c` the integer part of the root,
`c + k / 2^32 ≤ root < c + (k + 1) / 2^32`. -/
def IsFractionalRoot (n p k : Nat) : Prop :=
  k < 2 ^ 32 ∧ ∃ c ≤ p, (c * 2 ^ 32 + k) ^ n ≤ p * (2 ^ 32) ^ n
    ∧ p * (2 ^ 32) ^ n < (c * 2 ^ 32 + k + 1) ^ n

/-- The inequalities are decidable. -/
instance (n p k : Nat) : Decidable (IsFractionalRoot n p k) := by
  unfold IsFractionalRoot
  infer_instance

/-! ## Theorems -/

section GoIntLemmas

theorem GoInt.eq_iff (a b : GoInt) : a = b ↔ a.val = b.val := by
  cases a; cases b; simp

@[simp] theorem GoInt.val_ofInt (x : Int) : (GoInt.ofInt x).val = wrapInt x := rfl

@[simp] theorem GoInt.val_add (a b : GoInt) : (a + b).val = wrapInt (a.val + b.val) := rfl

@[simp] theorem GoInt.val_sub (a b : GoInt) : (a - b).val = wrapInt (a.val - b.val) := rfl

@[simp] theorem GoInt.val_zero : (0 : GoInt).val = 0 := by decide

@[simp] theorem GoInt.val_one : (1 : GoInt).val = 1 := by decide

@[simp] theorem GoInt.val_neg_one : (-1 : GoInt).val = -1 := by decide

theorem wrapInt_of_range {x : Int} (h1 : -9223372036854775808 ≤ x)
    (h2 : x < 9223372036854775808) : wrapInt x = x := by
  unfold wrapInt; omega

theorem GoInt.ofInt_val (a : GoInt) : GoInt.ofInt a.val = a := by
  rw [GoInt.eq_iff, GoInt.val_ofInt]
  exact wrapInt_of_range a.lo a.hi

end GoIntLemmas

section CounterLemmas

theorem lookup_IncreaseCounter (s : ShredMap) (h k : String) :
    (s.IncreaseCounter h).shred.lookup k
      = if k = h then incEntry (s.shred.lookup h) else s.shred.lookup k := by
  unfold ShredMap.IncreaseCounter
  by_cases hk : k = h
  · subst hk
    cases hl : s.shred.lookup k with
    | none => simp [incEntry, Finmap.lookup_insert]
    | some v =>
      by_cases hv : v = -1
      · simp [incEntry, hv, Finmap.lookup_erase]
      · simp [incEntry, hv, Finmap.lookup_insert]
  · cases hl : s.shred.lookup h with
    | none => simp [hk, Finmap.lookup_insert_of_ne _ hk]
    | some v =>
      by_cases hv : v = -1
      · simp [hv, hk, Finmap.lookup_erase_ne hk]
      · simp [hv, hk, Finmap.lookup_insert_of_ne _ hk]

theorem lookup_DecreaseCounter (s : ShredMap) (h k : String) :
    (s.DecreaseCounter h).shred.lookup k
      = if k = h then decEntry (s.shred.lookup h) else s.shred.lookup k := by
  unfold ShredMap.DecreaseCounter
  by_cases hk : k = h
  · subst hk
    cases hl : s.shred.lookup k with
    | none => simp [decEntry, Finmap.lookup_insert]
    | some v =>
      by_cases hv : v = 1
      · simp [decEntry, hv, Finmap.lookup_erase]
      · simp [decEntry, hv, Finmap.lookup_insert]
  · cases hl : s.shred.lookup h with
    | none => simp [hk, Finmap.lookup_insert_of_ne _ hk]
    | some v =>
      by_cases hv : v = 1
      · simp [hv, hk, Finmap.lookup_erase_ne hk]
      · simp [hv, hk, Finmap.lookup_insert_of_ne _ hk]

theorem ShredMap.ext_lookup {s t : ShredMap}
    (h : ∀ k, s.shred.lookup k = t.shred.lookup k) : s = t := by
  cases s; cases t
  simp only [ShredMap.mk.injEq]
  exact Finmap.ext_lookup h

/-- On every entry, present or absent, the two updates commute. -/
theorem incEntry_decEntry (o : Option GoInt) :
    decEntry (incEntry o) = incEntry (decEntry o) := by
  cases o with
  | none => simp [incEntry, decEntry]
  | some v =>
    obtain ⟨x, lo, hi⟩ := v
    simp only [incEntry, decEntry, GoInt.eq_iff, GoInt.val_add, GoInt.val_sub,
      GoInt.val_one, GoInt.val_neg_one]
    by_cases h1 : x = -1
    · subst h1
      simp [decEntry, incEntry, GoInt.eq_iff, wrapInt]
    · by_cases h2 : x = 1
      · subst h2
        simp [decEntry, incEntry, GoInt.eq_iff, wrapInt]
      · simp only [h1, h2, if_false, decEntry, incEntry, GoInt.eq_iff, GoInt.val_add,
          GoInt.val_sub, GoInt.val_one, GoInt.val_neg_one]
        by_cases h0 : x = 0
        · subst h0
          simp [wrapInt]
        · have e1 : ¬ wrapInt (x + 1) = 1 := by unfold wrapInt; omega
          have e2 : ¬ wrapInt (x - 1) = -1 := by unfold wrapInt; omega
          simp only [e1, e2, if_false, Option.some.injEq, GoInt.eq_iff, GoInt.val_add,
            GoInt.val_sub, GoInt.val_one]
          unfold wrapInt; omega

/-- The entry for `n + 1` is the increased entry for `n`. -/
theorem incEntry_entryOf (n : Int) : incEntry (entryOf n) = entryOf (n + 1) := by
  unfold entryOf
  by_cases h0 : GoInt.ofInt n = 0
  · have h0' := (GoInt.eq_iff _ _).mp h0
    simp only [GoInt.val_ofInt, GoInt.val_zero] at h0'
    have e : ¬ GoInt.ofInt (n + 1) = 0 := by
      rw [GoInt.eq_iff]; simp only [GoInt.val_ofInt, GoInt.val_zero]
      unfold wrapInt at *; omega
    simp only [h0, e, if_true, if_false, incEntry, Option.some.injEq]
    rw [GoInt.eq_iff]; simp only [GoInt.val_ofInt, GoInt.val_one]
    unfold wrapInt at *; omega
  · have h0' : ¬ wrapInt n = 0 := by
      intro h; apply h0; rw [GoInt.eq_iff]; simpa using h
    simp only [h0, if_false, incEntry]
    by_cases h1 : GoInt.ofInt n = -1
    · have h1' := (GoInt.eq_iff _ _).mp h1
      simp only [GoInt.val_ofInt, GoInt.val_neg_one] at h1'
      have e : GoInt.ofInt (n + 1) = 0 := by
        rw [GoInt.eq_iff]; simp only [GoInt.val_ofInt, GoInt.val_zero]
        unfold wrapInt at *; omega
      simp [h1, e]
    · have h1' : ¬ wrapInt n = -1 := by
        intro h; apply h1; rw [GoInt.eq_iff]; simpa using h
      have e : ¬ GoInt.ofInt (n + 1) = 0 := by
        rw [GoInt.eq_iff]; simp only [GoInt.val_ofInt, GoInt.val_zero]
        unfold wrapInt at *; omega
      simp only [h1, e, if_false, Option.some.injEq]
      rw [GoInt.eq_iff]; simp only [GoInt.val_ofInt, GoInt.val_add, GoInt.val_one]
      unfold wrapInt; omega

/-- The entry for `n - 1` is the decreased entry for `n`. -/
theorem decEntry_entryOf (n : Int) : decEntry (entryOf n) = entryOf (n - 1) := by
  unfold entryOf
  by_cases h0 : GoInt.ofInt n = 0
  · have h0' := (GoInt.eq_iff _ _).mp h0
    simp only [GoInt.val_ofInt, GoInt.val_zero] at h0'
    have e : ¬ GoInt.ofInt (n - 1) = 0 := by
      rw [GoInt.eq_iff]; simp only [GoInt.val_ofInt, GoInt.val_zero]
      unfold wrapInt at *; omega
    simp only [h0, e, if_true, if_false, decEntry, Option.some.injEq]
    rw [GoInt.eq_iff]; simp only [GoInt.val_ofInt, GoInt.val_neg_one]
    unfold wrapInt at *; omega
  · have h0' : ¬ wrapInt n = 0 := by
      intro h; apply h0; rw [GoInt.eq_iff]; simpa using h
    simp only [h0, if_false, decEntry]
    by_cases h1 : GoInt.ofInt n = 1
    · have h1' := (GoInt.eq_iff _ _).mp h1
      simp only [GoInt.val_ofInt, GoInt.val_one] at h1'
      have e : GoInt.ofInt (n - 1) = 0 := by
        rw [GoInt.eq_iff]; simp only [GoInt.val_ofInt, GoInt.val_zero]
        unfold wrapInt at *; omega
      simp [h1, e]
    · have h1' : ¬ wrapInt n = 1 := by
        intro h; apply h1; rw [GoInt.eq_iff]; simpa using h
      have e : ¬ GoInt.ofInt (n - 1) = 0 := by
        rw [GoInt.eq_iff]; simp only [GoInt.val_ofInt, GoInt.val_zero]
        unfold wrapInt at *; omega
      simp only [h1, e, if_false, Option.some.injEq]
      rw [GoInt.eq_iff]; simp only [GoInt.val_ofInt, GoInt.val_sub, GoInt.val_one]
      unfold wrapInt; omega

end CounterLemmas

section RunLemmas

theorem run_nil (s : ShredMap) : s.run [] = s := rfl

theorem run_cons (s : ShredMap) (c : Call) (cs : List Call) :
    s.run (c :: cs) = (s.call c).run cs := rfl

theorem net_nil (k : String) : net [] k = 0 := by
  simp [net, increases, decreases]

theorem net_increase (h : String) (cs : List Call) (k : String) :
    net (Call.increase h :: cs) k = (if k = h then 1 else 0) + net cs k := by
  unfold net
  simp only [increases, decreases, List.count_cons]
  by_cases hk : k = h
  · subst hk; simp; ring
  · have : ¬ h = k := fun e => hk e.symm
    simp [hk, this]

theorem net_decrease (h : String) (cs : List Call) (k : String) :
    net (Call.decrease h :: cs) k = net cs k - (if k = h then 1 else 0) := by
  unfold net
  simp only [increases, decreases, List.count_cons]
  by_cases hk : k = h
  · subst hk; simp; ring
  · have : ¬ h = k := fun e => hk e.symm
    simp [hk, this]

/-- A map whose entries represent the integers `c k` represents, after a run,
the integers `c k + net calls k`. -/
theorem lookup_run_entryOf (calls : List Call) :
    ∀ (s : ShredMap) (c : String → Int), (∀ k, s.shred.lookup k = entryOf (c k)) →
      ∀ k, (s.run calls).shred.lookup k = entryOf (c k + net calls k) := by
  induction calls with
  | nil => intro s c hs k; simp [run_nil, net_nil, hs]
  | cons a cs ih =>
    intro s c hs k
    rw [run_cons]
    cases a with
    | increase h =>
      have step : ∀ k, (s.call (Call.increase h)).shred.lookup k
          = entryOf (c k + if k = h then 1 else 0) := by
        intro k
        simp only [ShredMap.call, lookup_IncreaseCounter]
        by_cases hk : k = h
        · simp [hk, hs, incEntry_entryOf]
        · simp [hk, hs]
      rw [ih _ _ step k, net_increase, add_assoc]
    | decrease h =>
      have step : ∀ k, (s.call (Call.decrease h)).shred.lookup k
          = entryOf (c k - if k = h then 1 else 0) := by
        intro k
        simp only [ShredMap.call, lookup_DecreaseCounter]
        by_cases hk : k = h
        · simp [hk, hs, decEntry_entryOf]
        · simp [hk, hs]
      rw [ih _ _ step k, net_decrease]
      congr 1; ring

theorem entryOf_zero : entryOf 0 = none := by
  simp [entryOf, GoInt.eq_iff, wrapInt]

/-- From the empty map, the entry of `k` after a run represents `net calls k`. -/
theorem lookup_run_New (calls : List Call) (k : String) :
    (NewShredMap.run calls).shred.lookup k = entryOf (net calls k) := by
  have h := lookup_run_entryOf calls NewShredMap (fun _ => 0)
    (fun k => by simp [NewShredMap, Finmap.lookup_empty, entryOf_zero]) k
  simpa using h

theorem entryOf_eq_none (n : Int) : entryOf n = none ↔ wrapInt n = 0 := by
  unfold entryOf
  by_cases h : GoInt.ofInt n = 0
  · simp only [h, if_true, true_iff]
    simpa using (GoInt.eq_iff _ _).mp h
  · simp only [h, if_false]
    constructor
    · intro e; cases e
    · intro e; exact absurd ((GoInt.eq_iff _ _).mpr (by simpa using e)) h

theorem value_run_New (calls : List Call) (k : String) :
    (NewShredMap.run calls).value k = wrapInt (net calls k) := by
  unfold ShredMap.value
  rw [lookup_run_New]
  unfold entryOf
  by_cases h : GoInt.ofInt (net calls k) = 0
  · simp only [h, if_true]
    have := (GoInt.eq_iff _ _).mp h
    simp only [GoInt.val_ofInt, GoInt.val_zero] at this
    exact this.symm
  · simp [h]

theorem isEmpty_iff (s : ShredMap) :
    s.IsEmpty = true ↔ ∀ k, s.shred.lookup k = none := by
  unfold ShredMap.IsEmpty
  simp only [decide_eq_true_eq, Finset.card_eq_zero]
  constructor
  · intro h k
    rw [Finmap.lookup_eq_none, ← Finmap.mem_keys, h]
    exact Finset.not_mem_empty k
  · intro h
    ext k
    simp only [Finset.not_mem_empty, iff_false, Finmap.mem_keys]
    exact Finmap.lookup_eq_none.mp (h k)

theorem size_eq_zero_iff (s : ShredMap) : s.Size = 0 ↔ s.IsEmpty = true := by
  simp [ShredMap.Size, ShredMap.IsEmpty]

theorem wrapInt_eq_zero_of_small {n : Int} (h1 : -9223372036854775808 < n)
    (h2 : n < 9223372036854775808) : wrapInt n = 0 ↔ n = 0 := by
  unfold wrapInt; omega

end RunLemmas

section InvariantLemmas

theorem noZero_iff (s : ShredMap) : s.NoZero ↔ ∀ k, s.shred.lookup k ≠ some 0 := by
  unfold ShredMap.NoZero
  constructor
  · intro h k
    by_cases hk : k ∈ s.shred.keys
    · exact h k hk
    · rw [Finmap.mem_keys, ← Finmap.lookup_eq_none] at hk
      rw [hk]; exact fun e => by cases e
  · intro h k _
    exact h k

/-- Whatever it finds, `IncreaseCounter` never leaves `0` at its key. -/
theorem incEntry_ne_zero (o : Option GoInt) : incEntry o ≠ some 0 := by
  cases o with
  | none => simp [incEntry, GoInt.eq_iff]
  | some v =>
    obtain ⟨x, lo, hi⟩ := v
    unfold incEntry
    by_cases h1 : (⟨x, lo, hi⟩ : GoInt) = -1
    · simp [h1]
    · have h1' : ¬ x = -1 := by
        intro e; apply h1; rw [GoInt.eq_iff]; simpa using e
      simp only [h1, if_false, ne_eq, Option.some.injEq, GoInt.eq_iff, GoInt.val_add,
        GoInt.val_one, GoInt.val_zero]
      unfold wrapInt; omega

/-- Whatever it finds, `DecreaseCounter` never leaves `0` at its key. -/
theorem decEntry_ne_zero (o : Option GoInt) : decEntry o ≠ some 0 := by
  cases o with
  | none => simp [decEntry, GoInt.eq_iff]
  | some v =>
    obtain ⟨x, lo, hi⟩ := v
    unfold decEntry
    by_cases h1 : (⟨x, lo, hi⟩ : GoInt) = 1
    · simp [h1]
    · have h1' : ¬ x = 1 := by
        intro e; apply h1; rw [GoInt.eq_iff]; simpa using e
      simp only [h1, if_false, ne_eq, Option.some.injEq, GoInt.eq_iff, GoInt.val_sub,
        GoInt.val_one, GoInt.val_zero]
      unfold wrapInt; omega

theorem noZero_IncreaseCounter (s : ShredMap) (h : String) (hs : s.NoZero) :
    (s.IncreaseCounter h).NoZero := by
  rw [noZero_iff] at hs ⊢
  intro k
  rw [lookup_IncreaseCounter]
  by_cases hk : k = h
  · simp only [hk, if_true]; exact incEntry_ne_zero _
  · simp only [hk, if_false]; exact hs k

theorem noZero_DecreaseCounter (s : ShredMap) (h : String) (hs : s.NoZero) :
    (s.DecreaseCounter h).NoZero := by
  rw [noZero_iff] at hs ⊢
  intro k
  rw [lookup_DecreaseCounter]
  by_cases hk : k = h
  · simp only [hk, if_true]; exact decEntry_ne_zero _
  · simp only [hk, if_false]; exact hs k

theorem noZero_run (calls : List Call) : ∀ s : ShredMap, s.NoZero → (s.run calls).NoZero := by
  induction calls with
  | nil => intro s hs; exact hs
  | cons c cs ih =>
    intro s hs
    rw [run_cons]
    apply ih
    cases c with
    | increase h => exact noZero_IncreaseCounter s h hs
    | decrease h => exact noZero_DecreaseCounter s h hs

theorem noZero_New : NewShredMap.NoZero := by
  rw [noZero_iff]; intro k
  simp [NewShredMap, Finmap.lookup_empty]

end InvariantLemmas

section CommuteLemmas

theorem increase_decrease_comm (s : ShredMap) (f g : String) :
    (s.IncreaseCounter f).DecreaseCounter g = (s.DecreaseCounter g).IncreaseCounter f := by
  apply ShredMap.ext_lookup
  intro k
  simp only [lookup_IncreaseCounter, lookup_DecreaseCounter]
  by_cases hfg : f = g
  · subst hfg
    by_cases hk : k = f
    · simp [hk, incEntry_decEntry]
    · simp [hk]
  · have hgf : ¬ g = f := fun e => hfg e.symm
    by_cases hkf : k = f
    · subst hkf; simp [hfg, hgf]
    · by_cases hkg : k = g
      · subst hkg; simp [hfg, hgf]
      · simp [hkf, hkg, hfg, hgf]

/-- A `DecreaseCounter` can be moved behind a block of `IncreaseCounter` calls. -/
theorem run_increases_after_decrease (L : List String) :
    ∀ (s : ShredMap) (g : String),
      (s.DecreaseCounter g).run (L.map Call.increase)
        = ((s.run (L.map Call.increase)).DecreaseCounter g) := by
  induction L with
  | nil => intro s g; rfl
  | cons a L ih =>
    intro s g
    simp only [List.map_cons, run_cons, ShredMap.call]
    rw [← increase_decrease_comm, ih]

/-- Every sequence of calls has the effect of its `IncreaseCounter` calls
followed by its `DecreaseCounter` calls. -/
theorem run_eq_sorted (calls : List Call) :
    ∀ s : ShredMap, s.run calls
      = (s.run ((increases calls).map Call.increase)).run
          ((decreases calls).map Call.decrease) := by
  induction calls with
  | nil => intro s; rfl
  | cons c cs ih =>
    intro s
    cases c with
    | increase h =>
      simp only [increases, decreases, List.map_cons, run_cons]
      exact ih _
    | decrease h =>
      simp only [increases, decreases, List.map_cons, run_cons]
      rw [ih]
      simp only [ShredMap.call]
      rw [run_increases_after_decrease]

end CommuteLemmas

section SizeLemmas

theorem keys_run_New (calls : List Call) :
    (NewShredMap.run calls).shred.keys = mismatchesMod (increases calls) (decreases calls) := by
  ext k
  have hk : k ∈ (NewShredMap.run calls).shred.keys ↔ ¬ wrapInt (net calls k) = 0 := by
    rw [Finmap.mem_keys, ← entryOf_eq_none, ← lookup_run_New, Finmap.lookup_eq_none, not_not]
  rw [hk]
  unfold mismatchesMod
  simp only [Finset.mem_filter, List.mem_toFinset, List.mem_append, ne_eq]
  constructor
  · intro h
    refine ⟨?_, h⟩
    by_contra hn
    push_neg at hn
    apply h
    unfold net
    rw [List.count_eq_zero_of_not_mem hn.1, List.count_eq_zero_of_not_mem hn.2]
    simp [wrapInt]
  · intro h; exact h.2

theorem mismatchesMod_eq_of_small (A B : List String)
    (hA : ∀ f, A.count f < 9223372036854775808)
    (hB : ∀ f, B.count f < 9223372036854775808) :
    mismatchesMod A B = mismatches A B := by
  unfold mismatchesMod mismatches
  apply Finset.filter_congr
  intro f _
  have a := hA f
  have b := hB f
  rw [ne_eq, ne_eq, wrapInt_eq_zero_of_small (by omega) (by omega)]
  omega

theorem increases_map_increase (L : List String) : increases (L.map Call.increase) = L := by
  induction L with
  | nil => rfl
  | cons a L ih => simp [increases, ih]

theorem decreases_map_increase (L : List String) : decreases (L.map Call.increase) = [] := by
  induction L with
  | nil => rfl
  | cons a L ih => simp [decreases, ih]

theorem insert_empty_eq_singleton (h : String) (v : GoInt) :
    (∅ : Finmap (fun _ : String => GoInt)).insert h v = Finmap.singleton h v := by
  apply Finmap.ext_lookup
  intro k
  by_cases hk : k = h
  · subst hk; simp [Finmap.lookup_insert, Finmap.lookup_singleton_eq]
  · rw [Finmap.lookup_insert_of_ne _ hk, Finmap.lookup_empty]
    symm
    rw [Finmap.lookup_eq_none, Finmap.mem_singleton]
    exact hk

theorem erase_singleton_eq_empty (h : String) (v : GoInt) :
    (Finmap.singleton h v : Finmap (fun _ : String => GoInt)).erase h = ∅ := by
  apply Finmap.ext_lookup
  intro k
  rw [Finmap.lookup_empty, Finmap.lookup_eq_none, Finmap.mem_erase, Finmap.mem_singleton]
  exact fun h => h.1 h.2

end SizeLemmas

section CanonicalLemmas

theorem setEntry_of_not_mem {α : Type} (key : String) (v : α) (m : List (String × α))
    (h : key ∉ m.map Prod.fst) : setEntry key v m = (key, v) :: m := by
  unfold setEntry
  congr 1
  rw [List.filter_eq_self]
  intro e he
  simp only [ne_eq, decide_eq_true_eq]
  intro hk
  exact h (hk ▸ List.mem_map_of_mem Prod.fst he)

theorem marshal_array (C : Codec) (vs : List (JValue C.Float)) :
    marshal C (.array vs) = arrayText (marshalArray C vs) := by
  simp [marshal, arrayText]

theorem marshal_object (C : Codec) (es : List (String × JValue C.Float)) :
    marshal C (.object es) = objectText C (marshalMap C es) := by
  simp [marshal, objectText]

theorem decodeArray_encodeItems (C : Codec) (ts : List JText) :
    (decodeArray C ts).map (marshalArray C) = encodeItems C ts := by
  induction ts with
  | nil => simp [decodeArray, encodeItems, marshalArray]
  | cons t ts ih =>
    rw [encodeItems, ← ih]
    cases hv : decodeValue C t <;> cases hvs : decodeArray C ts <;>
      simp [decodeArray, canonical, hv, hvs, marshalArray]

theorem canonical_array (C : Codec) (ts : List JText) :
    canonical C (.array ts) = (encodeItems C ts).map arrayText := by
  rw [← decodeArray_encodeItems]
  cases hvs : decodeArray C ts <;> simp [canonical, decodeValue, hvs, marshal_array]

/-- With keys written once and not yet in the map, decoding the members adds
exactly their canonical texts to the encoded map. -/
theorem decodeObject_encodeMembers (C : Codec) (ms : List (String × JText)) :
    ∀ m : List (String × JValue C.Float), (ms.map Prod.fst).Nodup →
      (∀ k ∈ ms.map Prod.fst, k ∉ m.map Prod.fst) →
      match encodeMembers C ms with
      | some es => ∃ r, decodeObject C ms m = some r
          ∧ (marshalMap C r).Perm (es ++ marshalMap C m)
      | none => decodeObject C ms m = none := by
  induction ms with
  | nil => intro m _ _; simp [encodeMembers, decodeObject]
  | cons e ms ih =>
    obtain ⟨k, t⟩ := e
    intro m hnd hdis
    simp only [List.map_cons, List.nodup_cons] at hnd
    have hk : k ∉ m.map Prod.fst := hdis k (by simp)
    cases hv : decodeValue C t with
    | none => simp [encodeMembers, canonical, hv, decodeObject]
    | some v =>
      have hdis' : ∀ k' ∈ ms.map Prod.fst, k' ∉ ((k, v) :: m).map Prod.fst := by
        intro k' hk' hmem
        simp only [List.map_cons, List.mem_cons] at hmem
        rcases hmem with h | h
        · exact hnd.1 (h ▸ hk')
        · exact hdis k' (by simp only [List.map_cons, List.mem_cons]; exact Or.inr hk') h
      have h := ih ((k, v) :: m) hnd.2 hdis'
      cases hes : encodeMembers C ms with
      | none =>
        rw [hes] at h
        simp [encodeMembers, canonical, hv, hes, decodeObject, setEntry_of_not_mem k v m hk, h]
      | some es =>
        rw [hes] at h
        obtain ⟨r, hr, hp⟩ := h
        simp only [encodeMembers, canonical, hv, hes, Option.some_bind, Option.map_some',
          decodeObject, setEntry_of_not_mem k v m hk]
        refine ⟨r, hr, hp.trans ?_⟩
        simp only [marshalMap, List.cons_append]
        exact List.perm_middle

theorem encodeMembers_keys (C : Codec) (ms : List (String × JText)) :
    ∀ es, encodeMembers C ms = some es → es.map Prod.fst = ms.map Prod.fst := by
  induction ms with
  | nil => intro es h; simp [encodeMembers] at h; subst h; rfl
  | cons e ms ih =>
    obtain ⟨k, t⟩ := e
    intro es h
    cases ha : canonical C t with
    | none => simp [encodeMembers, ha] at h
    | some a =>
      cases hes : encodeMembers C ms with
      | none => simp [encodeMembers, ha, hes] at h
      | some es' =>
        simp [encodeMembers, ha, hes] at h
        subst h
        simp [ih es' hes]

instance : IsTotal (String × α) (fun a b => a.1.data ≤ b.1.data) :=
  ⟨fun a b => le_total a.1.data b.1.data⟩

instance : IsTrans (String × α) (fun a b => a.1.data ≤ b.1.data) :=
  ⟨fun _ _ _ h₁ h₂ => le_trans h₁ h₂⟩

theorem string_data_injective : Function.Injective String.data := by
  intro a b h
  cases a; cases b; simp at h; simp [h]

/-- Sorting by key does not depend on the order of the entries when every key
occurs once. -/
theorem sortByKey_perm {α : Type} {l₁ l₂ : List (String × α)} (hp : l₁.Perm l₂)
    (hnd : (l₁.map Prod.fst).Nodup) : sortByKey l₁ = sortByKey l₂ := by
  have strict : ∀ l : List (String × α), (l.map Prod.fst).Nodup →
      List.Sorted (fun a b => a.1.data < b.1.data) (sortByKey l) := by
    intro l hl
    have hs : List.Sorted (fun a b : String × α => a.1.data ≤ b.1.data) (sortByKey l) :=
      List.sorted_insertionSort _ l
    have hperm : (sortByKey l).Perm l := List.perm_insertionSort _ l
    have hnd' : ((sortByKey l).map (fun e => e.1.data)).Nodup := by
      have h1 : ((sortByKey l).map Prod.fst).Nodup := (hperm.map Prod.fst).nodup_iff.mpr hl
      have := h1.map string_data_injective
      simpa [List.map_map] using this
    have h2 : List.Sorted (· ≤ ·) ((sortByKey l).map (fun e => e.1.data)) := by
      unfold List.Sorted at hs ⊢
      rw [List.pairwise_map]
      exact hs
    have h3 := h2.lt_of_le hnd'
    unfold List.Sorted at h3 ⊢
    rw [List.pairwise_map] at h3
    exact h3
  have anti : IsAntisymm (String × α) (fun a b => a.1.data < b.1.data) :=
    ⟨fun a b h₁ h₂ => absurd h₁ (lt_asymm h₂)⟩
  have p : (sortByKey l₁).Perm (sortByKey l₂) :=
    ((List.perm_insertionSort _ l₁).trans hp).trans (List.perm_insertionSort _ l₂).symm
  exact List.eq_of_perm_of_sorted p (strict l₁ hnd)
    (strict l₂ ((hp.map Prod.fst).nodup_iff.mp hnd))

theorem canonical_object (C : Codec) (ms : List (String × JText))
    (hnd : (ms.map Prod.fst).Nodup) :
    canonical C (.object ms) = (encodeMembers C ms).map (objectText C) := by
  have h := decodeObject_encodeMembers C ms [] hnd (by simp)
  cases hes : encodeMembers C ms with
  | none =>
    rw [hes] at h
    simp [canonical, decodeValue, h]
  | some es =>
    rw [hes] at h
    obtain ⟨r, hr, hp⟩ := h
    simp only [canonical, decodeValue, hr, marshal_object, Option.map_some', Option.some.injEq]
    unfold objectText
    simp only [marshalMap, List.append_nil] at hp
    have hk : ((marshalMap C r).map Prod.fst).Nodup := by
      rw [(hp.map Prod.fst).nodup_iff, encodeMembers_keys C ms es hes]
      exact hnd
    rw [sortByKey_perm hp hk]

/-- Members in another order give the same encoded members in another order. -/
theorem encodeMembers_perm (C : Codec) {ms ms' : List (String × JText)} (hp : ms.Perm ms') :
    (encodeMembers C ms = none ∧ encodeMembers C ms' = none)
      ∨ ∃ es es', encodeMembers C ms = some es ∧ encodeMembers C ms' = some es'
          ∧ es.Perm es' := by
  induction hp with
  | nil => right; exact ⟨[], [], rfl, rfl, List.Perm.refl _⟩
  | cons e _ ih =>
    obtain ⟨k, t⟩ := e
    cases ha : canonical C t with
    | none => left; simp [encodeMembers, ha]
    | some a =>
      rcases ih with ⟨h1, h2⟩ | ⟨es, es', h1, h2, hp'⟩
      · left; simp [encodeMembers, ha, h1, h2]
      · right
        exact ⟨(k, a) :: es, (k, a) :: es', by simp [encodeMembers, ha, h1],
          by simp [encodeMembers, ha, h2], hp'.cons _⟩
  | swap e₁ e₂ l =>
    obtain ⟨k₁, t₁⟩ := e₁
    obtain ⟨k₂, t₂⟩ := e₂
    cases ha : canonical C t₁ <;> cases hb : canonical C t₂ <;>
      cases hl : encodeMembers C l
    all_goals first
      | (left; simp [encodeMembers, ha, hb, hl]; done)
      | (right
         rename_i a b es
         exact ⟨(k₂, b) :: (k₁, a) :: es, (k₁, a) :: (k₂, b) :: es,
           by simp [encodeMembers, ha, hb, hl], by simp [encodeMembers, ha, hb, hl],
           List.Perm.swap _ _ _⟩)
  | trans _ _ ih₁ ih₂ =>
    rcases ih₁ with ⟨h1, h2⟩ | ⟨es, es', h1, h2, hp'⟩
    · rcases ih₂ with ⟨h3, h4⟩ | ⟨es₂, es₂', h3, _, _⟩
      · left; exact ⟨h1, h4⟩
      · rw [h2] at h3; cases h3
    · rcases ih₂ with ⟨h3, _⟩ | ⟨es₂, es₂', h3, h4, hp''⟩
      · rw [h2] at h3; cases h3
      · rw [h2] at h3; cases h3
        right; exact ⟨es, es₂', h1, h4, hp'.trans hp''⟩

theorem noDupKeysMembers_iff (ms : List (String × JText)) :
    noDupKeysMembers ms = true ↔ ∀ e ∈ ms, noDupKeys e.2 = true := by
  induction ms with
  | nil => simp [noDupKeysMembers]
  | cons e ms ih => obtain ⟨k, t⟩ := e; simp [noDupKeysMembers, ih]

mutual
/-- The canonical text does not change when members are written in another
order, if no key is written twice. -/
theorem reordered_canonical (C : Codec) :
    ∀ {t u : JText}, Reordered t u → noDupKeys t = true →
      canonical C t = canonical C u ∧ noDupKeys u = true
  | _, _, .refl _, h => ⟨rfl, h⟩
  | .array xs, .array ys, .array hl, h => by
    have ih := reorderedList_encodeItems C hl (by simpa [noDupKeys] using h)
    refine ⟨?_, by simpa [noDupKeys] using ih.2⟩
    rw [canonical_array, canonical_array, ih.1]
  | .object ms, .object ms'', @Reordered.object _ ms' _ hp hm, h => by
    simp only [noDupKeys, Bool.and_eq_true, decide_eq_true_eq] at h
    have hnd' : (ms'.map Prod.fst).Nodup := (hp.map Prod.fst).nodup_iff.mp h.1
    have hmem' : noDupKeysMembers ms' = true := by
      rw [noDupKeysMembers_iff] at *
      intro e he
      exact h.2 e (hp.mem_iff.mpr he)
    have ih := reorderedMembers_encodeMembers C hm hmem'
    have hnd'' : (ms''.map Prod.fst).Nodup := ih.2.1 ▸ hnd'
    refine ⟨?_, by simp [noDupKeys, hnd'', ih.2.2]⟩
    rw [canonical_object C ms h.1, canonical_object C ms'' hnd'', ← ih.1]
    rcases encodeMembers_perm C hp with ⟨h1, h2⟩ | ⟨es, es', h1, h2, hes⟩
    · rw [h1, h2]
    · rw [h1, h2]
      simp only [Option.map_some', Option.some.injEq]
      unfold objectText
      rw [sortByKey_perm hes (by rw [encodeMembers_keys C ms es h1]; exact h.1)]
theorem reorderedList_encodeItems (C : Codec) :
    ∀ {xs ys : List JText}, ReorderedList xs ys → noDupKeysItems xs = true →
      encodeItems C xs = encodeItems C ys ∧ noDupKeysItems ys = true
  | _, _, .nil, h => ⟨rfl, h⟩
  | _, _, .cons hx hl, h => by
    simp only [noDupKeysItems, Bool.and_eq_true] at h
    have ih₁ := reordered_canonical C hx h.1
    have ih₂ := reorderedList_encodeItems C hl h.2
    exact ⟨by simp only [encodeItems, ih₁.1, ih₂.1], by simp [noDupKeysItems, ih₁.2, ih₂.2]⟩
theorem reorderedMembers_encodeMembers (C : Codec) :
    ∀ {ms ms' : List (String × JText)}, ReorderedMembers ms ms' →
      noDupKeysMembers ms = true →
      encodeMembers C ms = encodeMembers C ms' ∧ ms.map Prod.fst = ms'.map Prod.fst
        ∧ noDupKeysMembers ms' = true
  | _, _, .nil, h => ⟨rfl, rfl, h⟩
  | _, _, .cons hx hm, h => by
    simp only [noDupKeysMembers, Bool.and_eq_true] at h
    have ih₁ := reordered_canonical C hx h.1
    have ih₂ := reorderedMembers_encodeMembers C hm h.2
    exact ⟨by simp only [encodeMembers, ih₁.1, ih₂.1], by simp [ih₂.2.1],
      by simp [noDupKeysMembers, ih₁.2, ih₂.2.2]⟩
end

end CanonicalLemmas

section DelimitedLemmas

theorem numberChars_spec : ∀ c ∈ numberChars, charTag c = 3 ∧ ¬ isDelimiter c := by decide

theorem closes_of_delimiter {c : Char} (h : isDelimiter c) (r : List Char) : closes (c :: r) := h

/-- The first character of an encoded value tells its kind and is no delimiter. -/
theorem marshal_cons (C : Codec) (hC : C.Lawful) (w : JValue C.Float) :
    ∃ c rest, marshal C w = c :: rest ∧ charTag c = valueTag w ∧ ¬ isDelimiter c := by
  cases w with
  | null => exact ⟨'n', ['u', 'l', 'l'], by simp [marshal], (by decide : charTag 'n' = 0), by decide⟩
  | bool b =>
    cases b
    · exact ⟨'f', ['a', 'l', 's', 'e'], by simp [marshal], (by decide : charTag 'f' = 2), by decide⟩
    · exact ⟨'t', ['r', 'u', 'e'], by simp [marshal], (by decide : charTag 't' = 1), by decide⟩
  | number x =>
    cases h : C.formatFloat x with
    | nil => exact absurd h (hC.formatFloat_ne_nil x)
    | cons c rest =>
      have hc := numberChars_spec c (hC.formatFloat_chars x c (by simp [h]))
      exact ⟨c, rest, by simp [marshal, h], hc.1, hc.2⟩
  | string s =>
    obtain ⟨rest, h⟩ := hC.quote_head s
    exact ⟨Char.ofNat 34, rest, by simp [marshal, h], (by decide : charTag (Char.ofNat 34) = 4),
      by decide⟩
  | array vs =>
    exact ⟨'[', joinComma (marshalArray C vs) ++ [']'], by simp [marshal],
      (by decide : charTag '[' = 5), by decide⟩
  | object es =>
    exact ⟨Char.ofNat 123,
      joinComma ((sortByKey (marshalMap C es)).map (encodeMember C)) ++ [Char.ofNat 125],
      by simp [marshal], (by decide : charTag (Char.ofNat 123) = 6), by decide⟩

theorem startsValue_marshal (C : Codec) (hC : C.Lawful) (w : JValue C.Float) :
    startsValue (marshal C w) := by
  obtain ⟨c, rest, h, _, hd⟩ := marshal_cons C hC w
  rw [h]; exact hd

theorem valueTag_eq_of_append_eq (C : Codec) (hC : C.Lawful) (v w : JValue C.Float)
    (r s : List Char) (h : marshal C v ++ r = marshal C w ++ s) : valueTag v = valueTag w := by
  obtain ⟨c, rest, hv, tv, _⟩ := marshal_cons C hC v
  obtain ⟨c', rest', hw, tw, _⟩ := marshal_cons C hC w
  rw [hv, hw] at h
  simp only [List.cons_append, List.cons.injEq] at h
  rw [← tv, ← tw, h.1]

/-- Two texts of number characters that are followed by other characters and
agree are the same text. -/
theorem number_span (a : List Char) :
    ∀ (b r s : List Char), (∀ c ∈ a, c ∈ numberChars) → (∀ c ∈ b, c ∈ numberChars) →
      closes r → closes s → a ++ r = b ++ s → a = b := by
  induction a with
  | nil =>
    intro b r s _ hb hr _ h
    cases b with
    | nil => rfl
    | cons c b =>
      simp only [List.nil_append, List.cons_append] at h
      subst h
      exact absurd hr (numberChars_spec c (hb c (by simp))).2
  | cons c a ih =>
    intro b r s ha hb hr hs h
    cases b with
    | nil =>
      simp only [List.nil_append, List.cons_append] at h
      subst h
      exact absurd hs (numberChars_spec c (ha c (by simp))).2
    | cons c' b =>
      simp only [List.cons_append, List.cons.injEq] at h
      rw [h.1, ih b r s (fun x hx => ha x (by simp [hx])) (fun x hx => hb x (by simp [hx]))
        hr hs h.2]

theorem joinComma_cons_append (a : List Char) (l : List (List Char)) (t : List Char) :
    joinComma (a :: l) ++ t = a ++ sepTail l t := by
  cases l with
  | nil => simp [joinComma, sepTail]
  | cons b l => simp [joinComma, sepTail]

theorem closes_sepTail (l : List (List Char)) (close : Char) (hc : isDelimiter close)
    (t : List Char) : closes (sepTail l (close :: t)) := by
  cases l with
  | nil => exact hc
  | cons b l => exact Or.inl rfl

/-- Two joined lists of self-delimiting texts, each followed by the same closing
bracket, agree only if they are the same list. -/
theorem joinComma_cancel (P : List Char → Prop) (close : Char) (hc : isDelimiter close)
    (hc' : close ≠ ',') (l₁ : List (List Char)) :
    ∀ (l₂ : List (List Char)) (r s : List Char),
      (∀ a ∈ l₁, startsValue a ∧
        ∀ b r s, P b → a ++ r = b ++ s → closes r → closes s → a = b) →
      (∀ b ∈ l₂, P b ∧ startsValue b) →
      joinComma l₁ ++ close :: r = joinComma l₂ ++ close :: s → l₁ = l₂ := by
  induction l₁ with
  | nil =>
    intro l₂ r s _ h₂ h
    cases l₂ with
    | nil => rfl
    | cons b l₂ =>
      exfalso
      rw [joinComma_cons_append] at h
      have hb := (h₂ b (by simp)).2
      cases b with
      | nil => exact hb
      | cons c b =>
        simp only [joinComma, List.nil_append, List.cons_append, List.cons.injEq] at h
        exact hb (h.1 ▸ hc)
  | cons a l₁ ih =>
    intro l₂ r s h₁ h₂ h
    cases l₂ with
    | nil =>
      exfalso
      rw [joinComma_cons_append] at h
      have ha := (h₁ a (by simp)).1
      cases a with
      | nil => exact ha
      | cons c a =>
        simp only [joinComma, List.nil_append, List.cons_append, List.cons.injEq] at h
        exact ha (h.1 ▸ hc)
    | cons b l₂ =>
      rw [joinComma_cons_append, joinComma_cons_append] at h
      have hab : a = b :=
        (h₁ a (by simp)).2 b _ _ (h₂ b (by simp)).1 h (closes_sepTail l₁ close hc r)
          (closes_sepTail l₂ close hc s)
      subst hab
      have ht := List.append_cancel_left h
      congr 1
      cases l₁ with
      | nil =>
        cases l₂ with
        | nil => rfl
        | cons b' l₂ =>
          simp only [sepTail, List.cons.injEq] at ht
          exact absurd ht.1 hc'
      | cons a' l₁ =>
        cases l₂ with
        | nil =>
          simp only [sepTail, List.cons.injEq] at ht
          exact absurd ht.1.symm hc'
        | cons b' l₂ =>
          simp only [sepTail, List.cons.injEq, true_and] at ht
          exact ih (b' :: l₂) r s (fun x hx => h₁ x (by simp [hx]))
            (fun x hx => h₂ x (by simp [hx])) ht

theorem marshalArray_eq_map (C : Codec) (vs : List (JValue C.Float)) :
    marshalArray C vs = vs.map (marshal C) := by
  induction vs with
  | nil => rfl
  | cons v vs ih => simp [marshalArray, ih]

theorem marshalMap_eq_map (C : Codec) (es : List (String × JValue C.Float)) :
    marshalMap C es = es.map (fun e => (e.1, marshal C e.2)) := by
  induction es with
  | nil => rfl
  | cons e es ih => obtain ⟨k, v⟩ := e; simp [marshalMap, ih]

theorem mem_sortByKey {α : Type} (l : List (String × α)) (e : String × α) :
    e ∈ sortByKey l ↔ e ∈ l :=
  (List.perm_insertionSort _ l).mem_iff

theorem startsValue_encodeMember (C : Codec) (hC : C.Lawful) (e : String × List Char) :
    startsValue (encodeMember C e) := by
  obtain ⟨rest, h⟩ := hC.quote_head e.1
  unfold encodeMember
  rw [h]
  show ¬ isDelimiter (Char.ofNat 34)
  decide

/-- An encoded member with a self-delimiting value is self-delimiting among the
encoded members. -/
theorem encodeMember_delimited (C : Codec) (hC : C.Lawful) (e : String × List Char)
    (he : Delimited C e.2) (k : String) (w : JValue C.Float) (r s : List Char)
    (h : encodeMember C e ++ r = (C.quote k ++ ':' :: marshal C w) ++ s)
    (hr : closes r) (hs : closes s) : encodeMember C e = C.quote k ++ ':' :: marshal C w := by
  unfold encodeMember at h ⊢
  simp only [List.append_assoc, List.cons_append] at h
  have hq := hC.quote_prefix_free _ _ _ _ h
  rw [hq] at h ⊢
  have h' := List.append_cancel_left h
  simp only [List.cons.injEq, true_and] at h'
  rw [he w r s h' hr hs]

mutual
/-- Every encoded value is self-delimiting. -/
theorem delimited_marshal (C : Codec) (hC : C.Lawful) :
    ∀ v : JValue C.Float, Delimited C (marshal C v)
  | .null => by
    intro w r s h _ _
    have ht := valueTag_eq_of_append_eq C hC _ w r s h
    cases w with
    | null => rfl
    | bool b => cases b <;> simp [valueTag] at ht
    | number y => simp [valueTag] at ht
    | string t => simp [valueTag] at ht
    | array ws => simp [valueTag] at ht
    | object es' => simp [valueTag] at ht
  | .bool b => by
    intro w r s h _ _
    have ht := valueTag_eq_of_append_eq C hC _ w r s h
    cases w with
    | null => cases b <;> simp [valueTag] at ht
    | bool b' => cases b <;> cases b' <;> first | rfl | simp [valueTag] at ht
    | number y => cases b <;> simp [valueTag] at ht
    | string t => cases b <;> simp [valueTag] at ht
    | array ws => cases b <;> simp [valueTag] at ht
    | object es' => cases b <;> simp [valueTag] at ht
  | .number x => by
    intro w r s h hr hs
    have ht := valueTag_eq_of_append_eq C hC _ w r s h
    cases w with
    | null => simp [valueTag] at ht
    | bool b => cases b <;> simp [valueTag] at ht
    | number y =>
      simp only [marshal] at h ⊢
      exact number_span _ _ r s (hC.formatFloat_chars x) (hC.formatFloat_chars y) hr hs h
    | string t => simp [valueTag] at ht
    | array ws => simp [valueTag] at ht
    | object es' => simp [valueTag] at ht
  | .string t₀ => by
    intro w r s h _ _
    have ht := valueTag_eq_of_append_eq C hC _ w r s h
    cases w with
    | null => simp [valueTag] at ht
    | bool b => cases b <;> simp [valueTag] at ht
    | number y => simp [valueTag] at ht
    | string t =>
      simp only [marshal] at h ⊢
      exact hC.quote_prefix_free _ _ _ _ h
    | array ws => simp [valueTag] at ht
    | object es' => simp [valueTag] at ht
  | .array vs => by
    intro w r s h _ _
    have ht := valueTag_eq_of_append_eq C hC _ w r s h
    cases w with
    | null => simp [valueTag] at ht
    | bool b => cases b <;> simp [valueTag] at ht
    | number y => simp [valueTag] at ht
    | string t => simp [valueTag] at ht
    | array ws =>
      rw [marshal_array, marshal_array] at h ⊢
      have ih := delimited_marshalArray C hC vs
      have h' : joinComma (marshalArray C vs) ++ ']' :: r
          = joinComma (marshalArray C ws) ++ ']' :: s := by
        simpa [arrayText] using h
      have e := joinComma_cancel (fun b => ∃ w, b = marshal C w) ']' (by decide) (by decide)
        (marshalArray C vs) (marshalArray C ws) r s
        (fun a ha => ⟨(ih a ha).2, fun b r s hb h hr hs => by
          obtain ⟨w, rfl⟩ := hb
          exact (ih a ha).1 w r s h hr hs⟩)
        (fun b hb => by
          rw [marshalArray_eq_map, List.mem_map] at hb
          obtain ⟨w, _, rfl⟩ := hb
          exact ⟨⟨w, rfl⟩, startsValue_marshal C hC w⟩)
        h'
      rw [e]
    | object es' => simp [valueTag] at ht
  | .object es => by
    intro w r s h _ _
    have ht := valueTag_eq_of_append_eq C hC _ w r s h
    cases w with
    | null => simp [valueTag] at ht
    | bool b => cases b <;> simp [valueTag] at ht
    | number y => simp [valueTag] at ht
    | string t => simp [valueTag] at ht
    | array ws => simp [valueTag] at ht
    | object es' =>
      rw [marshal_object, marshal_object] at h ⊢
      have ih := delimited_marshalMap C hC es
      have h' : joinComma ((sortByKey (marshalMap C es)).map (encodeMember C))
            ++ Char.ofNat 125 :: r
          = joinComma ((sortByKey (marshalMap C es')).map (encodeMember C))
            ++ Char.ofNat 125 :: s := by
        simpa [objectText] using h
      have e := joinComma_cancel (fun b => ∃ k w, b = C.quote k ++ ':' :: marshal C w)
        (Char.ofNat 125) (by decide) (by decide)
        ((sortByKey (marshalMap C es)).map (encodeMember C))
        ((sortByKey (marshalMap C es')).map (encodeMember C)) r s
        (fun a ha => by
          rw [List.mem_map] at ha
          obtain ⟨e, he, rfl⟩ := ha
          rw [mem_sortByKey] at he
          refine ⟨startsValue_encodeMember C hC e, fun b r s hb h hr hs => ?_⟩
          obtain ⟨k, w, rfl⟩ := hb
          exact encodeMember_delimited C hC e (ih e he) k w r s h hr hs)
        (fun b hb => by
          rw [List.mem_map] at hb
          obtain ⟨e, he, rfl⟩ := hb
          rw [mem_sortByKey, marshalMap_eq_map, List.mem_map] at he
          obtain ⟨e', _, rfl⟩ := he
          exact ⟨⟨e'.1, e'.2, rfl⟩, startsValue_encodeMember C hC _⟩)
        h'
      unfold objectText
      rw [e]
/-- Every encoded item of a slice is self-delimiting. -/
theorem delimited_marshalArray (C : Codec) (hC : C.Lawful) :
    ∀ vs : List (JValue C.Float), ∀ a ∈ marshalArray C vs, Delimited C a ∧ startsValue a
  | [] => by intro a ha; simp [marshalArray] at ha
  | v :: vs => by
    intro a ha
    simp only [marshalArray, List.mem_cons] at ha
    rcases ha with rfl | ha
    · exact ⟨delimited_marshal C hC v, startsValue_marshal C hC v⟩
    · exact delimited_marshalArray C hC vs a ha
/-- Every encoded value of a map is self-delimiting. -/
theorem delimited_marshalMap (C : Codec) (hC : C.Lawful) :
    ∀ es : List (String × JValue C.Float), ∀ e ∈ marshalMap C es, Delimited C e.2
  | [] => by intro e he; simp [marshalMap] at he
  | (k, v) :: es => by
    intro e he
    simp only [marshalMap, List.mem_cons] at he
    rcases he with rfl | he
    · exact delimited_marshal C hC v
    · exact delimited_marshalMap C hC es e he
end

/-- Encoded slices agree only if their items agree one by one. -/
theorem arrayText_injective (C : Codec) (hC : C.Lawful) (vs ws : List (JValue C.Float))
    (h : arrayText (marshalArray C vs) = arrayText (marshalArray C ws)) :
    marshalArray C vs = marshalArray C ws := by
  have ih := delimited_marshalArray C hC vs
  have h' : joinComma (marshalArray C vs) ++ [']'] = joinComma (marshalArray C ws) ++ [']'] := by
    simpa [arrayText] using h
  exact joinComma_cancel (fun b => ∃ w, b = marshal C w) ']' (by decide) (by decide)
    (marshalArray C vs) (marshalArray C ws) [] []
    (fun a ha => ⟨(ih a ha).2, fun b r s hb h hr hs => by
      obtain ⟨w, rfl⟩ := hb
      exact (ih a ha).1 w r s h hr hs⟩)
    (fun b hb => by
      rw [marshalArray_eq_map, List.mem_map] at hb
      obtain ⟨w, _, rfl⟩ := hb
      exact ⟨⟨w, rfl⟩, startsValue_marshal C hC w⟩)
    h'

end DelimitedLemmas

section PlainCodecLemmas

theorem digit_mem_numberChars : ∀ d < 10, Char.ofNat (48 + d) ∈ numberChars := by decide

theorem decimalDigits_chars (fuel : Nat) :
    ∀ (n : Nat) (acc : List Char), (∀ c ∈ acc, c ∈ numberChars) →
      ∀ c ∈ decimalDigits fuel n acc, c ∈ numberChars := by
  induction fuel with
  | zero => intro n acc h; simpa [decimalDigits] using h
  | succ fuel ih =>
    intro n acc h c hc
    unfold decimalDigits at hc
    by_cases hn : n < 10
    · simp only [hn, if_true, List.mem_cons] at hc
      rcases hc with rfl | hc
      · exact digit_mem_numberChars n hn
      · exact h c hc
    · simp only [hn, if_false] at hc
      refine ih (n / 10) _ ?_ c hc
      intro c' hc'
      simp only [List.mem_cons] at hc'
      rcases hc' with rfl | hc'
      · exact digit_mem_numberChars (n % 10) (Nat.mod_lt n (by decide))
      · exact h c' hc'

theorem decimalDigits_ne_nil (fuel : Nat) :
    ∀ (n : Nat) (acc : List Char), (fuel = 0 → acc ≠ []) → decimalDigits fuel n acc ≠ [] := by
  induction fuel with
  | zero => intro n acc h; simpa [decimalDigits] using h rfl
  | succ fuel ih =>
    intro n acc _
    unfold decimalDigits
    by_cases hn : n < 10
    · simp [hn]
    · simp only [hn, if_false]
      exact ih _ _ (fun _ => by simp)

theorem plainFormat_chars (x : Int) : ∀ c ∈ plainFormat x, c ∈ numberChars := by
  intro c hc
  unfold plainFormat at hc
  have hd : ∀ c ∈ decimal x.natAbs, c ∈ numberChars :=
    decimalDigits_chars _ _ [] (by simp)
  by_cases hx : x < 0
  · simp only [hx, if_true, List.mem_cons] at hc
    rcases hc with rfl | hc
    · decide
    · exact hd c hc
  · simp only [hx, if_false] at hc
    exact hd c hc

theorem plainFormat_ne_nil (x : Int) : plainFormat x ≠ [] := by
  unfold plainFormat
  by_cases hx : x < 0
  · simp [hx]
  · simp only [hx, if_false]
    exact decimalDigits_ne_nil _ _ [] (by simp)

/-- The length of an escape sequence can be read off the text it starts. -/
theorem escapeChar_length (c x : Char) (X : List Char) :
    (escapeChar c).length = escapeLength (escapeChar c ++ x :: X) := by
  have e92 : (Char.ofNat 92).toNat = 92 := by decide
  have eu : ('u' : Char).toNat = 117 := by decide
  have eb : ¬ ('b' : Char).toNat = 117 := by decide
  have ef : ¬ ('f' : Char).toNat = 117 := by decide
  have en : ¬ ('n' : Char).toNat = 117 := by decide
  have er : ¬ ('r' : Char).toNat = 117 := by decide
  have et : ¬ ('t' : Char).toNat = 117 := by decide
  unfold escapeChar
  split_ifs with h1 h2 h3 h4 h5 h6 h7 h8 h9
  · have : ¬ c.toNat = 117 := by omega
    simp [escapeLength, e92, this]
  · simp [escapeLength, e92, eb]
  · simp [escapeLength, e92, ef]
  · simp [escapeLength, e92, en]
  · simp [escapeLength, e92, er]
  · simp [escapeLength, e92, et]
  · simp [escapeLength, e92, eu]
  · simp [escapeLength, e92, eu]
  · simp [escapeLength, e92, eu]
  · have : ¬ c.toNat = 92 := by omega
    simp [escapeLength, this]

/-- No escape sequence is empty or starts with the quotation mark. -/
theorem escapeChar_head (c : Char) :
    ∃ d rest, escapeChar c = d :: rest ∧ d ≠ Char.ofNat 34 := by
  have e92 : Char.ofNat 92 ≠ Char.ofNat 34 := by decide
  unfold escapeChar
  split_ifs with h1 h2 h3 h4 h5 h6 h7 h8 h9
  all_goals first
    | exact ⟨_, _, rfl, e92⟩
    | (refine ⟨c, [], rfl, ?_⟩
       intro hc
       apply h1
       left
       rw [hc]
       decide)

theorem escape_body_prefix_free (l₁ : List Char) :
    ∀ (l₂ r s : List Char),
      l₁.flatMap escapeChar ++ Char.ofNat 34 :: r = l₂.flatMap escapeChar ++ Char.ofNat 34 :: s →
      l₁.flatMap escapeChar = l₂.flatMap escapeChar := by
  have nonempty : ∀ (l t : List Char), ∃ x X,
      l.flatMap escapeChar ++ Char.ofNat 34 :: t = x :: X := by
    intro l t
    cases h : l.flatMap escapeChar with
    | nil => exact ⟨_, _, rfl⟩
    | cons d rest => exact ⟨d, rest ++ Char.ofNat 34 :: t, rfl⟩
  induction l₁ with
  | nil =>
    intro l₂ r s h
    cases l₂ with
    | nil => rfl
    | cons c l₂ =>
      exfalso
      obtain ⟨d, rest, hd, hne⟩ := escapeChar_head c
      simp only [List.flatMap_nil, List.nil_append, List.flatMap_cons, hd, List.cons_append,
        List.cons.injEq] at h
      exact hne h.1.symm
  | cons c l₁ ih =>
    intro l₂ r s h
    cases l₂ with
    | nil =>
      exfalso
      obtain ⟨d, rest, hd, hne⟩ := escapeChar_head c
      simp only [List.flatMap_nil, List.nil_append, List.flatMap_cons, hd, List.cons_append,
        List.cons.injEq] at h
      exact hne h.1
    | cons c' l₂ =>
      simp only [List.flatMap_cons, List.append_assoc] at h ⊢
      obtain ⟨x, X, hX⟩ := nonempty l₁ r
      obtain ⟨y, Y, hY⟩ := nonempty l₂ s
      have hlen : (escapeChar c).length = (escapeChar c').length := by
        rw [escapeChar_length c x X, escapeChar_length c' y Y, ← hX, ← hY, h]
      have := List.append_inj h hlen
      rw [this.1, ih l₂ r s this.2]

theorem plainQuote_prefix_free (s t : String) (r r' : List Char)
    (h : plainQuote s ++ r = plainQuote t ++ r') : plainQuote s = plainQuote t := by
  unfold plainQuote at h ⊢
  simp only [List.cons_append, List.append_assoc, List.cons.injEq, true_and,
    List.nil_append] at h
  rw [escape_body_prefix_free _ _ _ _ h]

theorem plainCodec_lawful : plainCodec.Lawful :=
  ⟨plainFormat_ne_nil, plainFormat_chars, fun _ => ⟨_, rfl⟩, plainQuote_prefix_free⟩

end PlainCodecLemmas

section ArrayOrderLemmas

/-- The canonical texts of the items, position by position. -/
theorem encodeItems_getElem (C : Codec) (xs : List JText) :
    ∀ (as : List (List Char)), encodeItems C xs = some as →
      ∀ (i : Nat) (hx : i < xs.length), as[i]? = canonical C xs[i] := by
  induction xs with
  | nil => intro as _ i hx; simp at hx
  | cons x xs ih =>
    intro as h i hx
    cases ha : canonical C x with
    | none => simp [encodeItems, ha] at h
    | some a =>
      cases hes : encodeItems C xs with
      | none => simp [encodeItems, ha, hes] at h
      | some as' =>
        simp [encodeItems, ha, hes] at h
        subst h
        cases i with
        | zero => simp [ha]
        | succ i =>
          simp only [List.getElem?_cons_succ, List.getElem_cons_succ]
          exact ih as' hes i (by simpa using hx)

/-- Arrays that decode have the same canonical text only if their items have,
position by position. -/
theorem canonical_array_injective (C : Codec) (hC : C.Lawful) (xs ys : List JText)
    (a : List Char) (hx : canonical C (.array xs) = some a)
    (hy : canonical C (.array ys) = some a) :
    ∃ as, encodeItems C xs = some as ∧ encodeItems C ys = some as := by
  rw [canonical_array, ← decodeArray_encodeItems] at hx hy
  cases hvs : decodeArray C xs with
  | none => simp [hvs] at hx
  | some vs =>
    cases hws : decodeArray C ys with
    | none => simp [hws] at hy
    | some ws =>
      simp only [hvs, hws, Option.map_some', Option.some.injEq] at hx hy
      have e := arrayText_injective C hC vs ws (hx.trans hy.symm)
      refine ⟨marshalArray C vs, ?_, ?_⟩
      · rw [← decodeArray_encodeItems, hvs]; rfl
      · rw [← decodeArray_encodeItems, hws, e]; rfl

theorem size_run_New (calls : List Call) :
    (NewShredMap.run calls).Size
      = (mismatchesMod (increases calls) (decreases calls)).card := by
  unfold ShredMap.Size
  rw [keys_run_New]

/-- One fingerprint from each stream, the two distinct, leave two entries. -/
theorem size_of_distinct_pair (fa fb : String) (h : fa ≠ fb) (calls : List Call)
    (hi : Interleaving [fa] [fb] calls) :
    (NewShredMap.run calls).IsEmpty = false ∧ (NewShredMap.run calls).Size = 2 := by
  have hs : (NewShredMap.run calls).Size = 2 := by
    rw [size_run_New, hi.1, hi.2]
    have e : mismatchesMod [fa] [fb] = {fa, fb} := by
      unfold mismatchesMod
      ext k
      have hba : ¬ fb = fa := fun e => h e.symm
      by_cases hka : k = fa
      · subst hka
        simp [List.count_cons, hba, wrapInt]
      · by_cases hkb : k = fb
        · subst hkb
          simp [List.count_cons, h, wrapInt]
        · simp [hka, hkb]
    rw [e, Finset.card_pair h]
  refine ⟨?_, hs⟩
  cases he : (NewShredMap.run calls).IsEmpty with
  | false => rfl
  | true =>
    rw [← size_eq_zero_iff, hs] at he
    cases he

set_option maxRecDepth 100000 in
theorem hash_12_ne_hash_21 :
    HashAnything (utf8 ['[', '1', ',', '2', ']']) ≠ HashAnything (utf8 ['[', '2', ',', '1', ']']) := by
  decide

end ArrayOrderLemmas

section ReportLemmas

theorem updateShredMaster_eq (m : Finmap (fun _ : String => GoInt)) (h : String) :
    UpdateShredMaster m h = ((ShredMap.mk m).IncreaseCounter h).shred := by
  unfold UpdateShredMaster ShredMap.IncreaseCounter
  cases hl : m.lookup h with
  | none => rfl
  | some v => by_cases hv : v = -1 <;> simp [hl, hv]

theorem updateShredSlave_eq (m : Finmap (fun _ : String => GoInt)) (h : String) :
    UpdateShredSlave m h = ((ShredMap.mk m).DecreaseCounter h).shred := by
  unfold UpdateShredSlave ShredMap.DecreaseCounter
  cases hl : m.lookup h with
  | none => rfl
  | some v => by_cases hv : v = 1 <;> simp [hl, hv]

theorem foldl_updateShred_eq (calls : List Call) :
    ∀ m : Finmap (fun _ : String => GoInt),
      calls.foldl updateShred m = ((ShredMap.mk m).run calls).shred := by
  induction calls with
  | nil => intro m; rfl
  | cons c cs ih =>
    intro m
    rw [List.foldl_cons, run_cons, ih]
    cases c with
    | increase h => simp [updateShred, ShredMap.call, updateShredMaster_eq]
    | decrease h => simp [updateShred, ShredMap.call, updateShredSlave_eq]

/-- An entry that is not `0` survives `IncreaseCounter` then `DecreaseCounter`. -/
theorem decEntry_incEntry (o : Option GoInt) (h : o ≠ some 0) : decEntry (incEntry o) = o := by
  cases o with
  | none => simp [incEntry, decEntry]
  | some v =>
    obtain ⟨x, lo, hi⟩ := v
    have h0 : ¬ x = 0 := by
      intro e; apply h; rw [Option.some.injEq, GoInt.eq_iff]; simpa using e
    by_cases h1 : x = -1
    · subst h1
      simp [incEntry, decEntry, GoInt.eq_iff]
    · have e1 : ¬ (⟨x, lo, hi⟩ : GoInt) = -1 := by
        rw [GoInt.eq_iff]; simpa using h1
      have e2 : ¬ ((⟨x, lo, hi⟩ : GoInt) + 1) = 1 := by
        rw [GoInt.eq_iff]; simp only [GoInt.val_add, GoInt.val_one]
        unfold wrapInt; omega
      simp only [incEntry, e1, if_false, decEntry, e2, Option.some.injEq]
      rw [GoInt.eq_iff]
      simp only [GoInt.val_sub, GoInt.val_add, GoInt.val_one]
      unfold wrapInt; omega

/-- An entry that is not `0` survives `DecreaseCounter` then `IncreaseCounter`. -/
theorem incEntry_decEntry_self (o : Option GoInt) (h : o ≠ some 0) :
    incEntry (decEntry o) = o := by
  rw [← incEntry_decEntry]
  exact decEntry_incEntry o h

theorem increase_then_decrease (s : ShredMap) (h : String) (h0 : s.shred.lookup h ≠ some 0) :
    (s.IncreaseCounter h).DecreaseCounter h = s := by
  apply ShredMap.ext_lookup
  intro k
  rw [lookup_DecreaseCounter, lookup_IncreaseCounter]
  by_cases hk : k = h
  · subst hk
    simp only [if_true]
    exact decEntry_incEntry _ h0
  · simp only [hk, if_false]
    rw [lookup_IncreaseCounter]
    simp [hk]

theorem decrease_then_increase (s : ShredMap) (h : String) (h0 : s.shred.lookup h ≠ some 0) :
    (s.DecreaseCounter h).IncreaseCounter h = s := by
  rw [← increase_decrease_comm]
  exact increase_then_decrease s h h0

theorem compress_length (ks : List Nat) :
    ∀ w vars : List Nat, vars.length = 8 → (compress ks w vars).length = 8 := by
  induction ks with
  | nil => intro w vars h; unfold compress; exact h
  | cons k ks ih =>
    intro w vars h
    unfold compress
    split
    · have e := ‹k :: ks = _›
      injection e with _ e
      subst e
      apply ih; rfl
    · exact h

theorem hashBlocks_length (n : Nat) :
    ∀ ws hash : List Nat, hash.length = 8 → (hashBlocks n ws hash).length = 8 := by
  induction n with
  | zero => intro ws hash h; exact h
  | succ n ih =>
    intro ws hash h
    unfold hashBlocks
    apply ih
    rw [List.length_zipWith, h, compress_length _ _ _ h]
    rfl

theorem sum256_length (msg : List Nat) : (sum256 msg).length = 8 :=
  hashBlocks_length _ _ _ rfl

theorem hexDigit_mem : ∀ n < 16, hexDigit n ∈ hexChars := by decide

theorem hexWord_spec (x : Nat) : (hexWord x).length = 8 ∧ ∀ c ∈ hexWord x, c ∈ hexChars := by
  refine ⟨rfl, ?_⟩
  intro c hc
  simp only [hexWord, List.mem_cons, List.mem_singleton, List.not_mem_nil, or_false] at hc
  rcases hc with rfl | rfl | rfl | rfl | rfl | rfl | rfl | rfl <;>
    exact hexDigit_mem _ (Nat.mod_lt _ (by decide))

theorem flatMap_hexWord_length (ws : List Nat) : (ws.flatMap hexWord).length = 8 * ws.length := by
  induction ws with
  | nil => rfl
  | cons w ws ih =>
    rw [List.flatMap_cons, List.length_append, ih, (hexWord_spec w).1, List.length_cons]
    ring

set_option maxRecDepth 100000 in
theorem hash_empty :
    HashAnything [] = "e3b0c44298fc1c149afbf4c8996fb92427ae41e4649b934ca495991b7852b855" := by
  decide

set_option maxRecDepth 100000 in
theorem hash_something :
    HashAnything (utf8 "something".data)
      = "3fc9b689459d738f8c88a3a48aa9e33542016b7a4052e001aaa536fca74813cb" := by
  decide


theorem firstError_of_mem (errChan : List (Option String)) (err : String)
    (h : some err ∈ errChan) : ∃ err', firstError errChan = some err' ∧ some err' ∈ errChan := by
  induction errChan with
  | nil => simp at h
  | cons e rest ih =>
    cases e with
    | some e' => exact ⟨e', rfl, by simp⟩
    | none =>
      simp only [List.mem_cons] at h
      rcases h with h | h
      · cases h
      · obtain ⟨err', h1, h2⟩ := ih h
        exact ⟨err', by simpa [firstError] using h1, by simp [h2]⟩

theorem firstError_of_all_none (errChan : List (Option String))
    (h : ∀ e ∈ errChan, e = none) : firstError errChan = none := by
  induction errChan with
  | nil => rfl
  | cons e rest ih =>
    have he : e = none := h e (by simp)
    subst he
    simp only [firstError]
    exact ih (fun e' he' => h e' (by simp [he']))

end ReportLemmas

section DecoderLemmas

theorem skipSpace_length_le (buf : List Char) : (skipSpace buf).length ≤ buf.length := by
  induction buf with
  | nil => simp [skipSpace]
  | cons c cs ih =>
    unfold skipSpace
    split_ifs
    · exact Nat.le_succ_of_le ih
    · exact Nat.le_refl _

theorem skipSpace_head {buf cs : List Char} {c : Char} (h : skipSpace buf = c :: cs) :
    isSpace c = false := by
  induction buf with
  | nil => simp [skipSpace] at h
  | cons d ds ih =>
    unfold skipSpace at h
    split_ifs at h with hd
    · exact ih h
    · simp only [List.cons.injEq] at h
      rw [← h.1]
      simpa using hd

theorem skipSpace_idem {buf cs : List Char} {c : Char} (h : skipSpace buf = c :: cs) :
    skipSpace (c :: cs) = c :: cs := by
  have := skipSpace_head h
  simp [skipSpace, this]

theorem more_eq (buf : List Char) (state : TokenState) (stack : List TokenState) :
    (Decoder.mk buf state stack).More
      = match skipSpace buf with
        | [] => (false, Decoder.mk buf state stack)
        | c :: cs => (decide (c ≠ ']' ∧ c ≠ Char.ofNat 125), Decoder.mk (c :: cs) state stack) := by
  unfold Decoder.More Decoder.peek
  cases skipSpace buf <;> rfl

theorem decode_arrayStart (C : Codec) (readValue : ReadValue) (buf : List Char)
    (stack : List TokenState) :
    (Decoder.mk buf .arrayStart stack).Decode C readValue
      = match readValue buf with
        | .error err => (.error err, Decoder.mk buf .arrayStart stack)
        | .ok (t, rest) =>
          match decodeValue C t with
          | some m => (.ok m, Decoder.mk rest .arrayComma stack)
          | none => (.error (unmarshalTypeError C t), Decoder.mk rest .arrayComma stack) := by
  simp only [Decoder.Decode, Decoder.tokenPrepareForDecode, Decoder.tokenValueAllowed]
  cases readValue buf with
  | error err => rfl
  | ok p => obtain ⟨t, rest⟩ := p; cases decodeValue C t <;> rfl

theorem decode_arrayComma (C : Codec) (readValue : ReadValue) (cs : List Char)
    (stack : List TokenState) :
    (Decoder.mk (',' :: cs) .arrayComma stack).Decode C readValue
      = match readValue cs with
        | .error err => (.error err, Decoder.mk cs .arrayValue stack)
        | .ok (t, rest) =>
          match decodeValue C t with
          | some m => (.ok m, Decoder.mk rest .arrayComma stack)
          | none => (.error (unmarshalTypeError C t), Decoder.mk rest .arrayComma stack) := by
  have hs : skipSpace (',' :: cs) = ',' :: cs := by
    have : isSpace ',' = false := by decide
    simp [skipSpace, this]
  simp only [Decoder.Decode, Decoder.tokenPrepareForDecode, Decoder.peek, hs,
    Decoder.tokenValueAllowed]
  simp only [ne_eq, not_true_eq_false, if_false, List.tail_cons]
  cases readValue cs with
  | error err => rfl
  | ok p => obtain ⟨t, rest⟩ := p; cases decodeValue C t <;> rfl

theorem decode_arrayComma_no_comma (C : Codec) (readValue : ReadValue) (c : Char)
    (cs : List Char) (stack : List TokenState) (hsp : isSpace c = false) (hc : c ≠ ',') :
    ((Decoder.mk (c :: cs) .arrayComma stack).Decode C readValue).1
      = .error "expected comma after array element" := by
  have hs : skipSpace (c :: cs) = c :: cs := by simp [skipSpace, hsp]
  simp [Decoder.Decode, Decoder.tokenPrepareForDecode, Decoder.peek, hs, hc]


theorem fingerprint_of_decode (C : Codec) (t : JText) (m : JValue C.Float)
    (h : decodeValue C t = some m) :
    fingerprint C t = some (HashAnything (utf8 (marshal C m))) := by
  simp [fingerprint, canonical, h]

theorem fingerprints_cons (C : Codec) (t : JText) (ts : List JText) (m : JValue C.Float)
    (h : decodeValue C t = some m) :
    fingerprints C (t :: ts) = HashAnything (utf8 (marshal C m)) :: fingerprints C ts := by
  simp [fingerprints, List.filterMap_cons, fingerprint_of_decode C t m h]

/-- When every element decodes, each has its fingerprint, in order. -/
theorem map_fingerprint (C : Codec) (ts : List JText)
    (h : ∀ t ∈ ts, (decodeValue C t).isSome = true) :
    ts.map (fingerprint C) = (fingerprints C ts).map some := by
  induction ts with
  | nil => rfl
  | cons t ts ih =>
    have ht := h t (by simp)
    cases hm : decodeValue C t with
    | none => simp [hm] at ht
    | some m =>
      rw [fingerprints_cons C t ts m hm, List.map_cons, List.map_cons,
        fingerprint_of_decode C t m hm, ih (fun t' ht' => h t' (by simp [ht']))]

/-- The loop over elements that scan and decode: each costs one turn and one
call of the updater. -/
theorem parseElements_items {σ : Type} (C : Codec) (readValue : ReadValue)
    (updater : String → σ → σ) {state state' : TokenState} {buf buf' : List Char}
    {ts : List JText} (hs : ScansItems readValue state buf ts state' buf') :
    (∀ t ∈ ts, (decodeValue C t).isSome = true) →
    ∀ (fuel : Nat) (stack : List TokenState) (s : σ),
      parseElements C readValue updater (fuel + ts.length) (Decoder.mk buf state stack) s
        = parseElements C readValue updater fuel (Decoder.mk buf' state' stack)
            (applyAll updater (fingerprints C ts) s) := by
  induction hs with
  | done state buf => intro _ fuel stack s; rfl
  | @first buf cs rest buf' c t ts state' hsp h1 h2 hr _ ih =>
    intro hd fuel stack s
    have ht := hd t (by simp)
    cases hm : decodeValue C t with
    | none => simp [hm] at ht
    | some m =>
      rw [List.length_cons, ← Nat.add_assoc, parseElements, more_eq, hsp]
      simp only [h1, h2, ne_eq, not_false_eq_true, and_self, decide_True]
      rw [decode_arrayStart, hr]
      simp only [hm]
      rw [ih (fun t' ht' => hd t' (by simp [ht'])), fingerprints_cons C t ts m hm]
      rfl
  | @next buf cs rest buf' t ts state' hsp hr _ ih =>
    intro hd fuel stack s
    have ht := hd t (by simp)
    cases hm : decodeValue C t with
    | none => simp [hm] at ht
    | some m =>
      rw [List.length_cons, ← Nat.add_assoc, parseElements, more_eq, hsp]
      have e : decide (',' ≠ ']' ∧ ',' ≠ Char.ofNat 125) = true := by decide
      simp only [e]
      rw [decode_arrayComma, hr]
      simp only [hm]
      rw [ih (fun t' ht' => hd t' (by simp [ht'])), fingerprints_cons C t ts m hm]
      rfl

theorem scansItems_state {readValue : ReadValue} {state state' : TokenState}
    {buf buf' : List Char} {ts : List JText}
    (hs : ScansItems readValue state buf ts state' buf')
    (h : state = .arrayStart ∨ state = .arrayComma) :
    state' = .arrayStart ∨ state' = .arrayComma := by
  induction hs with
  | done state buf => exact h
  | first _ _ _ _ _ ih => exact ih (Or.inr rfl)
  | next _ _ _ ih => exact ih (Or.inr rfl)

/-- Elements use up input: at least one character each. -/
theorem scansItems_length {readValue : ReadValue} (hc : readValue.Consumes)
    {state state' : TokenState} {buf buf' : List Char} {ts : List JText}
    (hs : ScansItems readValue state buf ts state' buf') :
    buf'.length + ts.length ≤ buf.length := by
  induction hs with
  | done state buf => simp
  | @first buf cs rest buf' c t ts state' hsp _ _ hr _ ih =>
    have h1 := hc _ _ _ hr
    have h2 := skipSpace_length_le buf
    rw [hsp] at h2
    simp only [List.length_cons] at *
    omega
  | @next buf cs rest buf' t ts state' hsp hr _ ih =>
    have h1 := hc _ _ _ hr
    have h2 := skipSpace_length_le buf
    rw [hsp] at h2
    simp only [List.length_cons] at *
    omega

/-- The loop ends where the input ends or a closing bracket or brace stands. -/
theorem parseElements_exit {σ : Type} (C : Codec) (readValue : ReadValue)
    (updater : String → σ → σ) (fuel : Nat) (buf : List Char) (state : TokenState)
    (stack : List TokenState) (s : σ)
    (h : skipSpace buf = [] ∨ ∃ c cs, skipSpace buf = c :: cs ∧ (c = ']' ∨ c = Char.ofNat 125)) :
    parseElements C readValue updater (fuel + 1) (Decoder.mk buf state stack) s
      = some (.ok (Decoder.mk (if skipSpace buf = [] then buf else skipSpace buf) state stack),
          s) := by
  rw [parseElements, more_eq]
  rcases h with h | ⟨c, cs, h, hc⟩
  · simp [h]
  · rcases hc with rfl | rfl
    · simp [h]
    · simp [h]

theorem token_open (C : Codec) (readValue : ReadValue) (input body : List Char)
    (h : skipSpace input = '[' :: body) :
    (NewDecoder input).Token C readValue
      = (.ok (.delim '['), Decoder.mk body .arrayStart [.topValue]) := by
  simp [Decoder.Token, NewDecoder, Decoder.tokenLoop, Decoder.peek, h,
    Decoder.tokenValueAllowed]

theorem token_eof (C : Codec) (readValue : ReadValue) (dec : Decoder)
    (h : skipSpace dec.buf = []) :
    dec.Token C readValue = (.error "EOF", dec) := by
  simp [Decoder.Token, Decoder.tokenLoop, Decoder.peek, h]

/-- The first token of an input that does not start with an opening bracket is
an error, another delimiter or a scalar. -/
theorem token_top_cases (C : Codec) (readValue : ReadValue) (input : List Char) (c : Char)
    (cs : List Char) (h : skipSpace input = c :: cs) (hc : c ≠ '[') :
    (∃ err d, (NewDecoder input).Token C readValue = (.error err, d))
      ∨ (∃ t d, (NewDecoder input).Token C readValue = (.ok (.delim t), d) ∧ t ≠ '[')
      ∨ (∃ v d, (NewDecoder input).Token C readValue = (.ok (.value v), d)) := by
  unfold Decoder.Token NewDecoder
  simp only []
  rw [Decoder.tokenLoop]
  simp only [Decoder.peek, h, hc, if_false]
  by_cases h1 : c = ']'
  · left
    simp [h1]
  · simp only [h1, if_false]
    by_cases h2 : c = Char.ofNat 123
    · right; left
      refine ⟨Char.ofNat 123, Decoder.mk cs .objectStart [.topValue], ?_, by decide⟩
      simp [h2, Decoder.tokenValueAllowed]
    · simp only [h2, if_false]
      by_cases h3 : c = Char.ofNat 125
      · left
        simp [h3]
      · simp only [h3, if_false]
        by_cases h4 : c = ':'
        · left
          simp [h4]
        · simp only [h4, if_false]
          by_cases h5 : c = ','
          · left
            simp [h5]
          · simp only [h5, if_false]
            have h6 : ¬ (c = Char.ofNat 34
                ∧ (TokenState.topValue = TokenState.objectStart
                  ∨ TokenState.topValue = TokenState.objectKey)) := by
              intro h; rcases h.2 with h | h <;> cases h
            simp only [h6, if_false, Decoder.tokenValueAllowed]
            simp only [Bool.true_eq_false, if_false]
            cases hd : (Decoder.mk (c :: cs) TokenState.topValue []).Decode C readValue with
            | mk r d =>
              cases r with
              | error err => left; exact ⟨err, d, rfl⟩
              | ok v => right; right; exact ⟨v, d, rfl⟩

end DecoderLemmas

section ScannerLemmas

theorem skipSpace_tail_lt {buf cs : List Char} {c : Char} (h : skipSpace buf = c :: cs) :
    cs.length < buf.length := by
  have := skipSpace_length_le buf
  rw [h] at this
  simp only [List.length_cons] at this
  omega

theorem scanString_length : ∀ (n : Nat) (cs : List Char) (pending : Option Nat) (acc : List Char)
    (str : String) (rest : List Char), cs.length ≤ n →
    scanString cs pending acc = .ok (str, rest) → rest.length < cs.length := by
  intro n
  induction n with
  | zero =>
    intro cs pending acc str rest hn h
    have : cs = [] := List.length_eq_zero.mp (Nat.le_zero.mp hn)
    subst this
    simp [scanString] at h
  | succ n ih =>
    intro cs pending acc str rest hn h
    unfold scanString at h
    split at h
    · simp at h
    · rename_i c cs pending acc
      simp only [List.length_cons] at hn ⊢
      split_ifs at h with h1 h2 h3
      · simp only [Except.ok.injEq, Prod.mk.injEq] at h
        rw [← h.2]; omega
      · split at h
        · simp at h
        · rename_i e cs₁
          simp only [List.length_cons] at hn ⊢
          split_ifs at h with h4
          · split at h
            · rename_i h₁ h₂ h₃ h₄ cs₂
              simp only [List.length_cons] at hn ⊢
              split at h
              · have := ih _ _ _ _ _ (by omega) h
                omega
              all_goals simp at h
            · split at h <;> simp at h
          · split at h
            · have := ih _ _ _ _ _ (by omega) h
              omega
            · simp at h
      · have := ih _ _ _ _ _ (by omega) h
        omega

theorem scanDigits_length (cs : List Char) : (scanDigits cs).2.length ≤ cs.length := by
  induction cs with
  | nil => simp [scanDigits]
  | cons c cs ih =>
    unfold scanDigits
    split_ifs
    · simp only [List.length_cons]; omega
    · simp

theorem scanExponent_length (buf ex rest : List Char) (h : scanExponent buf = .ok (ex, rest)) :
    rest.length ≤ buf.length := by
  unfold scanExponent at h
  split at h
  · rename_i e cs
    split_ifs at h with h1
    · split at h
      · simp at h
      · rename_i sign cs₁
        split_ifs at h with h2 h3
        · split at h
          · simp at h
          · rename_i d cs₂
            split_ifs at h
            · simp only [Except.ok.injEq, Prod.mk.injEq] at h
              rw [← h.2]
              have := scanDigits_length (d :: cs₂)
              simp only [List.length_cons] at this ⊢
              omega
        · simp only [Except.ok.injEq, Prod.mk.injEq] at h
          rw [← h.2]
          have := scanDigits_length (sign :: cs₁)
          simp only [List.length_cons] at this ⊢
          omega
    · simp only [Except.ok.injEq, Prod.mk.injEq] at h
      rw [← h.2]
  · simp only [Except.ok.injEq, Prod.mk.injEq] at h
    rw [← h.2]

theorem scanFraction_length (buf fr rest : List Char) (h : scanFraction buf = .ok (fr, rest)) :
    rest.length ≤ buf.length := by
  unfold scanFraction at h
  split at h
  · rename_i cs
    split at h
    · simp at h
    · rename_i d cs₁
      split_ifs at h
      · split at h
        · rename_i ex rest' he
          simp only [Except.ok.injEq, Prod.mk.injEq] at h
          rw [← h.2]
          have h1 := scanExponent_length _ _ _ he
          have h2 := scanDigits_length (d :: cs₁)
          simp only [List.length_cons] at h2 ⊢
          omega
        · simp at h
  · exact scanExponent_length _ _ _ h

theorem scanUnsigned_length (buf lit rest : List Char) (h : scanUnsigned buf = .ok (lit, rest)) :
    rest.length < buf.length := by
  unfold scanUnsigned at h
  split at h
  · simp at h
  · rename_i d cs
    split_ifs at h
    · split at h
      · rename_i fr rest' he
        simp only [Except.ok.injEq, Prod.mk.injEq] at h
        rw [← h.2]
        have := scanFraction_length _ _ _ he
        simp only [List.length_cons]
        omega
      · simp at h
    · split at h
      · rename_i fr rest' he
        simp only [Except.ok.injEq, Prod.mk.injEq] at h
        rw [← h.2]
        have h1 := scanFraction_length _ _ _ he
        have h2 := scanDigits_length cs
        simp only [List.length_cons]
        omega
      · simp at h

theorem scanLiteral_length (name : String) : ∀ (ls buf rest : List Char),
    scanLiteral name ls buf = .ok rest → rest.length ≤ buf.length := by
  intro ls
  induction ls with
  | nil =>
    intro buf rest h
    simp only [scanLiteral, Except.ok.injEq] at h
    rw [h]
  | cons l ls ih =>
    intro buf rest h
    cases buf with
    | nil => simp [scanLiteral] at h
    | cons c cs =>
      simp only [scanLiteral] at h
      split_ifs at h
      · have := ih _ _ h
        simp only [List.length_cons]
        omega

theorem scan_length : ∀ (fuel depth : Nat) (buf : List Char),
    (∀ t rest, scanValue fuel depth buf = .ok (t, rest) → rest.length < buf.length)
      ∧ (∀ ts rest, scanItems fuel depth buf = .ok (ts, rest) → rest.length < buf.length)
      ∧ (∀ ms rest, scanMembers fuel depth buf = .ok (ms, rest) → rest.length < buf.length) := by
  intro fuel
  induction fuel with
  | zero =>
    intro depth buf
    refine ⟨?_, ?_, ?_⟩ <;> intro _ _ h
    · simp [scanValue] at h
    · simp [scanItems] at h
    · simp [scanMembers] at h
  | succ fuel ih =>
    intro depth buf
    refine ⟨?_, ?_, ?_⟩
    · intro t rest h
      unfold scanValue at h
      split at h
      · simp at h
      · rename_i c cs hsp
        have h0 := skipSpace_tail_lt hsp
        split_ifs at h
        · split at h
          · simp at h
          · rename_i c₁ cs₁ hsp₁
            have h1 := skipSpace_length_le cs
            rw [hsp₁] at h1
            simp only [List.length_cons] at h1
            split_ifs at h
            · simp only [Except.ok.injEq, Prod.mk.injEq] at h
              rw [← h.2]; omega
            · split at h
              · rename_i items rest' he
                simp only [Except.ok.injEq, Prod.mk.injEq] at h
                rw [← h.2]
                have := (ih _ _).2.1 _ _ he
                simp only [List.length_cons] at this
                omega
              · simp at h
        · split at h
          · simp at h
          · rename_i c₁ cs₁ hsp₁
            have h1 := skipSpace_length_le cs
            rw [hsp₁] at h1
            simp only [List.length_cons] at h1
            split_ifs at h
            · simp only [Except.ok.injEq, Prod.mk.injEq] at h
              rw [← h.2]; omega
            · split at h
              · rename_i members rest' he
                simp only [Except.ok.injEq, Prod.mk.injEq] at h
                rw [← h.2]
                have := (ih _ _).2.2 _ _ he
                simp only [List.length_cons] at this
                omega
              · simp at h
        · split at h
          · rename_i str rest' he
            simp only [Except.ok.injEq, Prod.mk.injEq] at h
            rw [← h.2]
            have := scanString_length _ _ _ _ _ _ (Nat.le_refl _) he
            omega
          · simp at h
        · split at h
          · rename_i lit rest' he
            simp only [Except.ok.injEq, Prod.mk.injEq] at h
            rw [← h.2]
            have := scanUnsigned_length _ _ _ he
            omega
          · simp at h
        · split at h
          · rename_i lit rest' he
            simp only [Except.ok.injEq, Prod.mk.injEq] at h
            rw [← h.2]
            have := scanUnsigned_length _ _ _ he
            simp only [List.length_cons] at this
            omega
          · simp at h
        · split at h
          · rename_i rest' he
            simp only [Except.ok.injEq, Prod.mk.injEq] at h
            rw [← h.2]
            have := scanLiteral_length _ _ _ _ he
            omega
          · simp at h
        · split at h
          · rename_i rest' he
            simp only [Except.ok.injEq, Prod.mk.injEq] at h
            rw [← h.2]
            have := scanLiteral_length _ _ _ _ he
            omega
          · simp at h
        · split at h
          · rename_i rest' he
            simp only [Except.ok.injEq, Prod.mk.injEq] at h
            rw [← h.2]
            have := scanLiteral_length _ _ _ _ he
            omega
          · simp at h
    · intro ts rest h
      unfold scanItems at h
      split at h
      · simp at h
      · rename_i t rest₁ hv
        have h0 := (ih _ _).1 _ _ hv
        split at h
        · simp at h
        · rename_i c cs hsp
          have h1 := skipSpace_tail_lt hsp
          split_ifs at h
          · simp only [Except.ok.injEq, Prod.mk.injEq] at h
            rw [← h.2]; omega
          · split at h
            · rename_i ts' rest' he
              simp only [Except.ok.injEq, Prod.mk.injEq] at h
              rw [← h.2]
              have := (ih _ _).2.1 _ _ he
              omega
            · simp at h
    · intro ms rest h
      unfold scanMembers at h
      split at h
      · simp at h
      · rename_i q cs₀ hsp₀
        have h0 := skipSpace_tail_lt hsp₀
        split_ifs at h
        split at h
        · simp at h
        · rename_i key rest₀ hk
          have h1 := scanString_length _ _ _ _ _ _ (Nat.le_refl _) hk
          split at h
          · simp at h
          · rename_i colon cs₁ hsp₁
            have h2 := skipSpace_tail_lt hsp₁
            split_ifs at h
            split at h
            · simp at h
            · rename_i t rest₁ hv
              have h3 := (ih _ _).1 _ _ hv
              split at h
              · simp at h
              · rename_i c cs hsp
                have h4 := skipSpace_tail_lt hsp
                split_ifs at h
                · simp only [Except.ok.injEq, Prod.mk.injEq] at h
                  rw [← h.2]; omega
                · split at h
                  · rename_i ms' rest' he
                    simp only [Except.ok.injEq, Prod.mk.injEq] at h
                    rw [← h.2]
                    have := (ih _ _).2.2 _ _ he
                    omega
                  · simp at h

/-- The scanner consumes input. -/
theorem jsonRead_consumes : jsonRead.Consumes := by
  intro buf t rest h
  unfold jsonRead at h
  split at h
  · simp at h
  · exact (scan_length _ _ _).1 _ _ h

end ScannerLemmas

section StreamLemmas

theorem skipSpace_skipSpace (buf : List Char) : skipSpace (skipSpace buf) = skipSpace buf := by
  cases h : skipSpace buf with
  | nil => rfl
  | cons c cs => exact skipSpace_idem h

/-- The closing bracket read as a token behind the elements. -/
theorem token_close (C : Codec) (readValue : ReadValue) (buf rest : List Char)
    (state top : TokenState) (stack : List TokenState)
    (hst : state = .arrayStart ∨ state = .arrayComma) (h : skipSpace buf = ']' :: rest) :
    (Decoder.mk buf state (top :: stack)).Token C readValue
      = (.ok (.delim ']'), Decoder.mk rest (tokenValueEnd top) stack) := by
  rcases hst with rfl | rfl <;>
    simp [Decoder.Token, Decoder.tokenLoop, Decoder.peek, h]

/-- A closing brace where the closing bracket should stand is an error. -/
theorem token_brace (C : Codec) (readValue : ReadValue) (buf rest : List Char)
    (state : TokenState) (stack : List TokenState)
    (hst : state = .arrayStart ∨ state = .arrayComma) (h : skipSpace buf = Char.ofNat 125 :: rest) :
    ((Decoder.mk buf state stack).Token C readValue).1
      = .error ("invalid character " ++ quoteChar (Char.ofNat 125) ++ tokenContext state) := by
  have e1 : Char.ofNat 125 ≠ '[' := by decide
  have e2 : Char.ofNat 125 ≠ ']' := by decide
  have e3 : Char.ofNat 125 ≠ Char.ofNat 123 := by decide
  rcases hst with rfl | rfl <;>
    simp [Decoder.Token, Decoder.tokenLoop, Decoder.peek, h, e1, e2, e3, Decoder.tokenError]

/-- `StreamedJParse` behind the opening bracket. -/
theorem streamed_open {σ : Type} (C : Codec) (readValue : ReadValue)
    (updater : String → σ → σ) (input body : List Char) (s : σ)
    (h : skipSpace input = '[' :: body) :
    StreamedJParse C readValue updater input s
      = match parseElements C readValue updater (input.length + 1)
            (Decoder.mk body .arrayStart [.topValue]) s with
        | none => none
        | some (.error err, s) => some (some err, s)
        | some (.ok dec, s) =>
          match dec.Token C readValue with
          | (.error err, _) => some (some ("failed to read closing bracket: " ++ err), s)
          | (.ok _, _) => some (none, s) := by
  unfold StreamedJParse
  rw [token_open C readValue input body h]
  simp only [ne_eq, not_true_eq_false, if_false]

/-- Without an opening bracket first there is an error and no call of the
updater. -/
theorem streamed_not_open {σ : Type} (C : Codec) (readValue : ReadValue)
    (updater : String → σ → σ) (input : List Char) (s : σ)
    (h : ∀ dec, (NewDecoder input).Token C readValue ≠ (.ok (.delim '['), dec)) :
    ∃ err, StreamedJParse C readValue updater input s = some (some err, s) := by
  unfold StreamedJParse
  cases ht : (NewDecoder input).Token C readValue with
  | mk r dec =>
    cases r with
    | error err => exact ⟨_, rfl⟩
    | ok tok =>
      cases tok with
      | value v => exact ⟨_, rfl⟩
      | delim t =>
        have hne : t ≠ '[' := by
          rintro rfl
          exact h dec ht
        simp only [hne, ne_eq, not_false_eq_true, if_true]
        exact ⟨_, rfl⟩

/-- The first token is the opening bracket only when the opening bracket is the
first character that is not white space. -/
theorem token_open_inv (C : Codec) (readValue : ReadValue) (input : List Char) (dec : Decoder)
    (h : (NewDecoder input).Token C readValue = (.ok (.delim '['), dec)) :
    ∃ body, skipSpace input = '[' :: body := by
  cases hs : skipSpace input with
  | nil =>
    have := token_eof C readValue (NewDecoder input) hs
    rw [this] at h
    simp at h
  | cons c cs =>
    by_cases hc : c = '['
    · exact ⟨cs, by rw [hc]⟩
    · rcases token_top_cases C readValue input c cs hs hc with
        ⟨err, d, e⟩ | ⟨t, d, e, hne⟩ | ⟨v, d, e⟩
      · rw [e] at h; simp at h
      · rw [e] at h
        simp only [Prod.mk.injEq, Except.ok.injEq, Token.delim.injEq] at h
        exact absurd h.1 hne
      · rw [e] at h; simp at h

/-- The loop reaches the input behind the elements that scan and decode, with
turns to spare. -/
theorem parseElements_reach {σ : Type} (C : Codec) (readValue : ReadValue)
    (updater : String → σ → σ) (hc : readValue.Consumes) {input body buf : List Char}
    {state : TokenState} {ts : List JText} (ho : skipSpace input = '[' :: body)
    (hs : ScansItems readValue .arrayStart body ts state buf)
    (hd : ∀ t ∈ ts, (decodeValue C t).isSome = true) (stack : List TokenState) (s : σ) :
    parseElements C readValue updater (input.length + 1) (Decoder.mk body .arrayStart stack) s
      = parseElements C readValue updater (input.length - ts.length + 1)
          (Decoder.mk buf state stack) (applyAll updater (fingerprints C ts) s) := by
  have h1 := skipSpace_tail_lt ho
  have h2 := scansItems_length hc hs
  have e : input.length + 1 = (input.length - ts.length + 1) + ts.length := by omega
  rw [e, parseElements_items C readValue updater hs hd]

/-- The loop stops at the element that fails to decode. -/
theorem parseElements_fail {σ : Type} (C : Codec) (readValue : ReadValue)
    (updater : String → σ → σ) (fuel : Nat) (dec : Decoder) (s : σ) (err : String)
    (hm : dec.More.1 = true) (hd : (dec.More.2.Decode C readValue).1 = .error err) :
    parseElements C readValue updater (fuel + 1) dec s
      = some (.error ("failed to decode: " ++ err), s) := by
  rw [parseElements]
  cases h : dec.More with
  | mk b d =>
    rw [h] at hm hd
    simp only at hm hd
    subst hm
    simp only
    cases h' : d.Decode C readValue with
    | mk r d' =>
      rw [h'] at hd
      simp only at hd
      subst hd
      rfl

/-- What the loop has done when it ends without an error: the elements it
went through scan and decode, each had its call of the updater, and `More`
is false behind them. -/
theorem parseElements_inv {σ : Type} (C : Codec) (readValue : ReadValue)
    (updater : String → σ → σ) :
    ∀ (fuel : Nat) (state : TokenState) (buf : List Char) (stack : List TokenState) (s s' : σ)
      (dec' : Decoder), (state = .arrayStart ∨ state = .arrayComma) →
      parseElements C readValue updater fuel (Decoder.mk buf state stack) s = some (.ok dec', s') →
      ∃ ts state' buf', ScansItems readValue state buf ts state' buf'
        ∧ (∀ t ∈ ts, (decodeValue C t).isSome = true)
        ∧ s' = applyAll updater (fingerprints C ts) s
        ∧ (Decoder.mk buf' state' stack).More = (false, dec') := by
  intro fuel
  induction fuel with
  | zero => intro state buf stack s s' dec' _ h; simp [parseElements] at h
  | succ fuel ih =>
    intro state buf stack s s' dec' hst h
    rw [parseElements] at h
    cases hm : (Decoder.mk buf state stack).More with
    | mk b d =>
      rw [hm] at h
      cases b with
      | false =>
        simp only [Option.some.injEq, Prod.mk.injEq, Except.ok.injEq] at h
        refine ⟨[], state, buf, ScansItems.done _ _, by simp, ?_, ?_⟩
        · rw [← h.2]; rfl
        · rw [hm, h.1]
      | true =>
        simp only at h
        rw [more_eq] at hm
        cases hsp : skipSpace buf with
        | nil => rw [hsp] at hm; simp at hm
        | cons c cs =>
          rw [hsp] at hm
          simp only [Prod.mk.injEq, decide_eq_true_eq] at hm
          obtain ⟨⟨hc1, hc2⟩, hd⟩ := hm
          subst hd
          rcases hst with rfl | rfl
          · rw [decode_arrayStart] at h
            cases hr : readValue (c :: cs) with
            | error err => rw [hr] at h; simp at h
            | ok p =>
              obtain ⟨t, rest⟩ := p
              rw [hr] at h
              simp only at h
              cases hv : decodeValue C t with
              | none => rw [hv] at h; simp at h
              | some m =>
                rw [hv] at h
                simp only at h
                obtain ⟨ts, state', buf', hs, hdec, hs', hmore⟩ :=
                  ih _ _ _ _ _ _ (Or.inr rfl) h
                refine ⟨t :: ts, state', buf', ScansItems.first hsp hc1 hc2 hr hs, ?_, ?_, hmore⟩
                · intro t' ht'
                  rcases List.mem_cons.mp ht' with rfl | ht'
                  · simp [hv]
                  · exact hdec t' ht'
                · rw [hs', fingerprints_cons C t ts m hv]; rfl
          · by_cases hcomma : c = ','
            · subst hcomma
              rw [decode_arrayComma] at h
              cases hr : readValue cs with
              | error err => rw [hr] at h; simp at h
              | ok p =>
                obtain ⟨t, rest⟩ := p
                rw [hr] at h
                simp only at h
                cases hv : decodeValue C t with
                | none => rw [hv] at h; simp at h
                | some m =>
                  rw [hv] at h
                  simp only at h
                  obtain ⟨ts, state', buf', hs, hdec, hs', hmore⟩ :=
                    ih _ _ _ _ _ _ (Or.inr rfl) h
                  refine ⟨t :: ts, state', buf', ScansItems.next hsp hr hs, ?_, ?_, hmore⟩
                  · intro t' ht'
                    rcases List.mem_cons.mp ht' with rfl | ht'
                    · simp [hv]
                    · exact hdec t' ht'
                  · rw [hs', fingerprints_cons C t ts m hv]; rfl
            · have := decode_arrayComma_no_comma C readValue c cs stack (skipSpace_head hsp) hcomma
              cases hD : (Decoder.mk (c :: cs) .arrayComma stack).Decode C readValue with
              | mk r d' =>
                rw [hD] at this h
                simp only at this
                subst this
                simp at h

theorem applyAll_record (fps calls : List String) : applyAll record fps calls = calls ++ fps := by
  induction fps generalizing calls with
  | nil => simp [applyAll]
  | cons f fps ih =>
    have := ih (calls ++ [f])
    simp only [applyAll, List.foldl_cons, record] at this ⊢
    rw [this]
    simp

theorem fingerprints_length (C : Codec) (ts : List JText)
    (h : ∀ t ∈ ts, (decodeValue C t).isSome = true) :
    (fingerprints C ts).length = ts.length := by
  have := congrArg List.length (map_fingerprint C ts h)
  simpa using this.symm

/-- The first token of an input whose first character that is not white space
is not the opening bracket is not the opening bracket. -/
theorem token_not_open (C : Codec) (readValue : ReadValue) (input : List Char)
    (h : ∀ body, skipSpace input ≠ '[' :: body) (dec : Decoder) :
    (NewDecoder input).Token C readValue ≠ (.ok (.delim '['), dec) := by
  intro ht
  obtain ⟨body, hb⟩ := token_open_inv C readValue input dec ht
  exact h body hb

/-- More is false exactly at the end of the input, a closing bracket or a
closing brace. -/
theorem more_false_iff (buf : List Char) (state : TokenState) (stack : List TokenState) :
    (Decoder.mk buf state stack).More.1 = false
      ↔ skipSpace buf = [] ∨ ∃ c cs, skipSpace buf = c :: cs ∧ (c = ']' ∨ c = Char.ofNat 125) := by
  rw [more_eq]
  cases h : skipSpace buf with
  | nil => simp
  | cons c cs =>
    simp only [decide_eq_false_iff_not, not_and_or, not_not, ne_eq, List.cons.injEq,
      false_or, reduceCtorEq]
    constructor
    · intro h'; exact ⟨c, cs, ⟨rfl, rfl⟩, h'⟩
    · rintro ⟨c', cs', ⟨rfl, rfl⟩, h'⟩; exact h'

/-- The result and state of `StreamedJParse` on an input whose elements scan and
decode up to a place where `More` is false. -/
theorem streamed_exit {σ : Type} (C : Codec) (readValue : ReadValue)
    (updater : String → σ → σ) (hc : readValue.Consumes) {input body buf : List Char}
    {state : TokenState} {ts : List JText} (ho : skipSpace input = '[' :: body)
    (hs : ScansItems readValue .arrayStart body ts state buf)
    (hd : ∀ t ∈ ts, (decodeValue C t).isSome = true)
    (hm : (Decoder.mk buf state [.topValue]).More.1 = false) (s : σ) :
    StreamedJParse C readValue updater input s
      = match (Decoder.mk (if skipSpace buf = [] then buf else skipSpace buf) state
            [.topValue]).Token C readValue with
        | (.error err, _) =>
          some (some ("failed to read closing bracket: " ++ err),
            applyAll updater (fingerprints C ts) s)
        | (.ok _, _) => some (none, applyAll updater (fingerprints C ts) s) := by
  rw [streamed_open C readValue updater input body s ho,
    parseElements_reach C readValue updater hc ho hs hd,
    parseElements_exit C readValue updater _ buf state _ _ ((more_false_iff _ _ _).mp hm)]

/-- The closing bracket behind the elements: `nil`. -/
theorem streamed_close {σ : Type} (C : Codec) (readValue : ReadValue)
    (updater : String → σ → σ) (hc : readValue.Consumes) {input body buf rest : List Char}
    {state : TokenState} {ts : List JText} (ho : skipSpace input = '[' :: body)
    (hs : ScansItems readValue .arrayStart body ts state buf)
    (hd : ∀ t ∈ ts, (decodeValue C t).isSome = true)
    (hb : skipSpace buf = ']' :: rest) (s : σ) :
    StreamedJParse C readValue updater input s
      = some (none, applyAll updater (fingerprints C ts) s) := by
  have hm : (Decoder.mk buf state [.topValue]).More.1 = false :=
    (more_false_iff _ _ _).mpr (Or.inr ⟨_, _, hb, Or.inl rfl⟩)
  have hne : skipSpace buf ≠ [] := by rw [hb]; simp
  rw [streamed_exit C readValue updater hc ho hs hd hm, if_neg hne, hb,
    token_close C readValue (']' :: rest) rest state .topValue []
      (scansItems_state hs (Or.inl rfl)) (by rw [← hb, skipSpace_skipSpace])]

/-- The input ends behind the elements: the error of the closing token. -/
theorem streamed_eof {σ : Type} (C : Codec) (readValue : ReadValue)
    (updater : String → σ → σ) (hc : readValue.Consumes) {input body buf : List Char}
    {state : TokenState} {ts : List JText} (ho : skipSpace input = '[' :: body)
    (hs : ScansItems readValue .arrayStart body ts state buf)
    (hd : ∀ t ∈ ts, (decodeValue C t).isSome = true)
    (hb : skipSpace buf = []) (s : σ) :
    StreamedJParse C readValue updater input s
      = some (some "failed to read closing bracket: EOF",
          applyAll updater (fingerprints C ts) s) := by
  have hm : (Decoder.mk buf state [.topValue]).More.1 = false :=
    (more_false_iff _ _ _).mpr (Or.inl hb)
  rw [streamed_exit C readValue updater hc ho hs hd hm, if_pos hb,
    token_eof C readValue (Decoder.mk buf state [.topValue]) hb]
  rfl

/-- A closing brace behind the elements: the error of the closing token. -/
theorem streamed_brace {σ : Type} (C : Codec) (readValue : ReadValue)
    (updater : String → σ → σ) (hc : readValue.Consumes) {input body buf rest : List Char}
    {state : TokenState} {ts : List JText} (ho : skipSpace input = '[' :: body)
    (hs : ScansItems readValue .arrayStart body ts state buf)
    (hd : ∀ t ∈ ts, (decodeValue C t).isSome = true)
    (hb : skipSpace buf = Char.ofNat 125 :: rest) (s : σ) :
    StreamedJParse C readValue updater input s
      = some (some ("failed to read closing bracket: "
            ++ ("invalid character " ++ quoteChar (Char.ofNat 125) ++ tokenContext state)),
          applyAll updater (fingerprints C ts) s) := by
  have hm : (Decoder.mk buf state [.topValue]).More.1 = false :=
    (more_false_iff _ _ _).mpr (Or.inr ⟨_, _, hb, Or.inr rfl⟩)
  have hne : skipSpace buf ≠ [] := by rw [hb]; simp
  have ht := token_brace C readValue (Char.ofNat 125 :: rest) rest state [.topValue]
      (scansItems_state hs (Or.inl rfl)) (by rw [← hb, skipSpace_skipSpace])
  rw [streamed_exit C readValue updater hc ho hs hd hm, if_neg hne, hb]
  cases hT : (Decoder.mk (Char.ofNat 125 :: rest) state [.topValue]).Token C readValue with
  | mk r d =>
    rw [hT] at ht
    simp only at ht
    subst ht
    rfl

/-- An element that fails to decode behind elements that scan and decode. -/
theorem streamed_fail {σ : Type} (C : Codec) (readValue : ReadValue)
    (updater : String → σ → σ) (hc : readValue.Consumes) {input body buf : List Char}
    {state : TokenState} {ts : List JText} {err : String}
    (ho : skipSpace input = '[' :: body)
    (hs : ScansItems readValue .arrayStart body ts state buf)
    (hd : ∀ t ∈ ts, (decodeValue C t).isSome = true)
    (hf : ElementFails C readValue state buf err) (s : σ) :
    StreamedJParse C readValue updater input s
      = some (some ("failed to decode: " ++ err), applyAll updater (fingerprints C ts) s) := by
  rw [streamed_open C readValue updater input body s ho,
    parseElements_reach C readValue updater hc ho hs hd,
    parseElements_fail C readValue updater _ _ _ err hf.1 hf.2]

/-- A `nil` result only on an array text whose elements decode. -/
theorem streamed_nil_inv {σ : Type} (C : Codec) (readValue : ReadValue)
    (updater : String → σ → σ) (input : List Char) (s s' : σ)
    (h : StreamedJParse C readValue updater input s = some (none, s')) :
    ∃ ts rest, ArrayText readValue input ts rest
      ∧ (∀ t ∈ ts, (decodeValue C t).isSome = true)
      ∧ s' = applyAll updater (fingerprints C ts) s := by
  have hopen : ∃ body, skipSpace input = '[' :: body := by
    by_contra hno
    have hno' : ∀ body, skipSpace input ≠ '[' :: body := fun body hb => hno ⟨body, hb⟩
    obtain ⟨err, he⟩ := streamed_not_open C readValue updater input s
      (token_not_open C readValue input hno')
    rw [he] at h
    simp at h
  obtain ⟨body, ho⟩ := hopen
  rw [streamed_open C readValue updater input body s ho] at h
  cases hp : parseElements C readValue updater (input.length + 1)
      (Decoder.mk body .arrayStart [.topValue]) s with
  | none => rw [hp] at h; simp at h
  | some p =>
    obtain ⟨r, s₁⟩ := p
    rw [hp] at h
    cases r with
    | error err => simp at h
    | ok dec =>
      simp only at h
      obtain ⟨ts, state', buf', hs, hd, hs', hmore⟩ :=
        parseElements_inv C readValue updater _ _ _ _ _ _ _ (Or.inl rfl) hp
      have hm : (Decoder.mk buf' state' [.topValue]).More.1 = false := by rw [hmore]
      have hst := scansItems_state hs (Or.inl rfl)
      have hdec : dec = Decoder.mk (if skipSpace buf' = [] then buf' else skipSpace buf') state'
          [.topValue] := by
        rw [more_eq] at hmore
        cases hsp : skipSpace buf' with
        | nil => rw [hsp] at hmore; simp only [Prod.mk.injEq, true_and] at hmore; simp [← hmore]
        | cons c cs =>
          rw [hsp] at hmore
          simp only [Prod.mk.injEq] at hmore
          simp [← hmore.2]
      rcases (more_false_iff _ _ _).mp hm with hnil | ⟨c, cs, hsp, hc | hc⟩
      · rw [hdec, if_pos hnil,
          token_eof C readValue (Decoder.mk buf' state' [.topValue]) hnil] at h
        simp at h
      · subst hc
        refine ⟨ts, cs, ⟨body, state', buf', ho, hs, hsp⟩, hd, ?_⟩
        have hne : skipSpace buf' ≠ [] := by rw [hsp]; simp
        rw [hdec, if_neg hne, hsp, token_close C readValue (']' :: cs) cs state' .topValue []
          hst (by rw [← hsp, skipSpace_skipSpace])] at h
        simp only [Option.some.injEq, Prod.mk.injEq, true_and] at h
        rw [← h, hs']
      · subst hc
        have hne : skipSpace buf' ≠ [] := by rw [hsp]; simp
        have ht := token_brace C readValue (Char.ofNat 125 :: cs) cs state' [.topValue]
          hst (by rw [← hsp, skipSpace_skipSpace])
        rw [hdec, if_neg hne, hsp] at h
        cases hT : (Decoder.mk (Char.ofNat 125 :: cs) state' [.topValue]).Token C readValue with
        | mk r d =>
          rw [hT] at ht h
          simp only at ht
          subst ht
          simp at h

end StreamLemmas

section FipsLemmas

theorem fipsW_lt (M : Nat → Nat) (t : Nat) (h : t < 16) : fipsW M t = M t := by
  interval_cases t <;> rfl

theorem fipsW_add (M : Nat → Nat) (t : Nat) : fipsW M (t + 16)
    = (smallSigma1 (fipsW M (t + 14)) + fipsW M (t + 9) + smallSigma0 (fipsW M (t + 1))
      + fipsW M t) % 2 ^ 32 := by
  rw [fipsW]


/-- The sixteen words of the message schedule from `W_t` on. -/
theorem window_spec (M : Nat → Nat) (t : Nat) :
    [fipsW M (t + 1), fipsW M (t + 2), fipsW M (t + 3), fipsW M (t + 4), fipsW M (t + 5),
      fipsW M (t + 6), fipsW M (t + 7), fipsW M (t + 8), fipsW M (t + 9), fipsW M (t + 10),
      fipsW M (t + 11), fipsW M (t + 12), fipsW M (t + 13), fipsW M (t + 14), fipsW M (t + 15),
      add32 (add32 (add32 (smallSigma1 (fipsW M (t + 14))) (fipsW M (t + 9)))
        (smallSigma0 (fipsW M (t + 1)))) (fipsW M t)]
      = [fipsW M (t + 1), fipsW M (t + 1 + 1), fipsW M (t + 1 + 2), fipsW M (t + 1 + 3),
        fipsW M (t + 1 + 4), fipsW M (t + 1 + 5), fipsW M (t + 1 + 6), fipsW M (t + 1 + 7),
        fipsW M (t + 1 + 8), fipsW M (t + 1 + 9), fipsW M (t + 1 + 10), fipsW M (t + 1 + 11),
        fipsW M (t + 1 + 12), fipsW M (t + 1 + 13), fipsW M (t + 1 + 14),
        fipsW M (t + 1 + 15)] := by
  have e : fipsW M (t + 1 + 15) = fipsW M (t + 16) := by rw [Nat.add_assoc]
  rw [e, fipsW_add]
  simp only [add32, Nat.add_assoc, Nat.reduceAdd, Nat.reducePow]
  congr 15
  simp only [List.cons.injEq, and_true]
  omega

theorem compress_eq_rounds (M : Nat → Nat) :
    ∀ (ks : List Nat) (t : Nat) (v : WorkingVars),
      (∀ i < ks.length, ks.getD i 0 = fipsK (t + i)) →
      compress ks
          [fipsW M t, fipsW M (t + 1), fipsW M (t + 2), fipsW M (t + 3), fipsW M (t + 4),
            fipsW M (t + 5), fipsW M (t + 6), fipsW M (t + 7), fipsW M (t + 8), fipsW M (t + 9),
            fipsW M (t + 10), fipsW M (t + 11), fipsW M (t + 12), fipsW M (t + 13),
            fipsW M (t + 14), fipsW M (t + 15)]
          v.toList
        = ((List.range' t ks.length).foldl (fipsRound M) v).toList := by
  intro ks
  induction ks with
  | nil => intro t v _; simp [compress, WorkingVars.toList]
  | cons k ks ih =>
    intro t v hk
    have hk0 : k = fipsK t := by simpa using hk 0 (by simp)
    have hk' : ∀ i < ks.length, ks.getD i 0 = fipsK (t + 1 + i) := by
      intro i hi
      have := hk (i + 1) (by simp; omega)
      simpa [Nat.add_assoc, Nat.add_comm 1 i] using this
    simp only [WorkingVars.toList, compress, List.length_cons, List.range'_succ, List.foldl_cons]
    rw [window_spec]
    have hv : [add32 (add32 (add32 (add32 (add32 v.h (bigSigma1 v.e)) (choose32 v.e v.f v.g)) k)
            (fipsW M t)) (add32 (bigSigma0 v.a) (majority32 v.a v.b v.c)),
          v.a, v.b, v.c,
          add32 v.d (add32 (add32 (add32 (add32 v.h (bigSigma1 v.e)) (choose32 v.e v.f v.g)) k)
            (fipsW M t)),
          v.e, v.f, v.g] = (fipsRound M v t).toList := by
      simp only [fipsRound, WorkingVars.toList, add32, hk0, Nat.reducePow, List.cons.injEq,
        and_true, true_and]
      constructor <;> omega
    rw [hv]
    exact ih (t + 1) (fipsRound M v t) hk'

theorem fipsZeroBytes_eq (len : Nat) : fipsZeroBytes len = (64 - (len + 9) % 64) % 64 := by
  have key : ∀ r < 64, ((List.range 64).find? (fun z => decide ((r + 1 + z) % 64 = 56))).getD 0
      = (64 - (r + 9) % 64) % 64 := by decide
  have e : (fun z => decide ((len + 1 + z) % 64 = 56))
      = (fun z => decide ((len % 64 + 1 + z) % 64 = 56)) := by
    funext z
    congr 1
    apply propext
    constructor <;> intro h <;> omega
  unfold fipsZeroBytes
  rw [e, key (len % 64) (Nat.mod_lt _ (by decide))]
  omega

theorem fipsPad_eq (M : List Nat) : fipsPad M = padMessage M := by
  unfold fipsPad padMessage
  rw [fipsZeroBytes_eq]
  simp [fipsLength64, List.range_succ, Nat.mul_comm]

theorem padMessage_length (msg : List Nat) : (padMessage msg).length % 64 = 0 := by
  simp only [padMessage, List.length_append, List.length_cons, List.length_replicate,
    List.length_nil]
  omega

theorem toWords_length : ∀ (n : Nat) (P : List Nat), P.length ≤ n →
    (toWords P).length = P.length / 4 := by
  intro n
  induction n using Nat.strong_induction_on with
  | _ n ih =>
    intro P hP
    match P with
    | a :: b :: c :: d :: rest =>
      simp only [toWords, List.length_cons] at hP ⊢
      rw [ih rest.length (by omega) rest (Nat.le_refl _)]
      omega
    | [] => simp [toWords]
    | [_] => simp [toWords]
    | [_, _] => simp [toWords]
    | [_, _, _] => simp [toWords]

theorem toWords_getD : ∀ (n : Nat) (P : List Nat), 4 * n + 4 ≤ P.length →
    (toWords P).getD n 0 = fipsWord P (4 * n) := by
  intro n
  induction n with
  | zero =>
    intro P hP
    match P with
    | a :: b :: c :: d :: rest => simp [toWords, fipsWord]
    | [] => simp at hP
    | [_] => simp at hP
    | [_, _] => simp at hP
    | [_, _, _] => simp at hP
  | succ n ih =>
    intro P hP
    match P with
    | a :: b :: c :: d :: rest =>
      simp only [List.length_cons] at hP
      have := ih rest (by omega)
      have e : 4 * (n + 1) = 4 * n + 1 + 1 + 1 + 1 := by omega
      simp only [toWords, List.getD_cons_succ, this, fipsWord, e]
    | [] => simp at hP
    | [_] => simp at hP
    | [_, _] => simp at hP
    | [_, _, _] => simp at hP

theorem take_sixteen (l : List Nat) (h : 16 ≤ l.length) :
    l.take 16 = [l.getD 0 0, l.getD 1 0, l.getD 2 0, l.getD 3 0, l.getD 4 0, l.getD 5 0,
      l.getD 6 0, l.getD 7 0, l.getD 8 0, l.getD 9 0, l.getD 10 0, l.getD 11 0, l.getD 12 0,
      l.getD 13 0, l.getD 14 0, l.getD 15 0] := by
  apply List.ext_getElem
  · simp [List.length_take]; omega
  · intro i h1 h2
    simp only [List.length_cons, List.length_nil] at h2
    rw [List.getElem_take]
    have hi : i < 16 := by omega
    interval_cases i <;>
      simp (disch := omega) only [List.getD_eq_getElem?_getD, List.getElem?_eq_getElem,
        Option.getD_some, List.getElem_cons_zero, List.getElem_cons_succ]

/-- The sixteen words of block `i`, as the hash loop takes them. -/
theorem block_words (P : List Nat) (i : Nat) (h : 64 * (i + 1) ≤ P.length) :
    ((toWords P).drop (16 * i)).take 16
      = [fipsW (fipsM P i) 0, fipsW (fipsM P i) (0 + 1), fipsW (fipsM P i) (0 + 2),
        fipsW (fipsM P i) (0 + 3), fipsW (fipsM P i) (0 + 4), fipsW (fipsM P i) (0 + 5),
        fipsW (fipsM P i) (0 + 6), fipsW (fipsM P i) (0 + 7), fipsW (fipsM P i) (0 + 8),
        fipsW (fipsM P i) (0 + 9), fipsW (fipsM P i) (0 + 10), fipsW (fipsM P i) (0 + 11),
        fipsW (fipsM P i) (0 + 12), fipsW (fipsM P i) (0 + 13), fipsW (fipsM P i) (0 + 14),
        fipsW (fipsM P i) (0 + 15)] := by
  have hl := toWords_length P.length P (Nat.le_refl _)
  have key : ∀ j < 16, ((toWords P).drop (16 * i)).getD j 0 = fipsW (fipsM P i) j := by
    intro j hj
    rw [fipsW_lt _ _ hj, List.getD_eq_getElem?_getD, List.getElem?_drop,
      ← List.getD_eq_getElem?_getD, toWords_getD _ _ (by omega), fipsM]
    congr 1
    omega
  rw [take_sixteen _ (by rw [List.length_drop]; omega)]
  simp only [Nat.zero_add]
  rw [key 0 (by omega), key 1 (by omega), key 2 (by omega), key 3 (by omega), key 4 (by omega),
    key 5 (by omega), key 6 (by omega), key 7 (by omega), key 8 (by omega), key 9 (by omega),
    key 10 (by omega), key 11 (by omega), key 12 (by omega), key 13 (by omega),
    key 14 (by omega), key 15 (by omega)]

theorem roundConstants_spec : ∀ i < roundConstants.length,
    roundConstants.getD i 0 = fipsK (0 + i) := by
  intro i _
  rw [Nat.zero_add, fipsK]

theorem hashBlocks_eq (P : List Nat) : ∀ (n i : Nat), 64 * (i + n) ≤ P.length →
    hashBlocks n ((toWords P).drop (16 * i)) (fipsH P i).toList = (fipsH P (i + n)).toList := by
  intro n
  induction n with
  | zero => intro i _; rfl
  | succ n ih =>
    intro i h
    have e : 16 * (i + 1) = 16 * i + 16 := by omega
    rw [hashBlocks, List.drop_drop, block_words P i (by omega),
      compress_eq_rounds (fipsM P i) roundConstants 0 (fipsH P i) roundConstants_spec,
      ← e]
    have hstep : List.zipWith add32 (fipsH P i).toList
        ((List.range' 0 roundConstants.length).foldl (fipsRound (fipsM P i)) (fipsH P i)).toList
        = (fipsH P (i + 1)).toList := by
      have hr : List.range' 0 roundConstants.length = List.range 64 := by decide
      rw [hr]
      simp only [fipsH, WorkingVars.toList, List.zipWith_cons_cons, List.zipWith_nil_right,
        add32, Nat.reducePow, Nat.add_comm]
    rw [hstep, ih (i + 1) (by omega)]
    congr 2
    omega

/-- The hash loop of `sum256` goes through the blocks as FIPS 180-4 does. -/
theorem sum256_eq_fipsH (msg : List Nat) :
    sum256 msg = (fipsH (fipsPad msg) ((fipsPad msg).length / 64)).toList := by
  rw [fipsPad_eq, sum256, toWords_length _ _ (Nat.le_refl _)]
  have h := hashBlocks_eq (padMessage msg) ((padMessage msg).length / 64) 0
    (by rw [Nat.zero_add]; exact Nat.mul_div_le _ _)
  rw [Nat.mul_zero, List.drop_zero, Nat.zero_add] at h
  have e : (padMessage msg).length / 4 / 16 = (padMessage msg).length / 64 := by omega
  rw [e]
  exact h

theorem hexDigit_eq : ∀ n < 16, hexDigit n = hexChars.getD n '0' := by decide

theorem hexWord_eq (x : Nat) :
    hexWord x = hexEncode [x / 2 ^ 24 % 256, x / 2 ^ 16 % 256, x / 2 ^ 8 % 256, x % 256] := by
  have e1 : x / 2 ^ 24 % 256 / 16 = x / 268435456 % 16 := by omega
  have e2 : x / 2 ^ 24 % 256 % 16 = x / 16777216 % 16 := by omega
  have e3 : x / 2 ^ 16 % 256 / 16 = x / 1048576 % 16 := by omega
  have e4 : x / 2 ^ 16 % 256 % 16 = x / 65536 % 16 := by omega
  have e5 : x / 2 ^ 8 % 256 / 16 = x / 4096 % 16 := by omega
  have e6 : x / 2 ^ 8 % 256 % 16 = x / 256 % 16 := by omega
  have e7 : x % 256 / 16 = x / 16 % 16 := by omega
  have e8 : x % 256 % 16 = x % 16 := by omega
  have m : ∀ y, y % 16 < 16 := fun y => Nat.mod_lt _ (by decide)
  simp only [hexEncode, List.flatMap_cons, List.flatMap_nil, List.append_nil, List.cons_append,
    List.nil_append, e1, e2, e3, e4, e5, e6, e7, e8, hexWord]
  rw [hexDigit_eq _ (m _), hexDigit_eq _ (m _), hexDigit_eq _ (m _), hexDigit_eq _ (m _),
    hexDigit_eq _ (m _), hexDigit_eq _ (m _), hexDigit_eq _ (m _), hexDigit_eq _ (m _)]

theorem flatMap_hexWord_eq (ws : List Nat) :
    ws.flatMap hexWord
      = hexEncode (ws.flatMap
          (fun x => [x / 2 ^ 24 % 256, x / 2 ^ 16 % 256, x / 2 ^ 8 % 256, x % 256])) := by
  induction ws with
  | nil => rfl
  | cons w ws ih =>
    rw [List.flatMap_cons, List.flatMap_cons, ih, hexWord_eq]
    simp [hexEncode, List.flatMap_append]

/-- `HashAnything` is the hex rendering of the digest that FIPS 180-4 defines. -/
theorem hashAnything_eq_fips (b : List Nat) :
    HashAnything b = String.mk (hexEncode (fipsSum256 b)) := by
  rw [HashAnything, flatMap_hexWord_eq, sum256_eq_fipsH, fipsSum256]

set_option maxRecDepth 100000 in
theorem fipsPrimes_spec :
    fipsPrimes.length = 64
      ∧ ∀ p ≤ 311, (p ∈ fipsPrimes ↔ 2 ≤ p ∧ ∀ d < p, 2 ≤ d → ¬ d ∣ p) := by
  decide

set_option maxRecDepth 100000 in
theorem roundConstants_roots :
    ∀ t < 64, IsFractionalRoot 3 (fipsPrimes.getD t 0) (fipsK t) := by
  decide

set_option maxRecDepth 100000 in
theorem initialHash_roots :
    ∀ t < 8, IsFractionalRoot 2 (fipsPrimes.getD t 0) (initialHash.getD t 0) := by
  decide

/-- On a 32-bit word `rotr` is the rotation: the low `n` bits move to the top. -/
theorem rotr_spec (x n : Nat) (hx : x < 2 ^ 32) (hn : n ≤ 32) :
    rotr x n = x / 2 ^ n + x % 2 ^ n * 2 ^ (32 - n) := by
  have h32 : (4294967296 : Nat) = 2 ^ n * 2 ^ (32 - n) := by
    rw [← Nat.pow_add, Nat.add_sub_cancel' hn]
  have hlt : x / 2 ^ n < 2 ^ (32 - n) := by
    apply Nat.div_lt_of_lt_mul
    rw [← Nat.pow_add, Nat.add_sub_cancel' hn]
    exact hx
  unfold rotr
  rw [Nat.shiftRight_eq_div_pow, Nat.shiftLeft_eq, h32, Nat.mul_mod_mul_right,
    Nat.lor_comm, Nat.mul_comm (x % 2 ^ n), ← Nat.mul_add_lt_is_or hlt, Nat.add_comm]

/-- Bit by bit `choose32 e f g` takes the bit of `f` where `e` has a one and the
bit of `g` where `e` has a zero. -/
theorem choose32_spec (e f g i : Nat) (he : e < 2 ^ 32) (hi : i < 32) :
    (choose32 e f g).testBit i = if e.testBit i then f.testBit i else g.testBit i := by
  have e1 : 4294967295 - e = 2 ^ 32 - (e + 1) := by omega
  unfold choose32
  rw [Nat.testBit_xor, Nat.testBit_and, Nat.testBit_and, e1, Nat.testBit_two_pow_sub_succ he]
  cases e.testBit i <;> simp [hi]

/-- Bit by bit `majority32 a b c` is the bit that at least two of the three
words have. -/
theorem majority32_spec (a b c i : Nat) :
    (majority32 a b c).testBit i
      = decide (2 ≤ (a.testBit i).toNat + (b.testBit i).toNat + (c.testBit i).toNat) := by
  unfold majority32
  rw [Nat.testBit_xor, Nat.testBit_xor, Nat.testBit_and, Nat.testBit_and, Nat.testBit_and]
  cases a.testBit i <;> cases b.testBit i <;> cases c.testBit i <;> rfl

theorem fipsPrimes_prime :
    fipsPrimes.length = 64 ∧ ∀ p ≤ 311, (p ∈ fipsPrimes ↔ Nat.Prime p) := by
  refine ⟨fipsPrimes_spec.1, fun p hp => ?_⟩
  rw [fipsPrimes_spec.2 p hp, Nat.prime_def_lt']
  constructor
  · rintro ⟨h2, h⟩
    exact ⟨h2, fun m hm hlt => h m hlt hm⟩
  · rintro ⟨h2, h⟩
    exact ⟨h2, fun d hlt hd => h d hd hlt⟩

set_option maxRecDepth 100000 in
theorem hash_abc :
    HashAnything (utf8 "abc".data)
      = "ba7816bf8f01cfea414140de5dae2223b00361a396177a9cb410ff61f20015ad" := by
  decide

set_option maxRecDepth 100000 in
theorem hash_two_blocks :
    HashAnything (utf8 "abcdbcdecdefdefgefghfghighijhijkijkljklmklmnlmnomnopnopq".data)
      = "248d6a61d20638b8e5c026930c3e6039a33ce45964ff2167f6ecedd419db06c1" := by
  decide

set_option maxRecDepth 100000 in
theorem hash_three_blocks :
    HashAnything (utf8 (List.replicate 3 "The quick brown fox jumps over the lazy dog. ".data).flatten)
      = "dc985401a68faff03051c78bbf32bb2fd27ba216b0dba19b050b936d534b8ba9" := by
  decide

theorem fipsSum256_bytes (b : List Nat) :
    (fipsSum256 b).length = 32 ∧ ∀ x ∈ fipsSum256 b, x < 256 := by
  constructor
  · simp [fipsSum256, WorkingVars.toList]
  · intro x hx
    simp only [fipsSum256, WorkingVars.toList, List.flatMap_cons, List.flatMap_nil,
      List.append_nil, List.cons_append, List.nil_append, List.mem_cons, List.mem_nil_iff,
      or_false] at hx
    rcases hx with h | h | h | h | h | h | h | h | h | h | h | h | h | h | h | h | h | h | h | h
      | h | h | h | h | h | h | h | h | h | h | h | h <;> rw [h] <;> exact Nat.mod_lt _ (by decide)

end FipsLemmas

section Claims

/-- C2: for every finite sequence of `IncreaseCounter` and `DecreaseCounter`
calls applied to `NewShredMap()` and every fingerprint `f`, the final stored
value of `f` (an absent key read as 0) is the number of `IncreaseCounter(f)`
calls minus the number of `DecreaseCounter(f)` calls, provided this difference
lies in the range of `int`. -/
theorem final_value_eq_net (calls : List Call) (f : String)
    (hlo : -9223372036854775808
      ≤ ((increases calls).count f : Int) - ((decreases calls).count f : Int))
    (hhi : ((increases calls).count f : Int) - ((decreases calls).count f : Int)
      < 9223372036854775808) :
    (NewShredMap.run calls).value f
      = ((increases calls).count f : Int) - ((decreases calls).count f : Int) := by
  rw [value_run_New]
  exact wrapInt_of_range hlo hhi

/-- C1: for finite fingerprint lists `A` and `B`, each fingerprint occurring
fewer than `2^63` times, and every interleaving that applies `IncreaseCounter`
once per item of `A` and `DecreaseCounter` once per item of `B` to
`NewShredMap()`, `IsEmpty()` is true at the end if and only if every fingerprint
occurs as often in `A` as in `B`, that is, `A` and `B` are equal as multisets. -/
theorem isEmpty_iff_same_multiset (A B : List String) (calls : List Call)
    (hi : Interleaving A B calls)
    (hA : ∀ f, A.count f < 9223372036854775808)
    (hB : ∀ f, B.count f < 9223372036854775808) :
    ((NewShredMap.run calls).IsEmpty = true ↔ ∀ f, A.count f = B.count f)
      ∧ ((NewShredMap.run calls).IsEmpty = true ↔ (A : Multiset String) = (B : Multiset String)) := by
  obtain ⟨rfl, rfl⟩ := hi
  have key : (NewShredMap.run calls).IsEmpty = true
      ↔ ∀ f, (increases calls).count f = (decreases calls).count f := by
    rw [isEmpty_iff]
    constructor
    · intro h f
      have h1 := h f
      rw [lookup_run_New, entryOf_eq_none] at h1
      have a := hA f
      have b := hB f
      have : net calls f = 0 :=
        (wrapInt_eq_zero_of_small (by unfold net; omega) (by unfold net; omega)).mp h1
      unfold net at this
      omega
    · intro h k
      rw [lookup_run_New, entryOf_eq_none]
      have : net calls k = 0 := by unfold net; rw [h k]; simp
      rw [this]; simp [wrapInt]
  refine ⟨key, key.trans ?_⟩
  rw [Multiset.coe_eq_coe, List.perm_iff_count]

/-- C3: `IncreaseCounter` and `DecreaseCounter` each preserve "no key of the map
is stored with value 0", and every state reachable from `NewShredMap()` by a
finite sequence of calls has no entry of value 0. -/
theorem zero_removal_invariant :
    (∀ (s : ShredMap) (h : String), s.NoZero → (s.IncreaseCounter h).NoZero)
      ∧ (∀ (s : ShredMap) (h : String), s.NoZero → (s.DecreaseCounter h).NoZero)
      ∧ (∀ calls : List Call, (NewShredMap.run calls).NoZero)
      ∧ (∀ (calls : List Call) (k : String),
          (NewShredMap.run calls).shred.lookup k ≠ some 0) :=
  ⟨noZero_IncreaseCounter, noZero_DecreaseCounter,
    fun calls => noZero_run calls _ noZero_New,
    fun calls => (noZero_iff _).mp (noZero_run calls _ noZero_New)⟩

/-- C4: for every state and every two fingerprints `f` and `g`, equal or not,
`IncreaseCounter(f)` then `DecreaseCounter(g)` gives the same map as
`DecreaseCounter(g)` then `IncreaseCounter(f)`; hence two interleavings of the
same two streams end in the same map, with the same `IsEmpty()` and `Size()`. -/
theorem order_independence :
    (∀ (s : ShredMap) (f g : String),
        (s.IncreaseCounter f).DecreaseCounter g = (s.DecreaseCounter g).IncreaseCounter f)
      ∧ (∀ (s : ShredMap) (A B : List String) (calls₁ calls₂ : List Call),
          Interleaving A B calls₁ → Interleaving A B calls₂ →
            s.run calls₁ = s.run calls₂
              ∧ (s.run calls₁).IsEmpty = (s.run calls₂).IsEmpty
              ∧ (s.run calls₁).Size = (s.run calls₂).Size) := by
  refine ⟨increase_decrease_comm, ?_⟩
  intro s A B calls₁ calls₂ h₁ h₂
  have e : s.run calls₁ = s.run calls₂ := by
    rw [run_eq_sorted calls₁, run_eq_sorted calls₂, h₁.1, h₁.2, h₂.1, h₂.2]
  exact ⟨e, by rw [e], by rw [e]⟩

/-- C5: for every list of fingerprints `L` and every permutation `L'` of it,
applying `IncreaseCounter` to each item of `L` and `DecreaseCounter` to each item
of `L'` to `NewShredMap()`, in any interleaving, leaves the map empty:
`IsEmpty()` is true and `Size()` is 0. -/
theorem counter_symmetry (L L' : List String) (calls : List Call)
    (hp : L.Perm L') (hi : Interleaving L L' calls) :
    (NewShredMap.run calls).IsEmpty = true ∧ (NewShredMap.run calls).Size = 0 := by
  obtain ⟨rfl, rfl⟩ := hi
  have e : (NewShredMap.run calls).IsEmpty = true := by
    rw [isEmpty_iff]
    intro k
    rw [lookup_run_New, entryOf_eq_none]
    have : net calls k = 0 := by unfold net; rw [hp.count_eq k]; simp
    rw [this]; simp [wrapInt]
  exact ⟨e, (size_eq_zero_iff _).mpr e⟩

/-- C6, as stated, fails: `2^64` calls `IncreaseCounter(h)` and no
`DecreaseCounter` call wrap the counter of `h` around to its removal, so `Size()`
is 0 although one fingerprint occurs a different number of times in `A` and `B`. -/
theorem mismatch_count_wraps :
    Interleaving (List.replicate 18446744073709551616 "h") []
        ((List.replicate 18446744073709551616 "h").map Call.increase)
      ∧ (NewShredMap.run ((List.replicate 18446744073709551616 "h").map Call.increase)).Size = 0
      ∧ (mismatches (List.replicate 18446744073709551616 "h") []).card = 1 := by
  refine ⟨⟨increases_map_increase _, decreases_map_increase _⟩, ?_, ?_⟩
  · rw [size_eq_zero_iff, isEmpty_iff]
    intro k
    rw [lookup_run_New, entryOf_eq_none]
    unfold net
    rw [increases_map_increase, decreases_map_increase, List.count_replicate]
    by_cases hk : "h" = k
    · simp [hk, wrapInt]
    · simp [hk, wrapInt]
  · have e : mismatches (List.replicate 18446744073709551616 "h") [] = {"h"} := by
      unfold mismatches
      ext k
      simp only [List.append_nil, Finset.mem_filter, List.mem_toFinset, List.mem_replicate,
        List.count_replicate, List.count_nil, Finset.mem_singleton]
      constructor
      · intro h; exact h.1.2
      · intro h; subst h; simp
    rw [e]; rfl

/-- C6, amended: when each fingerprint occurs fewer than `2^63` times in `A` and
in `B`, then after any interleaving of the `IncreaseCounter` calls of `A` with the
`DecreaseCounter` calls of `B` on `NewShredMap()`, `Size()` is the number of
distinct fingerprints whose occurrences in `A` and `B` differ; without the bound
it is the number of those whose occurrences differ modulo `2^64`.
For `A = [h, h]`, `B = [h]` it is 1. -/
theorem size_eq_mismatch_count :
    (∀ (A B : List String) (calls : List Call), Interleaving A B calls →
        (∀ f, A.count f < 9223372036854775808) → (∀ f, B.count f < 9223372036854775808) →
        (NewShredMap.run calls).Size = (mismatches A B).card)
      ∧ (∀ (A B : List String) (calls : List Call), Interleaving A B calls →
        (NewShredMap.run calls).Size = (mismatchesMod A B).card)
      ∧ (∀ (h : String) (calls : List Call), Interleaving [h, h] [h] calls →
        (NewShredMap.run calls).Size = 1) := by
  have gen : ∀ (A B : List String) (calls : List Call), Interleaving A B calls →
      (NewShredMap.run calls).Size = (mismatchesMod A B).card := by
    intro A B calls hi
    obtain ⟨rfl, rfl⟩ := hi
    unfold ShredMap.Size
    rw [keys_run_New]
  have small : ∀ (A B : List String) (calls : List Call), Interleaving A B calls →
      (∀ f, A.count f < 9223372036854775808) → (∀ f, B.count f < 9223372036854775808) →
      (NewShredMap.run calls).Size = (mismatches A B).card := by
    intro A B calls hi hA hB
    rw [gen A B calls hi, mismatchesMod_eq_of_small A B hA hB]
  refine ⟨small, gen, ?_⟩
  intro h calls hi
  rw [small [h, h] [h] calls hi
    (fun f => lt_of_le_of_lt (List.count_le_length f [h, h]) (by simp))
    (fun f => lt_of_le_of_lt (List.count_le_length f [h]) (by simp))]
  have e : mismatches [h, h] [h] = {h} := by
    unfold mismatches
    ext k
    by_cases hk : k = h
    · subst hk; simp
    · have : ¬ h = k := fun e => hk e.symm
      simp [hk, this]
  rw [e]; rfl

/-- C7: `IncreaseCounter(h)` maps `h` to 1 if `h` was absent, removes `h` if it
was present with value -1, and otherwise maps `h` to its old value plus 1 (Go's
`+` on `int`, the exact sum below the largest `int`); no other key changes.  One
call on an empty map gives `{h: 1}`, two calls on `{h: -1}` give `{h: 1}`, two
calls on `{h: 1}` give `{h: 3}`. -/
theorem increaseCounter_spec (s : ShredMap) (h : String) :
    (s.shred.lookup h = none →
        (s.IncreaseCounter h).shred = s.shred.insert h 1
          ∧ (s.IncreaseCounter h).shred.lookup h = some 1)
      ∧ (s.shred.lookup h = some (-1) →
        (s.IncreaseCounter h).shred = s.shred.erase h
          ∧ (s.IncreaseCounter h).shred.lookup h = none)
      ∧ (∀ v : GoInt, s.shred.lookup h = some v → v ≠ -1 →
        (s.IncreaseCounter h).shred = s.shred.insert h (v + 1)
          ∧ (s.IncreaseCounter h).shred.lookup h = some (v + 1)
          ∧ (v.val < 9223372036854775807 → (v + 1).val = v.val + 1))
      ∧ (∀ k, k ≠ h → (s.IncreaseCounter h).shred.lookup k = s.shred.lookup k)
      ∧ (NewShredMap.IncreaseCounter h).shred = Finmap.singleton h 1
      ∧ (((ShredMap.mk (Finmap.singleton h (-1))).IncreaseCounter h).IncreaseCounter h).shred
          = Finmap.singleton h 1
      ∧ (((ShredMap.mk (Finmap.singleton h 1)).IncreaseCounter h).IncreaseCounter h).shred
          = Finmap.singleton h 3 := by
  refine ⟨?_, ?_, ?_, ?_, ?_, ?_, ?_⟩
  · intro h0
    refine ⟨?_, ?_⟩
    · simp only [ShredMap.IncreaseCounter, h0]
    · rw [lookup_IncreaseCounter]; simp [h0, incEntry]
  · intro h0
    refine ⟨?_, ?_⟩
    · simp only [ShredMap.IncreaseCounter, h0, if_true]
    · rw [lookup_IncreaseCounter]; simp [h0, incEntry]
  · intro v h0 hv
    refine ⟨?_, ?_, ?_⟩
    · simp only [ShredMap.IncreaseCounter, h0, hv, if_false]
    · rw [lookup_IncreaseCounter]; simp [h0, incEntry, hv]
    · intro hlt
      have := v.lo
      rw [GoInt.val_add, GoInt.val_one]
      unfold wrapInt; omega
  · intro k hk
    rw [lookup_IncreaseCounter]; simp [hk]
  · simp only [ShredMap.IncreaseCounter, NewShredMap, Finmap.lookup_empty]
    exact insert_empty_eq_singleton h 1
  · simp only [ShredMap.IncreaseCounter, Finmap.lookup_singleton_eq, if_true]
    rw [erase_singleton_eq_empty]
    simp only [Finmap.lookup_empty]
    exact insert_empty_eq_singleton h 1
  · have e1 : ¬ (1 : GoInt) = -1 := by decide
    have e2 : ¬ ((1 : GoInt) + 1) = -1 := by decide
    simp only [ShredMap.IncreaseCounter, Finmap.lookup_singleton_eq, e1, e2, if_false,
      Finmap.insert_singleton_eq]
    rfl

/-- C8: `DecreaseCounter(h)` maps `h` to -1 if `h` was absent, removes `h` if it
was present with value 1, and otherwise maps `h` to its old value minus 1 (Go's
`-` on `int`, the exact difference above the smallest `int`); no other key
changes.  One call on an empty map gives `{h: -1}`, two calls on `{h: 1}` give
`{h: -1}`, two calls on `{h: -1}` give `{h: -3}`. -/
theorem decreaseCounter_spec (s : ShredMap) (h : String) :
    (s.shred.lookup h = none →
        (s.DecreaseCounter h).shred = s.shred.insert h (-1)
          ∧ (s.DecreaseCounter h).shred.lookup h = some (-1))
      ∧ (s.shred.lookup h = some 1 →
        (s.DecreaseCounter h).shred = s.shred.erase h
          ∧ (s.DecreaseCounter h).shred.lookup h = none)
      ∧ (∀ v : GoInt, s.shred.lookup h = some v → v ≠ 1 →
        (s.DecreaseCounter h).shred = s.shred.insert h (v - 1)
          ∧ (s.DecreaseCounter h).shred.lookup h = some (v - 1)
          ∧ (-9223372036854775808 < v.val → (v - 1).val = v.val - 1))
      ∧ (∀ k, k ≠ h → (s.DecreaseCounter h).shred.lookup k = s.shred.lookup k)
      ∧ (NewShredMap.DecreaseCounter h).shred = Finmap.singleton h (-1)
      ∧ (((ShredMap.mk (Finmap.singleton h 1)).DecreaseCounter h).DecreaseCounter h).shred
          = Finmap.singleton h (-1)
      ∧ (((ShredMap.mk (Finmap.singleton h (-1))).DecreaseCounter h).DecreaseCounter h).shred
          = Finmap.singleton h (-3) := by
  refine ⟨?_, ?_, ?_, ?_, ?_, ?_, ?_⟩
  · intro h0
    refine ⟨?_, ?_⟩
    · simp only [ShredMap.DecreaseCounter, h0]
    · rw [lookup_DecreaseCounter]; simp [h0, decEntry]
  · intro h0
    refine ⟨?_, ?_⟩
    · simp only [ShredMap.DecreaseCounter, h0, if_true]
    · rw [lookup_DecreaseCounter]; simp [h0, decEntry]
  · intro v h0 hv
    refine ⟨?_, ?_, ?_⟩
    · simp only [ShredMap.DecreaseCounter, h0, hv, if_false]
    · rw [lookup_DecreaseCounter]; simp [h0, decEntry, hv]
    · intro hlt
      have := v.hi
      rw [GoInt.val_sub, GoInt.val_one]
      unfold wrapInt; omega
  · intro k hk
    rw [lookup_DecreaseCounter]; simp [hk]
  · simp only [ShredMap.DecreaseCounter, NewShredMap, Finmap.lookup_empty]
    exact insert_empty_eq_singleton h (-1)
  · simp only [ShredMap.DecreaseCounter, Finmap.lookup_singleton_eq, if_true]
    rw [erase_singleton_eq_empty]
    simp only [Finmap.lookup_empty]
    exact insert_empty_eq_singleton h (-1)
  · have e1 : ¬ (-1 : GoInt) = 1 := by decide
    have e2 : ¬ ((-1 : GoInt) - 1) = 1 := by decide
    simp only [ShredMap.DecreaseCounter, Finmap.lookup_singleton_eq, e1, e2, if_false,
      Finmap.insert_singleton_eq]
    rfl

/-- C10, as stated, fails for items that differ only in the order of their
keys: the arrays `[x, y]` and `[y, x]` with `x = {"a":null,"b":true}` and
`y = {"b":true,"a":null}` hold the same items in another order and differ at
every position, but their canonical bytes are the same. -/
theorem array_order_same_canonical :
    List.Perm
        [JText.object [("a", .null), ("b", .bool true)],
          JText.object [("b", .bool true), ("a", .null)]]
        [JText.object [("b", .bool true), ("a", .null)],
          JText.object [("a", .null), ("b", .bool true)]]
      ∧ JText.object [("a", .null), ("b", .bool true)]
          ≠ JText.object [("b", .bool true), ("a", .null)]
      ∧ ∀ C : Codec,
          canonical C (.array [.object [("a", .null), ("b", .bool true)],
              .object [("b", .bool true), ("a", .null)]])
            = canonical C (.array [.object [("b", .bool true), ("a", .null)],
              .object [("a", .null), ("b", .bool true)]]) := by
  refine ⟨List.Perm.swap _ _ _, ?_, ?_⟩
  · intro h
    simp at h
  · intro C
    have hxy : Reordered (.object [("a", .null), ("b", .bool true)])
        (.object [("b", .bool true), ("a", .null)]) :=
      .object (List.Perm.swap _ _ _) (.cons (.refl _) (.cons (.refl _) .nil))
    have hyx : Reordered (.object [("b", .bool true), ("a", .null)])
        (.object [("a", .null), ("b", .bool true)]) :=
      .object (List.Perm.swap _ _ _) (.cons (.refl _) (.cons (.refl _) .nil))
    exact (reordered_canonical C (.array (.cons hxy (.cons hyx .nil))) (by decide)).1

/-- C10, amended: two JSON arrays that decode and whose items at some position
have different canonical bytes have different canonical bytes themselves,
whatever they hold elsewhere; and when the codecs write the numbers 1 and 2 as
`1` and `2`, the elements `[1,2]` and `[2,1]` have the canonical bytes `[1,2]` and
`[2,1]`, whose fingerprints differ, so comparing the documents `[[1,2]]` and
`[[2,1]]` leaves the counter non-empty, with two entries. -/
theorem nested_array_order (C : Codec) (hC : C.Lawful) :
    (∀ (xs ys : List JText) (a b : List Char) (i : Nat) (hx : i < xs.length)
        (hy : i < ys.length),
        canonical C (.array xs) = some a → canonical C (.array ys) = some b →
        canonical C xs[i] ≠ canonical C ys[i] → a ≠ b)
      ∧ ((C.parseFloat "1").map C.formatFloat = some ['1'] →
          (C.parseFloat "2").map C.formatFloat = some ['2'] →
          canonical C (.array [.number "1", .number "2"]) = some ['[', '1', ',', '2', ']']
            ∧ canonical C (.array [.number "2", .number "1"]) = some ['[', '2', ',', '1', ']']
            ∧ ∃ fa fb, fingerprint C (.array [.number "1", .number "2"]) = some fa
                ∧ fingerprint C (.array [.number "2", .number "1"]) = some fb
                ∧ fa ≠ fb
                ∧ ∀ calls : List Call, Interleaving [fa] [fb] calls →
                    (NewShredMap.run calls).IsEmpty = false
                      ∧ (NewShredMap.run calls).Size = 2) := by
  refine ⟨?_, ?_⟩
  · intro xs ys a b i hx hy ha hb hne hab
    subst hab
    obtain ⟨as, h₁, h₂⟩ := canonical_array_injective C hC xs ys a ha hb
    exact hne ((encodeItems_getElem C xs as h₁ i hx).symm.trans
      (encodeItems_getElem C ys as h₂ i hy))
  · intro h₁ h₂
    cases p₁ : C.parseFloat "1" with
    | none => simp [p₁] at h₁
    | some x₁ =>
      cases p₂ : C.parseFloat "2" with
      | none => simp [p₂] at h₂
      | some x₂ =>
        simp only [p₁, p₂, Option.map_some', Option.some.injEq] at h₁ h₂
        have c₁ : canonical C (.array [.number "1", .number "2"])
            = some ['[', '1', ',', '2', ']'] := by
          simp [canonical, decodeValue, decodeArray, p₁, p₂, marshal, marshalArray, joinComma,
            h₁, h₂]
        have c₂ : canonical C (.array [.number "2", .number "1"])
            = some ['[', '2', ',', '1', ']'] := by
          simp [canonical, decodeValue, decodeArray, p₁, p₂, marshal, marshalArray, joinComma,
            h₁, h₂]
        refine ⟨c₁, c₂, _, _, by simp only [fingerprint, c₁], by simp only [fingerprint, c₂],
          hash_12_ne_hash_21, ?_⟩
        intro calls hi
        exact size_of_distinct_pair _ _ hash_12_ne_hash_21 calls hi

/-- C11: on every input whose first token is not the opening bracket (reading
the token fails, or the token is another delimiter or a scalar) `StreamedJParse`
returns an error and the state of the updater is the one before the call, for
every updater, so the updater is not called and the counter is unchanged; with
the updater that records its calls the record stays empty.  The input of the
test, a closing brace, gives the error of the test. -/
theorem no_opening_bracket {σ : Type} (C : Codec) (readValue : ReadValue)
    (updater : String → σ → σ) (input : List Char) (s : σ)
    (h : ∀ dec, (NewDecoder input).Token C readValue ≠ (.ok (.delim '['), dec)) :
    (∃ err, StreamedJParse C readValue updater input s = some (some err, s))
      ∧ (∃ err, StreamedJParse C readValue record input [] = some (some err, []))
      ∧ StreamedJParse C readValue updater [Char.ofNat 125] s
        = some (some
            "failed to read open bracket: invalid character '\x7d' looking for beginning of value",
            s) :=
  ⟨streamed_not_open C readValue updater input s h,
    streamed_not_open C readValue record input [] h, rfl⟩

/-- C12: with a `readValue` that consumes input, `StreamedJParse` returns `nil`
only on an input that holds, behind the opening bracket, elements that scan and
decode and then the closing bracket; and where the loop over the elements ends
(`More` is false behind elements that scan and decode) it returns `nil` when the
closing bracket is the next character that is not white space and a
"failed to read closing bracket" error when it is not (the input ends, or a
closing brace stands there), the updater having been called for the elements
before.  The input of the test, an opening bracket alone, gives
"failed to read closing bracket: EOF" and no call of the updater. -/
theorem closing_bracket_required {σ : Type} (C : Codec) (readValue : ReadValue)
    (updater : String → σ → σ) (input : List Char) (s : σ) (hc : readValue.Consumes) :
    (∀ s', StreamedJParse C readValue updater input s = some (none, s') →
        ∃ ts rest, ArrayText readValue input ts rest
          ∧ (∀ t ∈ ts, (decodeValue C t).isSome = true)
          ∧ s' = applyAll updater (fingerprints C ts) s)
      ∧ (∀ body ts state buf, skipSpace input = '[' :: body →
          ScansItems readValue .arrayStart body ts state buf →
          (∀ t ∈ ts, (decodeValue C t).isSome = true) →
          (Decoder.mk buf state [.topValue]).More.1 = false →
          ((∃ rest, skipSpace buf = ']' :: rest) →
              StreamedJParse C readValue updater input s
                = some (none, applyAll updater (fingerprints C ts) s))
            ∧ ((∀ rest, skipSpace buf ≠ ']' :: rest) →
              ∃ err, StreamedJParse C readValue updater input s
                = some (some ("failed to read closing bracket: " ++ err),
                    applyAll updater (fingerprints C ts) s)))
      ∧ StreamedJParse C readValue updater ['['] s
        = some (some "failed to read closing bracket: EOF", s) := by
  refine ⟨fun s' h => streamed_nil_inv C readValue updater input s s' h, ?_, rfl⟩
  intro body ts state buf ho hs hd hm
  refine ⟨fun ⟨rest, hb⟩ => streamed_close C readValue updater hc ho hs hd hb s, fun hne => ?_⟩
  rcases (more_false_iff _ _ _).mp hm with hnil | ⟨c, cs, hsp, rfl | rfl⟩
  · exact ⟨"EOF", streamed_eof C readValue updater hc ho hs hd hnil s⟩
  · exact absurd hsp (hne cs)
  · exact ⟨_, streamed_brace C readValue updater hc ho hs hd hsp s⟩

/-- C13: with a `readValue` that consumes input, on an input that holds behind
the opening bracket the elements `ts`, which scan and decode, and then an element
that fails to decode with the message `err`, `StreamedJParse` returns the error
"failed to decode: " followed by `err`, and the updater has been called on the
fingerprints of `ts`, in order, and on nothing else: as many calls as elements
before the failing one.  The inputs of the tests give the error of the tests and
no call. -/
theorem decode_failure_stops {σ : Type} (C : Codec) (readValue : ReadValue)
    (updater : String → σ → σ) (input body buf : List Char) (state : TokenState)
    (ts : List JText) (err : String) (s : σ) (hc : readValue.Consumes)
    (ho : skipSpace input = '[' :: body)
    (hs : ScansItems readValue .arrayStart body ts state buf)
    (hd : ∀ t ∈ ts, (decodeValue C t).isSome = true)
    (hf : ElementFails C readValue state buf err) :
    StreamedJParse C readValue updater input s
        = some (some ("failed to decode: " ++ err), applyAll updater (fingerprints C ts) s)
      ∧ StreamedJParse C readValue record input []
        = some (some ("failed to decode: " ++ err), fingerprints C ts)
      ∧ (fingerprints C ts).length = ts.length
      ∧ ts.map (fingerprint C) = (fingerprints C ts).map some
      ∧ StreamedJParse C jsonRead updater "[abc]".data s
        = some (some "failed to decode: invalid character 'a' looking for beginning of value", s)
      ∧ StreamedJParse C jsonRead updater "[adssad]".data s
        = some (some "failed to decode: invalid character 'a' looking for beginning of value",
            s) := by
  refine ⟨streamed_fail C readValue updater hc ho hs hd hf s, ?_,
    fingerprints_length C ts hd, map_fingerprint C ts hd, rfl, rfl⟩
  rw [streamed_fail C readValue record hc ho hs hd hf [], applyAll_record]
  rfl

/-- C14, as stated, fails: the text of one array with the one element `1e999`
is well-formed JSON, and the scanner reads it as such, but for every codec whose
`ParseFloat` rejects the literal as out of range, as that of the Go library
does, `StreamedJParse` returns a "failed to decode" error and the updater is not
called. -/
theorem range_error_in_array :
    ArrayText jsonRead "[1e999]".data [JText.number "1e999"] []
      ∧ (∀ C : Codec, C.parseFloat "1e999" = none →
          StreamedJParse C jsonRead record "[1e999]".data []
            = some (some ("failed to decode: "
                ++ "json: cannot unmarshal number 1e999 into Go value of type float64"), []))
      ∧ StreamedJParse plainCodec jsonRead record "[1e999]".data []
        = some (some ("failed to decode: "
            ++ "json: cannot unmarshal number 1e999 into Go value of type float64"), []) := by
  have ho : skipSpace "[1e999]".data = '[' :: "1e999]".data := rfl
  have hs : ScansItems jsonRead .arrayStart "1e999]".data [JText.number "1e999"]
      .arrayComma "]".data :=
    ScansItems.first (rfl : skipSpace "1e999]".data = '1' :: "e999]".data)
      (by decide) (by decide) rfl (ScansItems.done _ _)
  have hgen : ∀ C : Codec, C.parseFloat "1e999" = none →
      StreamedJParse C jsonRead record "[1e999]".data []
        = some (some ("failed to decode: "
            ++ "json: cannot unmarshal number 1e999 into Go value of type float64"), []) := by
    intro C hC
    have hf : ElementFails C jsonRead .arrayStart "1e999]".data
        "json: cannot unmarshal number 1e999 into Go value of type float64" := by
      refine ⟨rfl, ?_⟩
      have hm : (Decoder.mk "1e999]".data .arrayStart [.topValue]).More
          = (true, Decoder.mk "1e999]".data .arrayStart [.topValue]) := rfl
      have hr : jsonRead "1e999]".data = .ok (JText.number "1e999", "]".data) := rfl
      rw [hm, decode_arrayStart, hr]
      simp [decodeValue, hC, unmarshalTypeError, firstRangeError]
    exact streamed_fail C jsonRead record jsonRead_consumes ho (ScansItems.done _ _)
      (by simp) hf []
  exact ⟨⟨_, _, _, ho, hs, rfl⟩, hgen, hgen plainCodec rfl⟩

/-- C14, amended: with a `readValue` that consumes input, on every input that
holds a well-formed array whose elements `ts` all decode, `StreamedJParse` returns
`nil` and the updater has been called once per element, in the order of the
input, each call with the fingerprint of the canonical form of its element; the
empty array gives `nil` and no call, so two such streams leave a new counter
empty and the files are reported identical. -/
theorem well_formed_array {σ : Type} (C : Codec) (readValue : ReadValue)
    (updater : String → σ → σ) (input rest : List Char) (ts : List JText) (s : σ)
    (hc : readValue.Consumes) (ha : ArrayText readValue input ts rest)
    (hd : ∀ t ∈ ts, (decodeValue C t).isSome = true) :
    StreamedJParse C readValue updater input s
        = some (none, applyAll updater (fingerprints C ts) s)
      ∧ StreamedJParse C readValue record input [] = some (none, fingerprints C ts)
      ∧ (fingerprints C ts).length = ts.length
      ∧ ts.map (fingerprint C) = (fingerprints C ts).map some
      ∧ StreamedJParse C readValue updater "[]".data s = some (none, s)
      ∧ StreamedJParse C readValue (fun h m => ShredMap.IncreaseCounter m h) "[]".data NewShredMap
        = some (none, NewShredMap)
      ∧ StreamedJParse C readValue (fun h m => ShredMap.DecreaseCounter m h) "[]".data NewShredMap
        = some (none, NewShredMap)
      ∧ NewShredMap.IsEmpty = true
      ∧ mainReport [none, none] NewShredMap = Report.identical := by
  obtain ⟨body, state, buf, ho, hs, hb⟩ := ha
  have hempty : ∀ {τ : Type} (u : String → τ → τ) (x : τ),
      StreamedJParse C readValue u "[]".data x = some (none, x) := by
    intro τ u x
    exact streamed_close C readValue u hc (rfl : skipSpace "[]".data = '[' :: "]".data)
      (ScansItems.done _ _) (by simp) (rfl : skipSpace "]".data = ']' :: []) x
  refine ⟨streamed_close C readValue updater hc ho hs hd hb s, ?_,
    fingerprints_length C ts hd, map_fingerprint C ts hd, hempty updater s, hempty _ _,
    hempty _ _, by decide, by decide⟩
  rw [streamed_close C readValue record hc ho hs hd hb [], applyAll_record]
  rfl

/-- C15: `main` as a function of the results of the two `StreamedJParse` calls,
in the order in which they arrive on `errChan`, and of the final counter: if one
of them is a non-nil error, `main` reports an error (one of those sent) and no
verdict, whatever the counter holds; if all are nil, it reports exactly one
verdict, identical when `shred.IsEmpty()` is true and otherwise not identical
with `shred.Size()` as the number of differences. -/
theorem main_report (errChan : List (Option String)) (shred : ShredMap) :
    ((∃ err, some err ∈ errChan) →
        ∃ err, mainReport errChan shred = .fatalError err ∧ some err ∈ errChan)
      ∧ ((∀ e ∈ errChan, e = none) →
        (shred.IsEmpty = true → mainReport errChan shred = .identical)
          ∧ (shred.IsEmpty = false → mainReport errChan shred = .notIdentical shred.Size))
      ∧ (∀ e₁ e₂ : Option String, errChan = [e₁, e₂] → (e₁ ≠ none ∨ e₂ ≠ none) →
          ∃ err, mainReport errChan shred = .fatalError err) := by
  refine ⟨?_, ?_, ?_⟩
  · rintro ⟨err, h⟩
    obtain ⟨err', h1, h2⟩ := firstError_of_mem errChan err h
    exact ⟨err', by simp [mainReport, h1], h2⟩
  · intro h
    have h1 := firstError_of_all_none errChan h
    constructor
    · intro he; simp [mainReport, h1, he]
    · intro he; simp [mainReport, h1, he]
  · intro e₁ e₂ hc hne
    subst hc
    cases e₁ with
    | some err => exact ⟨err, by simp [mainReport, firstError]⟩
    | none =>
      cases e₂ with
      | some err => exact ⟨err, by simp [mainReport, firstError]⟩
      | none => simp at hne

/-- C16: for every state, `Size()` is the number of keys stored (the keys whose
lookup succeeds), `IsEmpty()` is true exactly when `Size()` is 0, and neither
call changes the map; a fresh map has `IsEmpty() = true` and `Size() = 0`, the
map `{h: 1}` has `IsEmpty() = false` and `Size() = 1`. -/
theorem size_isEmpty_spec (s : ShredMap) :
    s.Size = s.shred.keys.card
      ∧ (∀ k, k ∈ s.shred.keys ↔ ∃ v, s.shred.lookup k = some v)
      ∧ (s.IsEmpty = true ↔ s.Size = 0)
      ∧ s.IsEmptyStep = (s.IsEmpty, s)
      ∧ s.SizeStep = (s.Size, s)
      ∧ NewShredMap.IsEmpty = true
      ∧ NewShredMap.Size = 0
      ∧ (∀ h : String, (ShredMap.mk (Finmap.singleton h 1)).IsEmpty = false
          ∧ (ShredMap.mk (Finmap.singleton h 1)).Size = 1) := by
  refine ⟨rfl, ?_, (size_eq_zero_iff s).symm, rfl, rfl, by decide, by decide, ?_⟩
  · intro k
    rw [Finmap.mem_keys, Finmap.mem_iff]
  · intro h
    have e : (ShredMap.mk (Finmap.singleton h 1)).Size = 1 := by
      simp [ShredMap.Size, Finmap.keys_singleton]
    refine ⟨?_, e⟩
    cases he : (ShredMap.mk (Finmap.singleton h 1)).IsEmpty with
    | false => rfl
    | true =>
      rw [← size_eq_zero_iff, e] at he
      cases he

/-- C17: for every byte sequence `b`, `HashAnything(b)` is the lower-case hex
rendering (two digits of `0-9a-f` per byte, as `hex.EncodeToString` writes them)
of the SHA-256 digest of `b`, the digest being `fipsSum256 b`, written after
FIPS 180-4 apart from `sum256`: the padding to a multiple of 64 bytes, the blocks
of sixteen big-endian words, the message schedule `W_t`, sixty-four rounds on
the working variables, and the sum into the hash value block after block.  The
digest has 32 bytes and the string 64 characters from `0-9a-f`.  The round
constants and the initial hash value are the first 32 bits of the fractional
parts of the cube roots and square roots of the first primes; on 32-bit words
`rotr` is the rotation, `choose32` chooses bit by bit and `majority32` is the
majority bit by bit.  The digests of the two tests and of messages of one, two
and three blocks are evaluated. -/
theorem hashAnything_spec (b : List Nat) :
    HashAnything b = String.mk (hexEncode (fipsSum256 b))
      ∧ (fipsPad b).length % 64 = 0
      ∧ (fipsSum256 b).length = 32
      ∧ (∀ x ∈ fipsSum256 b, x < 256)
      ∧ (HashAnything b).length = 64
      ∧ (∀ c ∈ (HashAnything b).data, c ∈ hexChars)
      ∧ (fipsPrimes.length = 64 ∧ ∀ p ≤ 311, (p ∈ fipsPrimes ↔ Nat.Prime p))
      ∧ (∀ t < 64, IsFractionalRoot 3 (fipsPrimes.getD t 0) (fipsK t))
      ∧ (∀ t < 8, IsFractionalRoot 2 (fipsPrimes.getD t 0) (fipsH0.toList.getD t 0))
      ∧ (∀ x n, x < 2 ^ 32 → n ≤ 32 → rotr x n = x / 2 ^ n + x % 2 ^ n * 2 ^ (32 - n))
      ∧ (∀ e f g i, e < 2 ^ 32 → i < 32 →
          (choose32 e f g).testBit i = if e.testBit i then f.testBit i else g.testBit i)
      ∧ (∀ x y z i, (majority32 x y z).testBit i
          = decide (2 ≤ (x.testBit i).toNat + (y.testBit i).toNat + (z.testBit i).toNat))
      ∧ HashAnything [] = "e3b0c44298fc1c149afbf4c8996fb92427ae41e4649b934ca495991b7852b855"
      ∧ HashAnything (utf8 "something".data)
          = "3fc9b689459d738f8c88a3a48aa9e33542016b7a4052e001aaa536fca74813cb"
      ∧ HashAnything (utf8 "abc".data)
          = "ba7816bf8f01cfea414140de5dae2223b00361a396177a9cb410ff61f20015ad"
      ∧ HashAnything (utf8 "abcdbcdecdefdefgefghfghighijhijkijkljklmklmnlmnomnopnopq".data)
          = "248d6a61d20638b8e5c026930c3e6039a33ce45964ff2167f6ecedd419db06c1"
      ∧ HashAnything
            (utf8 (List.replicate 3 "The quick brown fox jumps over the lazy dog. ".data).flatten)
          = "dc985401a68faff03051c78bbf32bb2fd27ba216b0dba19b050b936d534b8ba9" := by
  refine ⟨hashAnything_eq_fips b, ?_, (fipsSum256_bytes b).1, (fipsSum256_bytes b).2, ?_, ?_,
    fipsPrimes_prime, roundConstants_roots, initialHash_roots, rotr_spec, choose32_spec,
    majority32_spec, hash_empty, hash_something, hash_abc, hash_two_blocks, hash_three_blocks⟩
  · rw [fipsPad_eq]
    exact padMessage_length b
  · show ((sum256 b).flatMap hexWord).length = 64
    rw [flatMap_hexWord_length, sum256_length]
  · intro c hc
    have hc' : c ∈ (sum256 b).flatMap hexWord := hc
    rw [List.mem_flatMap] at hc'
    obtain ⟨w, _, hw⟩ := hc'
    exact (hexWord_spec w).2 c hw

/-- C19: on every state that stores no zero value and for every fingerprint `h`,
`IncreaseCounter(h)` then `DecreaseCounter(h)` gives back exactly the map, and so
does `DecreaseCounter(h)` then `IncreaseCounter(h)`, also when the value wraps
around; the precondition is needed: the map `{h: 0}` is not restored, both ways
round it ends empty. -/
theorem increase_decrease_inverse :
    (∀ (s : ShredMap) (h : String), s.NoZero →
        (s.IncreaseCounter h).DecreaseCounter h = s
          ∧ (s.DecreaseCounter h).IncreaseCounter h = s)
      ∧ ¬ (ShredMap.mk (Finmap.singleton "h" 0)).NoZero
      ∧ ((ShredMap.mk (Finmap.singleton "h" 0)).IncreaseCounter "h").DecreaseCounter "h"
          = NewShredMap
      ∧ ((ShredMap.mk (Finmap.singleton "h" 0)).DecreaseCounter "h").IncreaseCounter "h"
          = NewShredMap
      ∧ ShredMap.mk (Finmap.singleton "h" 0) ≠ NewShredMap := by
  refine ⟨?_, by decide, by decide, by decide, by decide⟩
  intro s h hs
  have h0 : s.shred.lookup h ≠ some 0 := (noZero_iff s).mp hs h
  exact ⟨increase_then_decrease s h h0, decrease_then_increase s h h0⟩

/-- C20: the two variants of the counter agree: `UpdateShredMaster(h)` of
fcompare.go changes the package-level map as `IncreaseCounter(h)` of main.go
changes the map of a `ShredMap`, `UpdateShredSlave(h)` as `DecreaseCounter(h)`, and
every sequence of updates, from any map and from the empty one both start with,
yields equal maps. -/
theorem variants_agree :
    (∀ (m : Finmap (fun _ : String => GoInt)) (h : String),
        UpdateShredMaster m h = ((ShredMap.mk m).IncreaseCounter h).shred)
      ∧ (∀ (m : Finmap (fun _ : String => GoInt)) (h : String),
        UpdateShredSlave m h = ((ShredMap.mk m).DecreaseCounter h).shred)
      ∧ (∀ (calls : List Call) (m : Finmap (fun _ : String => GoInt)),
        calls.foldl updateShred m = ((ShredMap.mk m).run calls).shred)
      ∧ (∀ calls : List Call, calls.foldl updateShred ∅ = (NewShredMap.run calls).shred) :=
  ⟨updateShredMaster_eq, updateShredSlave_eq, foldl_updateShred_eq,
    fun calls => foldl_updateShred_eq calls ∅⟩

section Witnesses

theorem isEmpty_iff_same_multiset_witness :
    Interleaving ["a", "b"] ["b", "a"]
        [Call.increase "a", Call.decrease "b", Call.increase "b", Call.decrease "a"]
      ∧ (((NewShredMap.run
            [Call.increase "a", Call.decrease "b", Call.increase "b", Call.decrease "a"]).IsEmpty
              = true ↔ ∀ f, ["a", "b"].count f = ["b", "a"].count f)
          ∧ ((NewShredMap.run
            [Call.increase "a", Call.decrease "b", Call.increase "b", Call.decrease "a"]).IsEmpty
              = true ↔ ((["a", "b"] : List String) : Multiset String) = (["b", "a"] : List String))) :=
  ⟨by decide,
    isEmpty_iff_same_multiset ["a", "b"] ["b", "a"]
      [Call.increase "a", Call.decrease "b", Call.increase "b", Call.decrease "a"] (by decide)
      (fun f => lt_of_le_of_lt (List.count_le_length f ["a", "b"]) (by decide))
      (fun f => lt_of_le_of_lt (List.count_le_length f ["b", "a"]) (by decide))⟩

theorem final_value_eq_net_witness :
    (NewShredMap.run [Call.increase "a", Call.increase "a", Call.decrease "a"]).value "a"
      = ((increases [Call.increase "a", Call.increase "a", Call.decrease "a"]).count "a" : Int)
        - ((decreases [Call.increase "a", Call.increase "a", Call.decrease "a"]).count "a" : Int) :=
  final_value_eq_net [Call.increase "a", Call.increase "a", Call.decrease "a"] "a"
    (by decide) (by decide)

theorem zero_removal_invariant_witness :
    (ShredMap.mk (Finmap.singleton "a" (-1))).NoZero
      ∧ ((ShredMap.mk (Finmap.singleton "a" (-1))).IncreaseCounter "a").NoZero
      ∧ ((ShredMap.mk (Finmap.singleton "a" (-1))).DecreaseCounter "b").NoZero :=
  ⟨by decide,
    zero_removal_invariant.1 (ShredMap.mk (Finmap.singleton "a" (-1))) "a" (by decide),
    zero_removal_invariant.2.1 (ShredMap.mk (Finmap.singleton "a" (-1))) "b" (by decide)⟩

theorem order_independence_witness :
    Interleaving ["a", "b"] ["a"] [Call.increase "a", Call.decrease "a", Call.increase "b"]
      ∧ Interleaving ["a", "b"] ["a"] [Call.decrease "a", Call.increase "a", Call.increase "b"]
      ∧ (ShredMap.mk (Finmap.singleton "a" 0)).run
            [Call.increase "a", Call.decrease "a", Call.increase "b"]
          = (ShredMap.mk (Finmap.singleton "a" 0)).run
            [Call.decrease "a", Call.increase "a", Call.increase "b"] :=
  ⟨by decide, by decide,
    (order_independence.2 (ShredMap.mk (Finmap.singleton "a" 0)) ["a", "b"] ["a"]
      [Call.increase "a", Call.decrease "a", Call.increase "b"]
      [Call.decrease "a", Call.increase "a", Call.increase "b"] (by decide) (by decide)).1⟩

theorem counter_symmetry_witness :
    List.Perm ["x", "y"] ["y", "x"]
      ∧ Interleaving ["x", "y"] ["y", "x"]
          [Call.increase "x", Call.decrease "y", Call.increase "y", Call.decrease "x"]
      ∧ (NewShredMap.run
          [Call.increase "x", Call.decrease "y", Call.increase "y", Call.decrease "x"]).IsEmpty
            = true
      ∧ (NewShredMap.run
          [Call.increase "x", Call.decrease "y", Call.increase "y", Call.decrease "x"]).Size = 0 :=
  ⟨List.Perm.swap "y" "x" [], by decide,
    counter_symmetry ["x", "y"] ["y", "x"]
      [Call.increase "x", Call.decrease "y", Call.increase "y", Call.decrease "x"]
      (List.Perm.swap "y" "x" []) (by decide)⟩

theorem size_eq_mismatch_count_witness :
    Interleaving ["h", "h", "k"] ["h", "j"]
        [Call.increase "h", Call.decrease "h", Call.decrease "j", Call.increase "h",
          Call.increase "k"]
      ∧ (NewShredMap.run
          [Call.increase "h", Call.decrease "h", Call.decrease "j", Call.increase "h",
            Call.increase "k"]).Size = (mismatches ["h", "h", "k"] ["h", "j"]).card :=
  ⟨by decide,
    size_eq_mismatch_count.1 ["h", "h", "k"] ["h", "j"]
      [Call.increase "h", Call.decrease "h", Call.decrease "j", Call.increase "h",
        Call.increase "k"] (by decide)
      (fun f => lt_of_le_of_lt (List.count_le_length f ["h", "h", "k"]) (by decide))
      (fun f => lt_of_le_of_lt (List.count_le_length f ["h", "j"]) (by decide))⟩

theorem increaseCounter_spec_witness :
    (ShredMap.mk (Finmap.singleton "a" 5)).shred.lookup "a" = some 5
      ∧ ((ShredMap.mk (Finmap.singleton "a" 5)).IncreaseCounter "a").shred.lookup "a"
          = some (5 + 1)
      ∧ ((ShredMap.mk (Finmap.singleton "a" (-1))).IncreaseCounter "a").shred.lookup "a" = none
      ∧ ((ShredMap.mk (Finmap.singleton "a" 5)).IncreaseCounter "b").shred.lookup "b" = some 1 :=
  ⟨by decide,
    ((increaseCounter_spec (ShredMap.mk (Finmap.singleton "a" 5)) "a").2.2.1 5
      (by decide) (by decide)).2.1,
    ((increaseCounter_spec (ShredMap.mk (Finmap.singleton "a" (-1))) "a").2.1 (by decide)).2,
    ((increaseCounter_spec (ShredMap.mk (Finmap.singleton "a" 5)) "b").1 (by decide)).2⟩

theorem decreaseCounter_spec_witness :
    (ShredMap.mk (Finmap.singleton "a" 5)).shred.lookup "a" = some 5
      ∧ ((ShredMap.mk (Finmap.singleton "a" 5)).DecreaseCounter "a").shred.lookup "a"
          = some (5 - 1)
      ∧ ((ShredMap.mk (Finmap.singleton "a" 1)).DecreaseCounter "a").shred.lookup "a" = none
      ∧ ((ShredMap.mk (Finmap.singleton "a" 5)).DecreaseCounter "b").shred.lookup "b"
          = some (-1) :=
  ⟨by decide,
    ((decreaseCounter_spec (ShredMap.mk (Finmap.singleton "a" 5)) "a").2.2.1 5
      (by decide) (by decide)).2.1,
    ((decreaseCounter_spec (ShredMap.mk (Finmap.singleton "a" 1)) "a").2.1 (by decide)).2,
    ((decreaseCounter_spec (ShredMap.mk (Finmap.singleton "a" 5)) "b").1 (by decide)).2⟩

theorem nested_array_order_witness :
    plainCodec.Lawful
      ∧ canonical plainCodec (.array [.array [.number "1", .number "2"], .string "x"])
          = some ['[', '[', '1', ',', '2', ']', ',', Char.ofNat 34, 'x', Char.ofNat 34, ']']
      ∧ canonical plainCodec (.array [.array [.number "2", .number "1"], .string "x"])
          = some ['[', '[', '2', ',', '1', ']', ',', Char.ofNat 34, 'x', Char.ofNat 34, ']']
      ∧ canonical plainCodec (.array [.number "1", .number "2"])
          ≠ canonical plainCodec (.array [.number "2", .number "1"])
      ∧ ['[', '[', '1', ',', '2', ']', ',', Char.ofNat 34, 'x', Char.ofNat 34, ']']
          ≠ ['[', '[', '2', ',', '1', ']', ',', Char.ofNat 34, 'x', Char.ofNat 34, ']']
      ∧ canonical plainCodec (.array [.number "1", .number "2"])
          = some ['[', '1', ',', '2', ']'] :=
  ⟨plainCodec_lawful, by decide, by decide, by decide,
    (nested_array_order plainCodec plainCodec_lawful).1
      [.array [.number "1", .number "2"], .string "x"]
      [.array [.number "2", .number "1"], .string "x"] _ _ 0 (by decide) (by decide)
      (by decide) (by decide) (by decide),
    ((nested_array_order plainCodec plainCodec_lawful).2 (by decide) (by decide)).1⟩

theorem no_opening_bracket_witness :
    (∀ dec, (NewDecoder "12".data).Token plainCodec jsonRead ≠ (.ok (.delim '['), dec))
      ∧ ((∃ err, StreamedJParse plainCodec jsonRead record "12".data [] = some (some err, []))
        ∧ (∃ err, StreamedJParse plainCodec jsonRead record "12".data [] = some (some err, []))
        ∧ StreamedJParse plainCodec jsonRead record [Char.ofNat 125] []
          = some (some
            "failed to read open bracket: invalid character '\x7d' looking for beginning of value",
            []))
      ∧ StreamedJParse plainCodec jsonRead record "12".data []
        = some (some "expected JSON array but got float64", [])
      ∧ StreamedJParse plainCodec jsonRead record "\x7b\"a\": 1\x7d".data []
        = some (some "expected opening bracket '[' but got \x7b", [])
      ∧ StreamedJParse plainCodec jsonRead record [] []
        = some (some "failed to read open bracket: EOF", []) :=
  have h : ∀ dec, (NewDecoder "12".data).Token plainCodec jsonRead ≠ (.ok (.delim '['), dec) :=
    token_not_open plainCodec jsonRead "12".data
      (fun body hb => by simp [skipSpace, isSpace] at hb)
  ⟨h, no_opening_bracket plainCodec jsonRead record "12".data [] h, rfl, rfl, rfl⟩

set_option maxRecDepth 100000 in
theorem closing_bracket_required_witness :
    jsonRead.Consumes
      ∧ ScansItems jsonRead .arrayStart "1 \x7d".data [JText.number "1"] .arrayComma
          " \x7d".data
      ∧ (∃ err, StreamedJParse plainCodec jsonRead record "[1 \x7d".data []
          = some (some ("failed to read closing bracket: " ++ err),
              applyAll record (fingerprints plainCodec [JText.number "1"]) []))
      ∧ StreamedJParse plainCodec jsonRead record "[1 \x7d".data []
        = some (some "failed to read closing bracket: invalid character '\x7d' after array element",
            [HashAnything (utf8 "1".data)])
      ∧ StreamedJParse plainCodec jsonRead record "[1".data []
        = some (some "failed to read closing bracket: EOF", [HashAnything (utf8 "1".data)]) :=
  have hs : ScansItems jsonRead .arrayStart "1 \x7d".data [JText.number "1"] .arrayComma
      " \x7d".data :=
    ScansItems.first (rfl : skipSpace "1 \x7d".data = '1' :: " \x7d".data)
      (by decide) (by decide) rfl (ScansItems.done _ _)
  ⟨jsonRead_consumes, hs,
    ((closing_bracket_required plainCodec jsonRead record "[1 \x7d".data [] jsonRead_consumes).2.1
      "1 \x7d".data [JText.number "1"] .arrayComma " \x7d".data rfl hs (by decide) rfl).2
      (fun rest hb => by simp [skipSpace, isSpace] at hb),
    by decide, by decide⟩

set_option maxRecDepth 100000 in
theorem decode_failure_stops_witness :
    jsonRead.Consumes
      ∧ ScansItems jsonRead .arrayStart "1, 2, abc]".data [JText.number "1", JText.number "2"]
          .arrayComma ", abc]".data
      ∧ ElementFails plainCodec jsonRead .arrayComma ", abc]".data
          "invalid character 'a' looking for beginning of value"
      ∧ StreamedJParse plainCodec jsonRead record "[1, 2, abc]".data []
        = some (some "failed to decode: invalid character 'a' looking for beginning of value",
            [HashAnything (utf8 "1".data), HashAnything (utf8 "2".data)])
      ∧ StreamedJParse plainCodec jsonRead record "[1 2]".data []
        = some (some "failed to decode: expected comma after array element",
            [HashAnything (utf8 "1".data)]) :=
  have hs : ScansItems jsonRead .arrayStart "1, 2, abc]".data
      [JText.number "1", JText.number "2"] .arrayComma ", abc]".data :=
    ScansItems.first (rfl : skipSpace "1, 2, abc]".data = '1' :: ", 2, abc]".data)
      (by decide) (by decide) rfl
      (ScansItems.next (rfl : skipSpace ", 2, abc]".data = ',' :: " 2, abc]".data) rfl
        (ScansItems.done _ _))
  have hf : ElementFails plainCodec jsonRead .arrayComma ", abc]".data
      "invalid character 'a' looking for beginning of value" := ⟨rfl, rfl⟩
  ⟨jsonRead_consumes, hs, hf,
    (decode_failure_stops plainCodec jsonRead record "[1, 2, abc]".data "1, 2, abc]".data
      ", abc]".data .arrayComma [JText.number "1", JText.number "2"]
      "invalid character 'a' looking for beginning of value" [] jsonRead_consumes rfl hs
      (by decide) hf).2.1.trans (by decide),
    by decide⟩

set_option maxRecDepth 100000 in
theorem well_formed_array_witness :
    jsonRead.Consumes
      ∧ ArrayText jsonRead
          "[\n\t\x7b\"name\": \"Alice\", \"age\": 30\x7d,\n\t\x7b\"name\": \"Bob\", \"age\": 25\x7d\n]".data
          [JText.object [("name", JText.string "Alice"), ("age", JText.number "30")],
            JText.object [("name", JText.string "Bob"), ("age", JText.number "25")]] []
      ∧ StreamedJParse plainCodec jsonRead record
          "[\n\t\x7b\"name\": \"Alice\", \"age\": 30\x7d,\n\t\x7b\"name\": \"Bob\", \"age\": 25\x7d\n]".data
          []
        = some (none,
            [HashAnything (utf8 "\x7b\"age\":30,\"name\":\"Alice\"\x7d".data),
              HashAnything (utf8 "\x7b\"age\":25,\"name\":\"Bob\"\x7d".data)]) :=
  have ha : ArrayText jsonRead
      "[\n\t\x7b\"name\": \"Alice\", \"age\": 30\x7d,\n\t\x7b\"name\": \"Bob\", \"age\": 25\x7d\n]".data
      [JText.object [("name", JText.string "Alice"), ("age", JText.number "30")],
        JText.object [("name", JText.string "Bob"), ("age", JText.number "25")]] [] :=
    ⟨_, _, _, rfl,
      ScansItems.first
        (rfl : skipSpace
            "\n\t\x7b\"name\": \"Alice\", \"age\": 30\x7d,\n\t\x7b\"name\": \"Bob\", \"age\": 25\x7d\n]".data
          = Char.ofNat 123
            :: "\"name\": \"Alice\", \"age\": 30\x7d,\n\t\x7b\"name\": \"Bob\", \"age\": 25\x7d\n]".data)
        (by decide) (by decide) rfl
        (ScansItems.next
          (rfl : skipSpace ",\n\t\x7b\"name\": \"Bob\", \"age\": 25\x7d\n]".data
            = ',' :: "\n\t\x7b\"name\": \"Bob\", \"age\": 25\x7d\n]".data)
          rfl (ScansItems.done _ _)),
      (rfl : skipSpace "\n]".data = ']' :: [])⟩
  ⟨jsonRead_consumes, ha,
    (well_formed_array plainCodec jsonRead record _ [] _ [] jsonRead_consumes ha
      (by decide)).2.1.trans (by decide)⟩

theorem main_report_witness :
    (∃ err, some err ∈ [none, some "failed to decode: unexpected EOF"])
      ∧ mainReport [none, some "failed to decode: unexpected EOF"]
          (ShredMap.mk (Finmap.singleton "a" 1))
        = .fatalError "failed to decode: unexpected EOF"
      ∧ mainReport [none, none] (ShredMap.mk (Finmap.singleton "a" 1)) = .notIdentical 1
      ∧ mainReport [none, none] NewShredMap = .identical :=
  ⟨⟨"failed to decode: unexpected EOF", by simp⟩, by decide,
    ((main_report [none, none] (ShredMap.mk (Finmap.singleton "a" 1))).2.1
      (by decide)).2 (by decide),
    ((main_report [none, none] NewShredMap).2.1 (by decide)).1 (by decide)⟩

theorem increase_decrease_inverse_witness :
    (ShredMap.mk (Finmap.singleton "a" (-1))).NoZero
      ∧ ((ShredMap.mk (Finmap.singleton "a" (-1))).IncreaseCounter "a").DecreaseCounter "a"
          = ShredMap.mk (Finmap.singleton "a" (-1))
      ∧ ((ShredMap.mk (Finmap.singleton "a" (-1))).DecreaseCounter "b").IncreaseCounter "b"
          = ShredMap.mk (Finmap.singleton "a" (-1))
      ∧ (ShredMap.mk (Finmap.singleton "a" 9223372036854775807)).NoZero
      ∧ ((ShredMap.mk (Finmap.singleton "a" 9223372036854775807)).IncreaseCounter
            "a").DecreaseCounter "a"
          = ShredMap.mk (Finmap.singleton "a" 9223372036854775807) :=
  ⟨by decide,
    (increase_decrease_inverse.1 (ShredMap.mk (Finmap.singleton "a" (-1))) "a" (by decide)).1,
    (increase_decrease_inverse.1 (ShredMap.mk (Finmap.singleton "a" (-1))) "b" (by decide)).2,
    by decide,
    (increase_decrease_inverse.1 (ShredMap.mk (Finmap.singleton "a" 9223372036854775807)) "a"
      (by decide)).1⟩

end Witnesses

end Claims

end FCompare
